import Mathlib

/-!
# Chained hash table over a doubly-linked list (`src/llht`)

A shallow embedding of `LinkedList.cpp` and `HashTable.cpp`.

Modelling conventions.

* Node pointers are addresses (`Nat`); `nullptr` is `none`.  Each `LinkedList`
  carries the memory cells of its own nodes (`mem`) together with the next
  address that `new LinkedListNode()` hands out (`brk`): the sources never move
  a node from one list to another, so every list owns a region of its own.
  `delete node` empties the cell; a pointer to an emptied cell is dangling.
  No address is handed out twice, so a pointer to a deleted node stays invalid
  for good, as the language has it, also where an allocator would hand the
  cell out again.
* A function returns `Option`: `none` stands for "no defined result", which is
  either undefined behaviour (a null or dangling pointer is dereferenced, an
  array is read out of bounds, an uninitialised pointer is dereferenced, a
  division by zero) or a loop that is still running when the fuel is exhausted.
* `bool f(..., T* out)` becomes a result `(Bool × Option T × ...)`: the second
  component is what was written through the return parameter (`none`: nothing
  was written).
* `size_t` counters count live allocations and are modelled as `Nat`; the two
  places where wrap-around can be observed (decrementing a zero counter,
  incrementing the bucket index of a table iterator) are modelled explicitly.
  The `int` loop counters of the bucket loops are taken as unbounded.  The
  `uint64_t` arithmetic of `FNVHash64` is reduced modulo `2 ^ 64`.
* A payload pointer (`LLPayload_t`, in the table an `HTKeyValue_t*` to a record
  owned by exactly one node) is modelled by the record it points to.
-/

namespace Llht

/-! ## LinkedList_priv.hpp -/

/-- A single node within a linked list (`struct ll_node`). -/
structure LinkedListNode (α : Type) where
  payload : α
  next : Option Nat
  prev : Option Nat

/-- The list header (`struct ll`) together with the memory region of its nodes. -/
structure LinkedList (α : Type) where
  num_elements : Nat
  head : Option Nat
  tail : Option Nat
  mem : Nat → Option (LinkedListNode α)
  brk : Nat

/-- A linked list iterator (`struct ll_iter`): `list` names the list it is for
(in a table: the index of the bucket), `node` is the node it is at. -/
structure LLIterator where
  list : Nat
  node : Option Nat
deriving DecidableEq

/-- Writing a node record into the cell at address `a`. -/
def store {α : Type} (mem : Nat → Option (LinkedListNode α)) (a : Nat)
    (n : LinkedListNode α) : Nat → Option (LinkedListNode α) :=
  fun b => if b = a then some n else mem b

/-- Emptying the cell at address `a` (`delete node`). -/
def release {α : Type} (mem : Nat → Option (LinkedListNode α)) (a : Nat) :
    Nat → Option (LinkedListNode α) :=
  fun b => if b = a then none else mem b

/-- The assignment `p->next = v`; `p` has to point to a live node. -/
def setNext {α : Type} (mem : Nat → Option (LinkedListNode α)) (p : Nat) (v : Option Nat) :
    Option (Nat → Option (LinkedListNode α)) :=
  match mem p with
  | none => none
  | some n => some (store mem p { n with next := v })

/-- The assignment `p->prev = v`; `p` has to point to a live node. -/
def setPrev {α : Type} (mem : Nat → Option (LinkedListNode α)) (p : Nat) (v : Option Nat) :
    Option (Nat → Option (LinkedListNode α)) :=
  match mem p with
  | none => none
  | some n => some (store mem p { n with prev := v })

/-- The guarded assignment `if (p != nullptr) p->next = v;`. -/
def setNextIf {α : Type} (mem : Nat → Option (LinkedListNode α)) (p : Option Nat)
    (v : Option Nat) : Option (Nat → Option (LinkedListNode α)) :=
  match p with
  | none => some mem
  | some a => setNext mem a v

/-- The guarded assignment `if (p != nullptr) p->prev = v;`. -/
def setPrevIf {α : Type} (mem : Nat → Option (LinkedListNode α)) (p : Option Nat)
    (v : Option Nat) : Option (Nat → Option (LinkedListNode α)) :=
  match p with
  | none => some mem
  | some a => setPrev mem a v

/-- The value of a `size_t` after `--`. -/
def sizeDec (n : Nat) : Nat := if n = 0 then 2 ^ 64 - 1 else n - 1

/-! ## LinkedList.cpp -/

/-- Embeds `LinkedList_New` (LinkedList.cpp 9-17). -/
def LinkedList_New {α : Type} : LinkedList α :=
  { num_elements := 0, head := none, tail := none, mem := fun _ => none, brk := 0 }

/-- Embeds `LinkedList_NumElements` (LinkedList.cpp 36-38). -/
def LinkedList_NumElements {α : Type} (list : LinkedList α) : Nat := list.num_elements

/-- Embeds `LinkedList_Push` (LinkedList.cpp 40-54). -/
def LinkedList_Push {α : Type} (list : LinkedList α) (payload : α) : Option (LinkedList α) :=
  let node := list.brk
  let mem1 := store list.mem node { payload := payload, next := list.head, prev := none }
  match setPrevIf mem1 list.head (some node) with
  | none => none
  | some m =>
    some { num_elements := list.num_elements + 1
           head := some node
           tail := if list.tail = none then some node else list.tail
           mem := m
           brk := list.brk + 1 }

/-- Embeds `LinkedList_Pop` (LinkedList.cpp 56-76). -/
def LinkedList_Pop {α : Type} (list : LinkedList α) : Option (Bool × Option α × LinkedList α) :=
  if list.num_elements = 0 then some (false, none, list)
  else
    match list.head with
    | none => none
    | some a =>
      match list.mem a with
      | none => none
      | some node =>
        match setPrevIf list.mem node.next none with
        | none => none
        | some m =>
          some (true, some node.payload,
            { list with head := node.next, mem := release m a,
                        num_elements := list.num_elements - 1 })

/-- Embeds `LinkedList_Append` (LinkedList.cpp 78-94). -/
def LinkedList_Append {α : Type} (list : LinkedList α) (payload : α) : Option (LinkedList α) :=
  let node := list.brk
  let mem1 := store list.mem node { payload := payload, next := none, prev := list.tail }
  match setNextIf mem1 list.tail (some node) with
  | none => none
  | some m =>
    some { num_elements := list.num_elements + 1
           head := if list.head = none then some node else list.head
           tail := some node
           mem := m
           brk := list.brk + 1 }

/-- Embeds `LinkedList_Slice` (LinkedList.cpp 96-110). -/
def LinkedList_Slice {α : Type} (list : LinkedList α) : Option (Bool × Option α × LinkedList α) :=
  if list.num_elements = 0 then some (false, none, list)
  else
    match list.tail with
    | none => none
    | some a =>
      match list.mem a with
      | none => none
      | some node =>
        match setNextIf list.mem node.prev none with
        | none => none
        | some m =>
          some (true, some node.payload,
            { list with tail := node.prev, mem := release m a,
                        num_elements := list.num_elements - 1 })

/-- The `while (list->head != nullptr)` loop of `LinkedList_Delete`
(LinkedList.cpp 25-30); the result lists the payloads handed to
`payload_free_function`, in call order. -/
def LinkedList_Delete_loop {α : Type} :
    Nat → (Nat → Option (LinkedListNode α)) → Option Nat → Option (List α)
  | _, _, none => some []
  | 0, _, some _ => none
  | fuel + 1, mem, some a =>
    match mem a with
    | none => none
    | some node =>
      match LinkedList_Delete_loop fuel (release mem a) node.next with
      | none => none
      | some ps => some (node.payload :: ps)

/-- Embeds `LinkedList_Delete` (LinkedList.cpp 19-34): the list is gone afterwards, the
result is the sequence of disposer calls. -/
def LinkedList_Delete {α : Type} (fuel : Nat) (list : LinkedList α) : Option (List α) :=
  LinkedList_Delete_loop fuel list.mem list.head

/-- Embeds `LLIterator_New` (LinkedList.cpp 115-120); `h` is the pointer to the list. -/
def LLIterator_New {α : Type} (h : Nat) (list : LinkedList α) : LLIterator :=
  { list := h, node := list.head }

/-- Embeds `LLIterator_IsValid` (LinkedList.cpp 127-130). -/
def LLIterator_IsValid (iter : LLIterator) : Bool := iter.node.isSome

/-- Embeds `LLIterator_Next` (LinkedList.cpp 132-140). -/
def LLIterator_Next {α : Type} (list : LinkedList α) (iter : LLIterator) :
    Option (Bool × LLIterator) :=
  match iter.node with
  | none => some (false, iter)
  | some a =>
    match list.mem a with
    | none => none
    | some node => some (true, { iter with node := node.next })

/-- Embeds `LLIterator_Get` (LinkedList.cpp 142-147): `payload` is the content of the
return parameter before the call (`none`: uninitialised), the result its
content after the call. -/
def LLIterator_Get {α : Type} (list : LinkedList α) (iter : LLIterator)
    (payload : Option α) : Option (Option α) :=
  match iter.node with
  | none => some payload
  | some a =>
    match list.mem a with
    | none => none
    | some node => some (some node.payload)

/-- Embeds `LLIterator_Remove` (LinkedList.cpp 149-197).  The result holds the return
value, the payloads handed to `payload_free_function`, the iterator after the
call (`none`: the iterator object itself was deleted, line 169) and the list
after the call.  Line 172 writes `iter->node.prev`, which is no member access
on a pointer; it is read as `iter->node->prev`.  Line 195 reads
`iter->node->next` after line 194 has deleted `iter->node`. -/
def LLIterator_Remove {α : Type} (list : LinkedList α) (iter : LLIterator) :
    Option (Bool × List α × Option LLIterator × LinkedList α) :=
  if list.num_elements ≤ 1 then
    match iter.node with
    | none => none
    | some a =>
      match list.mem a with
      | none => none
      | some node =>
        some (false, [node.payload], none,
          { list with head := none, tail := none, num_elements := 0,
                      mem := release list.mem a })
  else
    match iter.node with
    | none => none
    | some a =>
      match list.mem a with
      | none => none
      | some node =>
        match node.prev with
        | none =>
          match node.next with
          | none => none
          | some h =>
            match setPrev list.mem h none with
            | none => none
            | some m =>
              some (true, [node.payload], some { iter with node := some h },
                { list with head := some h, num_elements := list.num_elements - 1,
                            mem := release m a })
        | some p =>
          match node.next with
          | none =>
            match setNext list.mem p none with
            | none => none
            | some m =>
              some (true, [node.payload], some { iter with node := some p },
                { list with tail := some p, num_elements := list.num_elements - 1,
                            mem := release m a })
          | some nx =>
            match setNext list.mem p (some nx) with
            | none => none
            | some m1 =>
              match setPrev m1 nx (some p) with
              | none => none
              | some m2 =>
                match release m2 a a with
                | none => none
                | some freed =>
                  some (true, [node.payload], some { iter with node := freed.next },
                    { list with num_elements := list.num_elements - 1,
                                mem := release m2 a })

/-- Embeds `LLIterator_Rewind` (LinkedList.cpp 200-202). -/
def LLIterator_Rewind {α : Type} (list : LinkedList α) (iter : LLIterator) : LLIterator :=
  { iter with node := list.head }

/-- The scan `node = chain->head; while (node != nullptr) { if (test(node->payload))
...; node = node->next; }` shared by `HashTable_Insert` (HashTable.cpp 122-130),
`HashTable_Find` (143-150) and `HashTable_Remove` (161-170): the first node whose
payload passes `test`, or `some none` when the chain ends without one. -/
def chainFind {α : Type} (test : α → Bool) (mem : Nat → Option (LinkedListNode α)) :
    Nat → Option Nat → Option (Option (Nat × LinkedListNode α))
  | _, none => some none
  | 0, some _ => none
  | fuel + 1, some a =>
    match mem a with
    | none => none
    | some node => if test node.payload then some (some (a, node)) else chainFind test mem fuel node.next

/-- Modelled from the spec: `LinkedList_Remove(chain, payload)` is called by
`HashTable_Remove` (HashTable.cpp 165) but neither declared in `LinkedList.hpp`
nor defined in `LinkedList.cpp`.  The spec says of the table removal that it
"detaches the node" of the matching entry: the model looks up the first node
holding the given payload pointer, links its neighbours (or the list head and
tail) past it, frees the node and decrements the element count.  A payload that
is in no node leaves the list as it is. -/
def LinkedList_Remove {α : Type} [DecidableEq α] (fuel : Nat) (list : LinkedList α)
    (payload : α) : Option (LinkedList α) :=
  match chainFind (fun p => decide (p = payload)) list.mem fuel list.head with
  | none => none
  | some none => some list
  | some (some (a, node)) =>
    match setNextIf list.mem node.prev node.next with
    | none => none
    | some m1 =>
      match setPrevIf m1 node.next node.prev with
      | none => none
      | some m2 =>
        some { num_elements := sizeDec list.num_elements
               head := if node.prev = none then node.next else list.head
               tail := if node.next = none then node.prev else list.tail
               mem := release m2 a
               brk := list.brk }

/-! ## HashTable_priv.hpp -/

/-- The stored record `HTKeyValue_t` (hash, key, value); `HashTable.hpp` is not
among the sources, so the key and value types are parameters. -/
structure HTKeyValue_t (K V : Type) where
  hash : Nat
  key : K
  value : V
deriving DecidableEq

/-- The hash table record (`struct ht`). -/
structure HashTable (K V : Type) where
  num_buckets : Nat
  num_elements : Nat
  buckets : List (LinkedList (HTKeyValue_t K V))
  key_cmp_fn : K → K → Bool

/-- The hash table iterator (`struct ht_it`); the table `ht` it points into is
passed to every iterator function. -/
structure HTIterator where
  bucket_idx : Nat
  bucket_it : Option LLIterator
deriving DecidableEq

/-! ## HashTable.cpp -/

/-- Embeds `k_invalid_index` (HashTable.cpp 11): `(size_t) -1`. -/
def k_invalid_index : Nat := 2 ^ 64 - 1

/-- Embeds `HashKeyToBucketNum` (HashTable.cpp 18-20); the remainder by zero is undefined. -/
def HashKeyToBucketNum {K V : Type} (ht : HashTable K V) (hash : Nat) : Option Nat :=
  if ht.num_buckets = 0 then none else some (hash % ht.num_buckets)

/-- Embeds `FNV1_64_INIT` (HashTable.cpp 36). -/
def FNV1_64_INIT : Nat := 0xcbf29ce484222325

/-- Embeds `FNV_64_PRIME` (HashTable.cpp 37). -/
def FNV_64_PRIME : Nat := 0x100000001b3

/-- The loop `while (bp < be)` of `FNVHash64` (HashTable.cpp 43-48) with `k` octets
to go, `bp` the index of the next octet and `hval` the `uint64_t` accumulator.
Reading past the end of the buffer is undefined. -/
def FNVHash64_loop (buffer : List (Fin 256)) : Nat → Nat → Nat → Option Nat
  | 0, _, hval => some hval
  | k + 1, bp, hval =>
    match buffer[bp]? with
    | none => none
    | some octet =>
      FNVHash64_loop buffer k (bp + 1) (((hval ^^^ octet.val) * FNV_64_PRIME) % 2 ^ 64)

/-- Embeds `FNVHash64` (HashTable.cpp 32-50).  The buffer is a list of octets
(`unsigned char`), `len` the `int` argument; with a negative `len` the pointer
`bp + len` lies before the buffer, which is undefined. -/
def FNVHash64 (buffer : List (Fin 256)) (len : Int) : Option Nat :=
  if len < 0 then none else FNVHash64_loop buffer len.toNat 0 FNV1_64_INIT

/-- Embeds `HashTable_New` (HashTable.cpp 53-68). -/
def HashTable_New {K V : Type} (num_buckets : Nat) (key_compare_function : K → K → Bool) :
    HashTable K V :=
  { num_buckets := num_buckets
    num_elements := 0
    buckets := List.replicate num_buckets LinkedList_New
    key_cmp_fn := key_compare_function }

/-- The `while (LinkedList_NumElements(bucket) > 0)` loop of `HashTable_Delete`
(HashTable.cpp 83-87): the entries handed to `kv_free_function`, and the chain
that is left. -/
def HashTable_Delete_chain {α : Type} : Nat → LinkedList α → Option (List α × LinkedList α)
  | 0, bucket => if LinkedList_NumElements bucket > 0 then none else some ([], bucket)
  | fuel + 1, bucket =>
    if LinkedList_NumElements bucket > 0 then
      match LinkedList_Pop bucket with
      | none => none
      | some (_, none, _) => none
      | some (_, some kv, bucket1) =>
        match HashTable_Delete_chain fuel bucket1 with
        | none => none
        | some (kvs, bucket2) => some (kv :: kvs, bucket2)
    else some ([], bucket)

/-- The bucket loop of `HashTable_Delete` (HashTable.cpp 75-91), from bucket `i`
on, `k` buckets to go. -/
def HashTable_Delete_buckets {α : Type} (fuel : Nat) (buckets : List (LinkedList α)) :
    Nat → Nat → Option (List α)
  | 0, _ => some []
  | k + 1, i =>
    match buckets[i]? with
    | none => none
    | some bucket =>
      match HashTable_Delete_chain fuel bucket with
      | none => none
      | some (kvs, bucket1) =>
        match LinkedList_Delete fuel bucket1 with
        | none => none
        | some _ =>
          match HashTable_Delete_buckets fuel buckets k (i + 1) with
          | none => none
          | some rest => some (kvs ++ rest)

/-- Embeds `HashTable_Delete` (HashTable.cpp 71-96): the table is gone afterwards, the
result is the sequence of entries `kv_free_function` was called on. -/
def HashTable_Delete {K V : Type} (fuel : Nat) (table : HashTable K V) :
    Option (List (HTKeyValue_t K V)) :=
  HashTable_Delete_buckets fuel table.buckets table.num_buckets 0

/-- Embeds `HashTable_NumElements` (HashTable.cpp 99-101). -/
def HashTable_NumElements {K V : Type} (table : HashTable K V) : Nat := table.num_elements

/-- The search loop of `HTIterator_New` (HashTable.cpp 194-199): the index of
the first bucket, from `i` on with `k` buckets to go, that has elements. -/
def HTIterator_New_scan {α : Type} (buckets : List (LinkedList α)) :
    Nat → Nat → Option (Option Nat)
  | 0, _ => some none
  | k + 1, i =>
    match buckets[i]? with
    | none => none
    | some bucket =>
      if LinkedList_NumElements bucket > 0 then some (some i)
      else HTIterator_New_scan buckets k (i + 1)

/-- Embeds `HTIterator_New` (HashTable.cpp 178-202). -/
def HTIterator_New {K V : Type} (table : HashTable K V) : Option HTIterator :=
  if table.num_elements = 0 ∨ table.num_buckets = 0 then
    some { bucket_idx := k_invalid_index, bucket_it := none }
  else
    match HTIterator_New_scan table.buckets table.num_buckets 0 with
    | none => none
    | some found =>
      let idx := found.getD 0
      match table.buckets[idx]? with
      | none => none
      | some bucket => some { bucket_idx := idx, bucket_it := some (LLIterator_New idx bucket) }

/-- Embeds `HTIterator_IsValid` (HashTable.cpp 213-217). -/
def HTIterator_IsValid (iter : HTIterator) : Bool := iter.bucket_it.isSome

/-- Embeds `HTIterator_Next` (HashTable.cpp 219-233). -/
def HTIterator_Next {K V : Type} (ht : HashTable K V) (iter : HTIterator) :
    Option (Bool × HTIterator) :=
  match iter.bucket_it with
  | none => some (false, iter)
  | some lit =>
    match ht.buckets[lit.list]? with
    | none => none
    | some list =>
      match LLIterator_Next list lit with
      | none => none
      | some (true, lit1) => some (true, { iter with bucket_it := some lit1 })
      | some (false, lit1) =>
        let idx := (iter.bucket_idx + 1) % 2 ^ 64
        if idx ≥ ht.num_buckets then
          some (false, { bucket_idx := idx, bucket_it := some lit1 })
        else
          match ht.buckets[idx]? with
          | none => none
          | some bucket =>
            some (true, { bucket_idx := idx, bucket_it := some (LLIterator_New idx bucket) })

/-- Embeds `HTIterator_Get` (HashTable.cpp 235-244).  The local `payload` starts
uninitialised; when `LLIterator_Get` returns without writing it, line 242
dereferences an uninitialised pointer. -/
def HTIterator_Get {K V : Type} (ht : HashTable K V) (iter : HTIterator) :
    Option (Bool × Option (HTKeyValue_t K V)) :=
  match iter.bucket_it with
  | none => some (false, none)
  | some lit =>
    match ht.buckets[lit.list]? with
    | none => none
    | some list =>
      match LLIterator_Get list lit none with
      | none => none
      | some none => none
      | some (some kv) => some (true, some kv)

/-- The migration loop of `MaybeResize` (HashTable.cpp 281-287):
`for (; HTIterator_IsValid(it); HTIterator_Next(it))` with body
`HTIterator_Get(it, &item); HashTable_Insert(newht, item, &unused);`.
The recursive call of `HashTable_Insert` is the parameter `insert`. -/
def MaybeResize_loop {K V : Type}
    (insert : HashTable K V → HTKeyValue_t K V →
      Option (Bool × Option (HTKeyValue_t K V) × HashTable K V))
    (ht : HashTable K V) : Nat → HTIterator → HashTable K V → Option (HashTable K V)
  | 0, it, newht => if HTIterator_IsValid it then none else some newht
  | fuel + 1, it, newht =>
    if HTIterator_IsValid it then
      match HTIterator_Get ht it with
      | none => none
      | some (_, none) => none
      | some (_, some item) =>
        match insert newht item with
        | none => none
        | some (_, _, newht1) =>
          match HTIterator_Next ht it with
          | none => none
          | some (_, it1) => MaybeResize_loop insert ht fuel it1 newht1
    else some newht

/-- Embeds `MaybeResize` (HashTable.cpp 268-299).  After the migration the two table
records are swapped, so the caller's table is the grown one and the record that
is deleted with the no-op disposer holds the old buckets. -/
def MaybeResize {K V : Type}
    (insert : HashTable K V → HTKeyValue_t K V →
      Option (Bool × Option (HTKeyValue_t K V) × HashTable K V))
    (fuel : Nat) (ht : HashTable K V) : Option (HashTable K V) :=
  if ht.num_elements < 3 * ht.num_buckets then some ht
  else
    let newht : HashTable K V := HashTable_New (ht.num_buckets * 9) ht.key_cmp_fn
    match HTIterator_New ht with
    | none => none
    | some it =>
      match MaybeResize_loop insert ht fuel it newht with
      | none => none
      | some newht1 =>
        match HashTable_Delete fuel ht with
        | none => none
        | some _ => some newht1

/-- Embeds `HashTable_Insert` (HashTable.cpp 103-134).  On an overwrite the node keeps
its place and its payload pointer is replaced by the new record. -/
def HashTable_Insert {K V : Type} :
    Nat → HashTable K V → HTKeyValue_t K V →
      Option (Bool × Option (HTKeyValue_t K V) × HashTable K V)
  | 0, _, _ => none
  | fuel + 1, table0, newkeyvalue =>
    match MaybeResize (HashTable_Insert fuel) fuel table0 with
    | none => none
    | some table =>
      match HashKeyToBucketNum table newkeyvalue.hash with
      | none => none
      | some bucket =>
        match table.buckets[bucket]? with
        | none => none
        | some chain =>
          match chainFind (fun kv => table.key_cmp_fn kv.key newkeyvalue.key)
              chain.mem fuel chain.head with
          | none => none
          | some (some (a, node)) =>
            let chain1 := { chain with mem := store chain.mem a { node with payload := newkeyvalue } }
            some (true, some node.payload, { table with buckets := table.buckets.set bucket chain1 })
          | some none =>
            match LinkedList_Push chain newkeyvalue with
            | none => none
            | some chain1 =>
              some (false, none,
                { table with buckets := table.buckets.set bucket chain1,
                             num_elements := table.num_elements + 1 })

/-- Embeds `HashTable_Find` (HashTable.cpp 136-152).  Line 141 names the hash
`newkeyvalue.hash`; the only hash in scope of this function is its parameter
`hash`, which is what the model passes to `HashKeyToBucketNum`. -/
def HashTable_Find {K V : Type} (fuel : Nat) (table : HashTable K V) (hash : Nat) (key : K) :
    Option (Bool × Option (HTKeyValue_t K V)) :=
  match HashKeyToBucketNum table hash with
  | none => none
  | some bucket =>
    match table.buckets[bucket]? with
    | none => none
    | some chain =>
      match chainFind (fun kv => table.key_cmp_fn kv.key key) chain.mem fuel chain.head with
      | none => none
      | some (some (_, node)) => some (true, some node.payload)
      | some none => some (false, none)

/-- The loop of `HashTable_Find` (HashTable.cpp 143-150) as a state transformer: the
third component is the node memory of the chain after the loop. -/
def HashTable_Find_scan {K V : Type} (cmp : K → K → Bool) (key : K) :
    Nat → (Nat → Option (LinkedListNode (HTKeyValue_t K V))) → Option Nat →
      Option (Bool × Option (HTKeyValue_t K V) ×
        (Nat → Option (LinkedListNode (HTKeyValue_t K V))))
  | _, mem, none => some (false, none, mem)
  | 0, _, some _ => none
  | fuel + 1, mem, some a =>
    match mem a with
    | none => none
    | some node =>
      if cmp node.payload.key key then some (true, some node.payload, mem)
      else HashTable_Find_scan cmp key fuel mem node.next

/-- Embeds `HashTable_Find` (HashTable.cpp 136-152) once more, as a state transformer:
the third component is the table after the call, put together from the table
record, the bucket array and the chain as the statements of the function leave
them. -/
def HashTable_Find_state {K V : Type} (fuel : Nat) (table : HashTable K V) (hash : Nat)
    (key : K) : Option (Bool × Option (HTKeyValue_t K V) × HashTable K V) :=
  match HashKeyToBucketNum table hash with
  | none => none
  | some bucket =>
    match table.buckets[bucket]? with
    | none => none
    | some chain =>
      match HashTable_Find_scan table.key_cmp_fn key fuel chain.mem chain.head with
      | none => none
      | some (r, out, mem1) =>
        some (r, out,
          { table with buckets := table.buckets.set bucket { chain with mem := mem1 } })

/-- Embeds `HashTable_Remove` (HashTable.cpp 154-172). -/
def HashTable_Remove {K V : Type} [DecidableEq K] [DecidableEq V] (fuel : Nat)
    (table : HashTable K V) (hash : Nat) (key : K) :
    Option (Bool × Option (HTKeyValue_t K V) × HashTable K V) :=
  match HashKeyToBucketNum table hash with
  | none => none
  | some bucket =>
    match table.buckets[bucket]? with
    | none => none
    | some chain =>
      match chainFind (fun kv => table.key_cmp_fn kv.key key) chain.mem fuel chain.head with
      | none => none
      | some (some (_, node)) =>
        match LinkedList_Remove fuel chain node.payload with
        | none => none
        | some chain1 =>
          some (true, some node.payload,
            { table with buckets := table.buckets.set bucket chain1,
                         num_elements := sizeDec table.num_elements })
      | some none => some (false, none, table)

/-- Embeds `HTIterator_Remove` (HashTable.cpp 247-265): the result holds the
return value, what `HashTable_Remove` wrote to `keyvalue`, the iterator and the
table after the call. -/
def HTIterator_Remove {K V : Type} [DecidableEq K] [DecidableEq V] (fuel : Nat)
    (ht : HashTable K V) (iter : HTIterator) :
    Option (Bool × Option (HTKeyValue_t K V) × HTIterator × HashTable K V) :=
  match HTIterator_Get ht iter with
  | none => none
  | some (false, _) => some (false, none, iter, ht)
  | some (true, none) => none
  | some (true, some kv) =>
    match HTIterator_Next ht iter with
    | none => none
    | some (_, iter1) =>
      match HashTable_Remove fuel ht kv.hash kv.key with
      | none => none
      | some (_, out, ht1) => some (true, out, iter1, ht1)

/-- The traversal loop of the specification and of `MaybeResize`: starting from an iterator,
`HTIterator_Get` then `HTIterator_Next` for as long as `HTIterator_IsValid` holds;
the result is the sequence of entries `HTIterator_Get` produced. -/
def HTIterator_traverse {K V : Type} (ht : HashTable K V) :
    Nat → HTIterator → Option (List (HTKeyValue_t K V))
  | 0, it => if HTIterator_IsValid it then none else some []
  | fuel + 1, it =>
    if HTIterator_IsValid it then
      match HTIterator_Get ht it with
      | none => none
      | some (_, none) => none
      | some (_, some kv) =>
        match HTIterator_Next ht it with
        | none => none
        | some (_, it1) =>
          match HTIterator_traverse ht fuel it1 with
          | none => none
          | some kvs => some (kv :: kvs)
    else some []

/-! ## Specification vocabulary -/

/-- The predicate `Fwd mem p cs`: following `next` from `p` visits exactly the cells `cs`
(address and payload, in order) and then reaches `nullptr`. -/
def Fwd {α : Type} (mem : Nat → Option (LinkedListNode α)) :
    Option Nat → List (Nat × α) → Prop
  | p, [] => p = none
  | p, c :: cs => p = some c.1 ∧ ∃ n, mem c.1 = some n ∧ n.payload = c.2 ∧ Fwd mem n.next cs

/-- The predicate `Chain mem pv p cs`: as `Fwd`, and every visited node points back to its
predecessor, the first one to `pv`. -/
def Chain {α : Type} (mem : Nat → Option (LinkedListNode α)) :
    Option Nat → Option Nat → List (Nat × α) → Prop
  | _, p, [] => p = none
  | pv, p, c :: cs =>
    p = some c.1 ∧ ∃ n, mem c.1 = some n ∧ n.payload = c.2 ∧ n.prev = pv ∧
      Chain mem (some c.1) n.next cs

/-- The predicate `ListWF list cs`: the list is a well-formed doubly-linked chain of the cells
`cs`, at distinct allocated addresses, and its count is their number. -/
structure ListWF {α : Type} (list : LinkedList α) (cs : List (Nat × α)) : Prop where
  chain : Chain list.mem none list.head cs
  nodup : (cs.map Prod.fst).Nodup
  bound : ∀ c ∈ cs, c.1 < list.brk
  count : list.num_elements = cs.length

/-- The address a node of a chain points back to: the last of the cells before
it, or `pv` when there is none. -/
def lastAddr {α : Type} : Option Nat → List (Nat × α) → Option Nat
  | pv, [] => pv
  | _, d :: ds => lastAddr (some d.1) ds

/-- The predicate `TableInv t bs`: the representation invariant of a table, with `bs` the cells
(address and entry, head first) of its buckets: one well-formed chain per
bucket, every entry in the bucket its hash names, and the element count equal
to the number of cells. -/
structure TableInv {K V : Type} (t : HashTable K V)
    (bs : List (List (Nat × HTKeyValue_t K V))) : Prop where
  len : t.buckets.length = t.num_buckets
  pos : 0 < t.num_buckets
  wf : List.Forall₂ ListWF t.buckets bs
  home : ∀ i cs, bs[i]? = some cs → ∀ c ∈ cs, c.2.hash % t.num_buckets = i
  count : t.num_elements = (bs.map List.length).sum

/-- The tables reached from `HashTable_New(n, key_equal)` by calls of
`HashTable_Insert` and `HashTable_Remove` that return; `ok` restricts the entries
that are inserted. -/
inductive Reachable {K V : Type} [DecidableEq K] [DecidableEq V]
    (ok : HTKeyValue_t K V → Prop) (n : Nat) (key_equal : K → K → Bool) :
    HashTable K V → Prop
  | new : Reachable ok n key_equal (HashTable_New n key_equal)
  | insert (fuel : Nat) (t t1 : HashTable K V) (e : HTKeyValue_t K V) (r : Bool)
      (old : Option (HTKeyValue_t K V)) :
      Reachable ok n key_equal t → ok e → HashTable_Insert fuel t e = some (r, old, t1) →
      Reachable ok n key_equal t1
  | remove (fuel : Nat) (t t1 : HashTable K V) (hash : Nat) (key : K) (r : Bool)
      (old : Option (HTKeyValue_t K V)) :
      Reachable ok n key_equal t → HashTable_Remove fuel t hash key = some (r, old, t1) →
      Reachable ok n key_equal t1

/-- The predicate `BucketsDistinct cmp bs`: no bucket holds two entries with `cmp`-related keys. -/
def BucketsDistinct {K V : Type} (cmp : K → K → Bool)
    (bs : List (List (Nat × HTKeyValue_t K V))) : Prop :=
  ∀ cs ∈ bs, cs.Pairwise (fun c d => cmp c.2.key d.2.key = false)

/-- The predicate `StoredOk ok bs`: every stored entry satisfies `ok`. -/
def StoredOk {K V : Type} (ok : HTKeyValue_t K V → Prop)
    (bs : List (List (Nat × HTKeyValue_t K V))) : Prop :=
  ∀ cs ∈ bs, ∀ c ∈ cs, ok c.2

/-- The entry of the tests for the number `i`: hash `i`, key `i`, value `i`. -/
def entryOf (i : Nat) : HTKeyValue_t Nat Nat := { hash := i, key := i, value := i }

/-- Key equality of the tests (`CompareKeys`), on keys that are numbers. -/
def natKeyEq : Nat → Nat → Bool := fun a b => a == b

/-- Inserting a list of entries one after the other, each call with the given fuel. -/
def insertAll {K V : Type} (fuel : Nat) : HashTable K V → List (HTKeyValue_t K V) →
    Option (HashTable K V)
  | t, [] => some t
  | t, e :: es =>
    match HashTable_Insert fuel t e with
    | none => none
    | some (_, _, t1) => insertAll fuel t1 es

/-- A table with two buckets that holds the entry for 3. -/
def tableWith3 : HashTable Nat Nat :=
  (insertAll 1 (HashTable_New 2 natKeyEq) [entryOf 3]).getD (HashTable_New 2 natKeyEq)

/-- The keys of a list without the later ones that `cmp` relates to an earlier one. -/
def distinctKeys {K : Type} (cmp : K → K → Bool) : List K → List K
  | [] => []
  | k :: ks => k :: (distinctKeys cmp ks).filter (fun k1 => !cmp k k1)

/-- The predicate `TableCells t bs`: `bs` lists, bucket by bucket, the cells (address and
entry) that following `next` from the head of the bucket visits. -/
def TableCells {K V : Type} (t : HashTable K V)
    (bs : List (List (Nat × HTKeyValue_t K V))) : Prop :=
  List.Forall₂ (fun l cs => Fwd l.mem l.head cs) t.buckets bs

/-- The keys stored in the cells `bs`, bucket by bucket. -/
def storedKeys {K V : Type} (bs : List (List (Nat × HTKeyValue_t K V))) : List K :=
  bs.flatten.map (fun c => c.2.key)

/-- Two inserts of the same key 7 under the hashes 0 and 1, into two buckets. -/
def tableSameKeyTwice : HashTable Nat Nat :=
  (insertAll 2 (HashTable_New 2 natKeyEq)
    [{ hash := 0, key := 7, value := 0 }, { hash := 1, key := 7, value := 1 }]).getD
    (HashTable_New 2 natKeyEq)

/-- One bucket that holds the entries for 0, 1 and 2: the load factor is 3. -/
def tableFull1 : HashTable Nat Nat :=
  (insertAll 4 (HashTable_New 1 natKeyEq) [entryOf 0, entryOf 1, entryOf 2]).getD
    (HashTable_New 1 natKeyEq)

/-- Two buckets that hold the entries for 0 to 5: the load factor is 3. -/
def tableFull2 : HashTable Nat Nat :=
  (insertAll 4 (HashTable_New 2 natKeyEq)
    [entryOf 0, entryOf 1, entryOf 2, entryOf 3, entryOf 4, entryOf 5]).getD
    (HashTable_New 2 natKeyEq)

/-- Removing a list of (hash, key) pairs one after the other, each call with the
given fuel. -/
def removeAll {K V : Type} [DecidableEq K] [DecidableEq V] (fuel : Nat) :
    HashTable K V → List (Nat × K) → Option (HashTable K V)
  | t, [] => some t
  | t, hk :: hks =>
    match HashTable_Remove fuel t hk.1 hk.2 with
    | none => none
    | some (_, _, t1) => removeAll fuel t1 hks

/-- The tables reached from `HashTable_New(n, key_equal)` by calls of
`HashTable_Insert`, `HashTable_Remove` and `HTIterator_Remove` that return. -/
inductive ReachableIt {K V : Type} [DecidableEq K] [DecidableEq V]
    (n : Nat) (key_equal : K → K → Bool) : HashTable K V → Prop
  | new : ReachableIt n key_equal (HashTable_New n key_equal)
  | insert (fuel : Nat) (t t1 : HashTable K V) (e : HTKeyValue_t K V) (r : Bool)
      (old : Option (HTKeyValue_t K V)) :
      ReachableIt n key_equal t → HashTable_Insert fuel t e = some (r, old, t1) →
      ReachableIt n key_equal t1
  | remove (fuel : Nat) (t t1 : HashTable K V) (hash : Nat) (key : K) (r : Bool)
      (old : Option (HTKeyValue_t K V)) :
      ReachableIt n key_equal t → HashTable_Remove fuel t hash key = some (r, old, t1) →
      ReachableIt n key_equal t1
  | iter_remove (fuel : Nat) (t t1 : HashTable K V) (it it1 : HTIterator) (r : Bool)
      (old : Option (HTKeyValue_t K V)) :
      ReachableIt n key_equal t → HTIterator_Remove fuel t it = some (r, old, it1, t1) →
      ReachableIt n key_equal t1

/-- The iterator after `k` calls of `HTIterator_Next`. -/
def HTIterator_advance {K V : Type} (ht : HashTable K V) : Nat → HTIterator → Option HTIterator
  | 0, it => some it
  | k + 1, it =>
    match HTIterator_Next ht it with
    | none => none
    | some (_, it1) => HTIterator_advance ht k it1

/-- A table with two buckets that holds the entry for 2, in bucket 0; bucket 1
is empty. -/
def tableWith2 : HashTable Nat Nat :=
  (insertAll 1 (HashTable_New 2 natKeyEq) [entryOf 2]).getD (HashTable_New 2 natKeyEq)

/-- Two buckets that held the entries for 0 to 5, after `HTIterator_Remove` on the
iterator that `HTIterator_New` returns. -/
def tableAfterIteratorRemove : HashTable Nat Nat :=
  (((HTIterator_New tableFull2).bind (HTIterator_Remove 3 tableFull2)).map
    (fun r => r.2.2.2)).getD tableFull2

/-- The chains reached from `LinkedList_New()` by calls of `LinkedList_Push`,
`LinkedList_Pop`, `LinkedList_Append`, `LinkedList_Slice` and `LLIterator_Remove`
(on any iterator) that return. -/
inductive ReachableList {α : Type} : LinkedList α → Prop
  | new : ReachableList LinkedList_New
  | push (l l1 : LinkedList α) (x : α) :
      ReachableList l → LinkedList_Push l x = some l1 → ReachableList l1
  | pop (l l1 : LinkedList α) (r : Bool) (out : Option α) :
      ReachableList l → LinkedList_Pop l = some (r, out, l1) → ReachableList l1
  | append (l l1 : LinkedList α) (x : α) :
      ReachableList l → LinkedList_Append l x = some l1 → ReachableList l1
  | slice (l l1 : LinkedList α) (r : Bool) (out : Option α) :
      ReachableList l → LinkedList_Slice l = some (r, out, l1) → ReachableList l1
  | iter_remove (l l1 : LinkedList α) (it : LLIterator) (r : Bool) (freed : List α)
      (it1 : Option LLIterator) :
      ReachableList l → LLIterator_Remove l it = some (r, freed, it1, l1) → ReachableList l1

/-- The predicate `ListInv list cs`: the chain invariant of the specification for a chain
with the cells `cs`: the links are well formed from `head` on, the count is the
number of cells, and `tail` is the last cell (`nullptr` when there is none). -/
def ListInv {α : Type} (list : LinkedList α) (cs : List (Nat × α)) : Prop :=
  ListWF list cs ∧ list.tail = lastAddr none cs

/-- Appending a list of payloads one after the other. -/
def appendAll {α : Type} : LinkedList α → List α → Option (LinkedList α)
  | l, [] => some l
  | l, x :: xs =>
    match LinkedList_Append l x with
    | none => none
    | some l1 => appendAll l1 xs

/-- Alternating `LLIterator_Get` with `LLIterator_Next`, `k` times each: the payloads
that `LLIterator_Get` wrote, in order, and the iterator at the end. -/
def LLIterator_walk {α : Type} (list : LinkedList α) :
    Nat → LLIterator → Option (List α × LLIterator)
  | 0, it => some ([], it)
  | k + 1, it =>
    match LLIterator_Get list it none with
    | none => none
    | some none => none
    | some (some p) =>
      match LLIterator_Next list it with
      | none => none
      | some (_, it1) =>
        match LLIterator_walk list k it1 with
        | none => none
        | some (ps, it2) => some (p :: ps, it2)

/-- A new chain after `LinkedList_Push(1)`. -/
def chainPush : LinkedList Nat :=
  (LinkedList_Push LinkedList_New 1).getD LinkedList_New

/-- A new chain after `LinkedList_Push(1)` and `LinkedList_Pop`. -/
def chainPushPop : LinkedList Nat :=
  ((LinkedList_Pop chainPush).map (fun r => r.2.2)).getD LinkedList_New

/-- A new chain after `LinkedList_Push(1)`, `LinkedList_Pop` and `LinkedList_Push(2)`. -/
def chainPushPopPush : LinkedList Nat :=
  (LinkedList_Push chainPushPop 2).getD LinkedList_New

/-- A new chain after `LinkedList_Append(1)`. -/
def chainAppend : LinkedList Nat :=
  (LinkedList_Append LinkedList_New 1).getD LinkedList_New

/-- A new chain after `LinkedList_Append(1)` and `LinkedList_Slice`. -/
def chainAppendSlice : LinkedList Nat :=
  ((LinkedList_Slice chainAppend).map (fun r => r.2.2)).getD LinkedList_New

/-- A new chain after `LinkedList_Append(1)`, `LinkedList_Slice` and
`LinkedList_Append(2)`. -/
def chainAppendSliceAppend : LinkedList Nat :=
  (LinkedList_Append chainAppendSlice 2).getD LinkedList_New

/-- A new chain after `LinkedList_Append` of 1, 2 and 3. -/
def chainOf3 : LinkedList Nat :=
  (appendAll LinkedList_New [1, 2, 3]).getD LinkedList_New

/-- The chain of the iterator test: a new chain after `LinkedList_Append` of 5, 4, 3, 2
and 1. -/
def chainOf5 : LinkedList Nat :=
  (appendAll LinkedList_New [5, 4, 3, 2, 1]).getD LinkedList_New

/-- The 64-bit FNV-1a fold in the words of the specification: starting from
0xcbf29ce484222325, for each byte in order
`hval := ((hval xor byte) * 0x100000001b3) mod 2^64`. -/
def fnv1a_fold (bytes : List (Fin 256)) : Nat :=
  bytes.foldl (fun hval byte => ((hval ^^^ byte.val) * 0x100000001b3) % 2 ^ 64)
    0xcbf29ce484222325

/-- The number of nodes reached by following `next` from `p` until `nullptr`; no
number when the walk reaches a deleted node or does not end within the fuel. -/
def countNext {α : Type} (mem : Nat → Option (LinkedListNode α)) :
    Nat → Option Nat → Option Nat
  | _, none => some 0
  | 0, some _ => none
  | fuel + 1, some a =>
    match mem a with
    | none => none
    | some node => (countNext mem fuel node.next).map (fun k => k + 1)

/-- The number of nodes reached by following `prev` from `p` until `nullptr`; no
number when the walk reaches a deleted node or does not end within the fuel. -/
def countPrev {α : Type} (mem : Nat → Option (LinkedListNode α)) :
    Nat → Option Nat → Option Nat
  | _, none => some 0
  | 0, some _ => none
  | fuel + 1, some a =>
    match mem a with
    | none => none
    | some node => (countPrev mem fuel node.prev).map (fun k => k + 1)

/-! ## Theorems -/

variable {α K V : Type}

/-- The function `HTIterator_Next` never turns a valid iterator into an invalid one. -/
theorem HTIterator_Next_valid (ht : HashTable K V) (it it1 : HTIterator) (r : Bool)
    (hv : HTIterator_IsValid it = true) (h : HTIterator_Next ht it = some (r, it1)) :
    HTIterator_IsValid it1 = true := by
  unfold HTIterator_Next at h
  unfold HTIterator_IsValid at hv ⊢
  cases hb : it.bucket_it with
  | none => simp [hb] at hv
  | some lit =>
    simp only [hb] at h
    cases hl : ht.buckets[lit.list]? with
    | none => simp [hl] at h
    | some list =>
      simp only [hl] at h
      cases hn : LLIterator_Next list lit with
      | none => simp [hn] at h
      | some p =>
        obtain ⟨b, lit1⟩ := p
        cases b with
        | true =>
          simp only [hn, Option.some.injEq, Prod.mk.injEq] at h
          rw [← h.2]; rfl
        | false =>
          simp only [hn] at h
          split at h
          · simp only [Option.some.injEq, Prod.mk.injEq] at h
            rw [← h.2]; rfl
          · split at h
            · simp at h
            · simp only [Option.some.injEq, Prod.mk.injEq] at h
              rw [← h.2]; rfl

/-- The migration loop of `MaybeResize` has no result when it starts from a
valid iterator, whatever the fuel. -/
theorem MaybeResize_loop_valid
    (insert : HashTable K V → HTKeyValue_t K V →
      Option (Bool × Option (HTKeyValue_t K V) × HashTable K V))
    (ht : HashTable K V) (fuel : Nat) :
    ∀ (it : HTIterator) (newht : HashTable K V), HTIterator_IsValid it = true →
      MaybeResize_loop insert ht fuel it newht = none := by
  induction fuel with
  | zero => intro it newht hv; simp [MaybeResize_loop, hv]
  | succ n ih =>
    intro it newht hv
    simp only [MaybeResize_loop, hv, if_true]
    cases hg : HTIterator_Get ht it with
    | none => rfl
    | some p =>
      obtain ⟨b, item⟩ := p
      cases item with
      | none => rfl
      | some item =>
        simp only
        cases hi : insert newht item with
        | none => rfl
        | some q =>
          obtain ⟨b1, old, newht1⟩ := q
          simp only
          cases hn : HTIterator_Next ht it with
          | none => rfl
          | some w =>
            obtain ⟨r, it1⟩ := w
            simp only
            exact ih it1 newht1 (HTIterator_Next_valid ht it it1 r hv hn)

/-- The function `HTIterator_New` on a table with elements and buckets yields a valid iterator. -/
theorem HTIterator_New_valid (table : HashTable K V) (it : HTIterator)
    (he : table.num_elements ≠ 0) (hb : table.num_buckets ≠ 0)
    (h : HTIterator_New table = some it) : HTIterator_IsValid it = true := by
  unfold HTIterator_New at h
  simp only [he, hb, or_self, if_false] at h
  cases hs : HTIterator_New_scan table.buckets table.num_buckets 0 with
  | none => simp [hs] at h
  | some found =>
    simp only [hs] at h
    cases hl : table.buckets[found.getD 0]? with
    | none => simp [hl] at h
    | some bucket =>
      simp only [hl, Option.some.injEq] at h
      rw [← h]; rfl

/-- A table at the load-factor threshold: `MaybeResize` has no result. -/
theorem MaybeResize_threshold
    (insert : HashTable K V → HTKeyValue_t K V →
      Option (Bool × Option (HTKeyValue_t K V) × HashTable K V))
    (fuel : Nat) (ht : HashTable K V) (hb : 0 < ht.num_buckets)
    (hth : 3 * ht.num_buckets ≤ ht.num_elements) :
    MaybeResize insert fuel ht = none := by
  unfold MaybeResize
  have h1 : ¬ ht.num_elements < 3 * ht.num_buckets := by omega
  simp only [h1, if_false]
  cases hn : HTIterator_New ht with
  | none => rfl
  | some it =>
    simp only
    rw [MaybeResize_loop_valid insert ht fuel it _
      (HTIterator_New_valid ht it (by omega) (by omega) hn)]

/-- An insert into a table at the load-factor threshold has no result. -/
theorem HashTable_Insert_threshold (fuel : Nat) (table : HashTable K V)
    (e : HTKeyValue_t K V) (hb : 0 < table.num_buckets)
    (hth : 3 * table.num_buckets ≤ table.num_elements) :
    HashTable_Insert fuel table e = none := by
  cases fuel with
  | zero => rfl
  | succ n =>
    simp only [HashTable_Insert, MaybeResize_threshold _ n table hb hth]

/-- Below the threshold `MaybeResize` returns the table as it is. -/
theorem MaybeResize_below
    (insert : HashTable K V → HTKeyValue_t K V →
      Option (Bool × Option (HTKeyValue_t K V) × HashTable K V))
    (fuel : Nat) (ht : HashTable K V)
    (hth : ht.num_elements < 3 * ht.num_buckets) :
    MaybeResize insert fuel ht = some ht := by
  simp [MaybeResize, hth]

/-- A traversal that starts from a valid iterator has no result. -/
theorem HTIterator_traverse_valid (ht : HashTable K V) (fuel : Nat) :
    ∀ (it : HTIterator), HTIterator_IsValid it = true →
      HTIterator_traverse ht fuel it = none := by
  induction fuel with
  | zero => intro it hv; simp [HTIterator_traverse, hv]
  | succ n ih =>
    intro it hv
    simp only [HTIterator_traverse, hv, if_true]
    cases hg : HTIterator_Get ht it with
    | none => rfl
    | some p =>
      obtain ⟨b, item⟩ := p
      cases item with
      | none => rfl
      | some item =>
        simp only
        cases hn : HTIterator_Next ht it with
        | none => rfl
        | some w =>
          obtain ⟨r, it1⟩ := w
          simp only
          rw [ih it1 (HTIterator_Next_valid ht it it1 r hv hn)]

theorem Chain_fwd {mem : Nat → Option (LinkedListNode α)} :
    ∀ {cs : List (Nat × α)} {pv p : Option Nat}, Chain mem pv p cs → Fwd mem p cs := by
  intro cs
  induction cs with
  | nil => intro pv p h; exact h
  | cons c cs ih =>
    intro pv p h
    obtain ⟨hp, n, hn, hpay, _, hrest⟩ := h
    exact ⟨hp, n, hn, hpay, ih hrest⟩

/-- A forward chain determines its cells. -/
theorem Fwd_unique {mem : Nat → Option (LinkedListNode α)} :
    ∀ {cs ds : List (Nat × α)} {p : Option Nat}, Fwd mem p cs → Fwd mem p ds → cs = ds := by
  intro cs
  induction cs with
  | nil =>
    intro ds p h1 h2
    cases ds with
    | nil => rfl
    | cons d ds =>
      obtain ⟨hp, _⟩ := h2
      simp only [Fwd] at h1
      rw [h1] at hp; cases hp
  | cons c cs ih =>
    intro ds p h1 h2
    obtain ⟨hp, n, hn, hpay, hrest⟩ := h1
    cases ds with
    | nil =>
      simp only [Fwd] at h2
      rw [h2] at hp; cases hp
    | cons d ds =>
      obtain ⟨hp2, n2, hn2, hpay2, hrest2⟩ := h2
      rw [hp] at hp2
      have h1 : c.1 = d.1 := Option.some.inj hp2
      rw [← h1, hn] at hn2
      have h2 : n = n2 := Option.some.inj hn2
      subst h2
      have h3 : c = d := Prod.ext h1 (by rw [← hpay, ← hpay2])
      rw [h3, ih hrest hrest2]

/-- The scan returns the first cell that passes the test, if it returns. -/
theorem chainFind_sound (test : α → Bool) (mem : Nat → Option (LinkedListNode α)) :
    ∀ (cs : List (Nat × α)) (fuel : Nat) (p : Option Nat)
      (r : Option (Nat × LinkedListNode α)),
      Fwd mem p cs → chainFind test mem fuel p = some r →
      (r = none ∧ ∀ x ∈ cs, test x.2 = false) ∨
      (∃ pre c post n, cs = pre ++ c :: post ∧ (∀ x ∈ pre, test x.2 = false) ∧
        test c.2 = true ∧ mem c.1 = some n ∧ n.payload = c.2 ∧ r = some (c.1, n)) := by
  intro cs
  induction cs with
  | nil =>
    intro fuel p r h hr
    simp only [Fwd] at h
    subst h
    left
    cases fuel <;> simp [chainFind] at hr <;> simp [← hr]
  | cons c cs ih =>
    intro fuel p r h hr
    obtain ⟨hp, n, hn, hpay, hrest⟩ := h
    subst hp
    cases fuel with
    | zero => simp [chainFind] at hr
    | succ fuel =>
      simp only [chainFind, hn] at hr
      by_cases ht : test n.payload = true
      · simp only [ht, if_true, Option.some.injEq] at hr
        right
        exact ⟨[], c, cs, n, rfl, by simp, by rw [← hpay]; exact ht, hn, hpay, hr.symm⟩
      · simp only [ht] at hr
        rcases ih fuel n.next r hrest hr with ⟨h1, h2⟩ | ⟨pre, d, post, m, h1, h2, h3, h4, h5, h6⟩
        · left
          refine ⟨h1, ?_⟩
          intro x hx
          rcases List.mem_cons.mp hx with hx | hx
          · rw [hx, ← hpay]; simpa using ht
          · exact h2 x hx
        · right
          refine ⟨c :: pre, d, post, m, by rw [h1]; rfl, ?_, h3, h4, h5, h6⟩
          intro x hx
          rcases List.mem_cons.mp hx with hx | hx
          · rw [hx, ← hpay]; simpa using ht
          · exact h2 x hx

/-- The scan of a chain returns when the fuel covers the length of the chain. -/
theorem chainFind_total (test : α → Bool) (mem : Nat → Option (LinkedListNode α)) :
    ∀ (cs : List (Nat × α)) (fuel : Nat) (p : Option Nat),
      Fwd mem p cs → cs.length ≤ fuel → ∃ r, chainFind test mem fuel p = some r := by
  intro cs
  induction cs with
  | nil =>
    intro fuel p h _
    simp only [Fwd] at h
    subst h
    exact ⟨none, by cases fuel <;> rfl⟩
  | cons c cs ih =>
    intro fuel p h hf
    obtain ⟨hp, n, hn, hpay, hrest⟩ := h
    subst hp
    cases fuel with
    | zero => simp at hf
    | succ fuel =>
      simp only [chainFind, hn]
      by_cases ht : test n.payload = true
      · exact ⟨some (c.1, n), by simp [ht]⟩
      · simp only [ht]
        exact ih fuel n.next hrest (by simpa using hf)

/-- Cells outside a chain do not matter to it. -/
theorem Chain_frame {mem mem1 : Nat → Option (LinkedListNode α)} :
    ∀ {cs : List (Nat × α)} {pv p : Option Nat}, Chain mem pv p cs →
      (∀ c ∈ cs, mem1 c.1 = mem c.1) → Chain mem1 pv p cs := by
  intro cs
  induction cs with
  | nil => intro pv p h _; exact h
  | cons c cs ih =>
    intro pv p h hm
    obtain ⟨hp, n, hn, hpay, hprev, hrest⟩ := h
    refine ⟨hp, n, ?_, hpay, hprev, ih hrest ?_⟩
    · rw [hm c (List.mem_cons_self _ _)]; exact hn
    · intro d hd; exact hm d (List.mem_cons_of_mem _ hd)

theorem store_same (mem : Nat → Option (LinkedListNode α)) (a : Nat) (n : LinkedListNode α) :
    store mem a n a = some n := by simp [store]

theorem store_other (mem : Nat → Option (LinkedListNode α)) (a b : Nat)
    (n : LinkedListNode α) (h : b ≠ a) : store mem a n b = mem b := by simp [store, h]

theorem release_other (mem : Nat → Option (LinkedListNode α)) (a b : Nat) (h : b ≠ a) :
    release mem a b = mem b := by simp [release, h]

/-- Every cell of a chain is a live node holding the cell's payload. -/
theorem Chain_live {mem : Nat → Option (LinkedListNode α)} :
    ∀ {cs : List (Nat × α)} {pv p : Option Nat}, Chain mem pv p cs →
      ∀ c ∈ cs, ∃ n, mem c.1 = some n ∧ n.payload = c.2 := by
  intro cs
  induction cs with
  | nil => intro pv p _ c hc; simp at hc
  | cons d cs ih =>
    intro pv p h c hc
    obtain ⟨_, n, hn, hpay, _, hrest⟩ := h
    rcases List.mem_cons.mp hc with hc | hc
    · subst hc; exact ⟨n, hn, hpay⟩
    · exact ih hrest c hc

theorem LinkedList_New_wf : ListWF (LinkedList_New : LinkedList α) [] :=
  ⟨rfl, by simp, by simp, rfl⟩

theorem LinkedList_Push_empty (list : LinkedList α) (x : α) (hh : list.head = none) :
    LinkedList_Push list x = some
      { num_elements := list.num_elements + 1
        head := some list.brk
        tail := if list.tail = none then some list.brk else list.tail
        mem := store list.mem list.brk { payload := x, next := none, prev := none }
        brk := list.brk + 1 } := by
  simp only [LinkedList_Push, hh, setPrevIf]

theorem LinkedList_Push_nonempty (list : LinkedList α) (x : α) (h : Nat)
    (n : LinkedListNode α) (hh : list.head = some h) (hn : list.mem h = some n)
    (hne : h ≠ list.brk) :
    LinkedList_Push list x = some
      { num_elements := list.num_elements + 1
        head := some list.brk
        tail := if list.tail = none then some list.brk else list.tail
        mem := store (store list.mem list.brk { payload := x, next := some h, prev := none })
          h { n with prev := some list.brk }
        brk := list.brk + 1 } := by
  have hm1 : store list.mem list.brk { payload := x, next := some h, prev := none } h
      = some n := by rw [store_other _ _ _ _ hne]; exact hn
  simp only [LinkedList_Push, hh, setPrevIf, setPrev, hm1]

/-- The function `LinkedList_Push` on a well-formed list puts a fresh cell in front. -/
theorem LinkedList_Push_wf (list : LinkedList α) (cs : List (Nat × α)) (x : α)
    (h : ListWF list cs) :
    ∃ list1, LinkedList_Push list x = some list1 ∧ ListWF list1 ((list.brk, x) :: cs) ∧
      list1.brk = list.brk + 1 := by
  obtain ⟨hch, hnd, hbd, hct⟩ := h
  cases cs with
  | nil =>
    simp only [Chain] at hch
    refine ⟨_, LinkedList_Push_empty list x hch, ⟨?_, by simp, ?_, ?_⟩, rfl⟩
    · exact ⟨rfl, _, store_same _ _ _, rfl, rfl, rfl⟩
    · intro c hc; simp at hc; subst hc; simp
    · simp [hct]
  | cons c cs =>
    obtain ⟨hhead, n, hn, hpay, hprev, hrest⟩ := hch
    have hc : c.1 < list.brk := hbd c (List.mem_cons_self _ _)
    have hne : c.1 ≠ list.brk := by omega
    refine ⟨_, LinkedList_Push_nonempty list x c.1 n hhead hn hne, ⟨?_, ?_, ?_, ?_⟩, rfl⟩
    · refine ⟨rfl, { payload := x, next := some c.1, prev := none }, ?_, rfl, rfl, ?_⟩
      · dsimp only
        rw [store_other _ _ _ _ (Ne.symm hne)]; exact store_same _ _ _
      · refine ⟨rfl, _, store_same _ _ _, hpay, rfl, ?_⟩
        apply Chain_frame hrest
        intro d hd
        have hd1 : d.1 < list.brk := hbd d (List.mem_cons_of_mem _ hd)
        have hd2 : d.1 ≠ c.1 := by
          intro he
          simp only [List.map_cons, List.nodup_cons, List.mem_map] at hnd
          exact hnd.1 ⟨d, hd, he⟩
        dsimp only
        rw [store_other _ _ _ _ hd2, store_other _ _ _ _ (by omega)]
    · simp only [List.map_cons, List.nodup_cons] at hnd ⊢
      refine ⟨?_, hnd⟩
      intro hmem
      rcases List.mem_cons.mp hmem with he | he
      · omega
      · obtain ⟨d, hd, he2⟩ := List.mem_map.mp he
        have := hbd d (List.mem_cons_of_mem _ hd)
        omega
    · intro d hd
      rcases List.mem_cons.mp hd with he | he
      · subst he; simp
      · have := hbd d he
        simp only [gt_iff_lt]; omega
    · simp [hct]

/-- Replacing the payload of one cell of a chain. -/
theorem Chain_overwrite {mem : Nat → Option (LinkedListNode α)} (c : Nat × α)
    (post : List (Nat × α)) (n : LinkedListNode α) (x : α) (hn : mem c.1 = some n) :
    ∀ (pre : List (Nat × α)) (pv p : Option Nat), Chain mem pv p (pre ++ c :: post) →
      ((pre ++ c :: post).map Prod.fst).Nodup →
      Chain (store mem c.1 { n with payload := x }) pv p (pre ++ (c.1, x) :: post) := by
  intro pre
  induction pre with
  | nil =>
    intro pv p h hnd
    obtain ⟨hp, m, hm, hpay, hprev, hrest⟩ := h
    rw [hn] at hm
    have hmn : n = m := Option.some.inj hm
    subst hmn
    refine ⟨hp, _, store_same _ _ _, rfl, hprev, ?_⟩
    apply Chain_frame hrest
    intro d hd
    apply store_other
    intro he
    simp only [List.nil_append, List.map_cons, List.nodup_cons, List.mem_map] at hnd
    exact hnd.1 ⟨d, hd, he⟩
  | cons d pre ih =>
    intro pv p h hnd
    obtain ⟨hp, m, hm, hpay, hprev, hrest⟩ := h
    have hdc : d.1 ≠ c.1 := by
      intro he
      simp only [List.cons_append, List.map_cons, List.nodup_cons, List.map_append,
        List.mem_append, List.mem_cons] at hnd
      exact hnd.1 (Or.inr (Or.inl he))
    refine ⟨hp, m, ?_, hpay, hprev, ?_⟩
    · rw [store_other _ _ _ _ hdc]; exact hm
    · exact ih _ _ hrest (by simpa using (List.nodup_cons.mp (by simpa using hnd)).2)

/-- Overwriting the payload of a cell keeps the list well formed. -/
theorem ListWF_overwrite (list : LinkedList α) (pre post : List (Nat × α)) (c : Nat × α)
    (n : LinkedListNode α) (x : α) (hn : list.mem c.1 = some n)
    (h : ListWF list (pre ++ c :: post)) :
    ListWF { list with mem := store list.mem c.1 { n with payload := x } }
      (pre ++ (c.1, x) :: post) := by
  obtain ⟨hch, hnd, hbd, hct⟩ := h
  refine ⟨Chain_overwrite c post n x hn pre _ _ hch hnd, ?_, ?_, ?_⟩
  · simpa using hnd
  · intro d hd
    rcases List.mem_append.mp hd with he | he
    · exact hbd d (List.mem_append_left _ he)
    · rcases List.mem_cons.mp he with he | he
      · subst he; exact hbd c (by simp)
      · exact hbd d (by simp [he])
  · simpa using hct

theorem lastAddr_mem : ∀ (pre : List (Nat × α)) (pv : Option Nat) (v : Nat),
    lastAddr pv pre = some v → pv = some v ∨ v ∈ pre.map Prod.fst := by
  intro pre
  induction pre with
  | nil => intro pv v h; exact Or.inl h
  | cons d pre ih =>
    intro pv v h
    right
    rcases ih (some d.1) v h with h1 | h1
    · simp [Option.some.inj h1]
    · simp only [List.map_cons, List.mem_cons]; exact Or.inr h1

/-- The node in the middle of a chain: it points back to the cell before it and
forward to the rest. -/
theorem Chain_split {mem : Nat → Option (LinkedListNode α)} (c : Nat × α)
    (post : List (Nat × α)) :
    ∀ (pre : List (Nat × α)) (pv p : Option Nat), Chain mem pv p (pre ++ c :: post) →
      ∃ n, mem c.1 = some n ∧ n.payload = c.2 ∧ n.prev = lastAddr pv pre ∧
        Chain mem (some c.1) n.next post := by
  intro pre
  induction pre with
  | nil =>
    intro pv p h
    obtain ⟨_, n, hn, hpay, hprev, hrest⟩ := h
    exact ⟨n, hn, hpay, hprev, hrest⟩
  | cons d pre ih =>
    intro pv p h
    obtain ⟨_, n, _, _, _, hrest⟩ := h
    exact ih _ _ hrest

theorem Chain_head_mem {mem : Nat → Option (LinkedListNode α)} {cs : List (Nat × α)}
    {pv p : Option Nat} (h : Chain mem pv p cs) (q : Nat) (hq : p = some q) :
    q ∈ cs.map Prod.fst := by
  cases cs with
  | nil => simp only [Chain] at h; rw [h] at hq; cases hq
  | cons c cs =>
    obtain ⟨hp, _⟩ := h
    rw [hp] at hq
    simp [Option.some.inj hq]

theorem setNext_some {mem m1 : Nat → Option (LinkedListNode α)} {p : Nat} {v : Option Nat}
    (h : setNext mem p v = some m1) :
    ∃ np, mem p = some np ∧ m1 = store mem p { np with next := v } := by
  unfold setNext at h
  cases hp : mem p with
  | none => simp [hp] at h
  | some np => simp only [hp, Option.some.injEq] at h; exact ⟨np, rfl, h.symm⟩

theorem setPrev_some {mem m1 : Nat → Option (LinkedListNode α)} {p : Nat} {v : Option Nat}
    (h : setPrev mem p v = some m1) :
    ∃ np, mem p = some np ∧ m1 = store mem p { np with prev := v } := by
  unfold setPrev at h
  cases hp : mem p with
  | none => simp [hp] at h
  | some np => simp only [hp, Option.some.injEq] at h; exact ⟨np, rfl, h.symm⟩

/-- The memory after a node has been unlinked, cell by cell. -/
theorem unlink_mem {mem m1 m2 : Nat → Option (LinkedListNode α)} (a : Nat)
    (n : LinkedListNode α)
    (h1 : setNextIf mem n.prev n.next = some m1)
    (h2 : setPrevIf m1 n.next n.prev = some m2) :
    (∀ x, x ≠ a → n.prev ≠ some x → n.next ≠ some x → release m2 a x = mem x) ∧
    (∀ q nq, n.next = some q → q ≠ a → n.prev ≠ some q → mem q = some nq →
      release m2 a q = some { nq with prev := n.prev }) ∧
    (∀ v nv, n.prev = some v → v ≠ a → n.next ≠ some v → mem v = some nv →
      release m2 a v = some { nv with next := n.next }) := by
  have hm1 : ∀ x, n.prev ≠ some x → m1 x = mem x := by
    intro x hx
    cases hp : n.prev with
    | none => simp only [hp, setNextIf, Option.some.injEq] at h1; rw [← h1]
    | some p =>
      simp only [hp, setNextIf] at h1
      obtain ⟨np, _, hm⟩ := setNext_some h1
      rw [hm, store_other]
      intro he; exact hx (by rw [hp, he])
  have hm1v : ∀ v nv, n.prev = some v → mem v = some nv →
      m1 v = some { nv with next := n.next } := by
    intro v nv hv hnv
    simp only [hv, setNextIf] at h1
    obtain ⟨np, hnp, hm⟩ := setNext_some h1
    rw [hnv] at hnp
    rw [hm, store_same, Option.some.inj hnp]
  have hm2 : ∀ x, n.next ≠ some x → m2 x = m1 x := by
    intro x hx
    cases hq : n.next with
    | none => simp only [hq, setPrevIf, Option.some.injEq] at h2; rw [← h2]
    | some q =>
      simp only [hq, setPrevIf] at h2
      obtain ⟨nq, _, hm⟩ := setPrev_some h2
      rw [hm, store_other]
      intro he; exact hx (by rw [hq, he])
  have hm2q : ∀ q nq, n.next = some q → m1 q = some nq →
      m2 q = some { nq with prev := n.prev } := by
    intro q nq hq hnq
    simp only [hq, setPrevIf] at h2
    obtain ⟨np, hnp, hm⟩ := setPrev_some h2
    rw [hnq] at hnp
    rw [hm, store_same, Option.some.inj hnp]
  refine ⟨?_, ?_, ?_⟩
  · intro x hxa hxp hxn
    rw [release_other _ _ _ hxa, hm2 x hxn, hm1 x hxp]
  · intro q nq hq hqa hqp hnq
    rw [release_other _ _ _ hqa]
    exact hm2q q nq hq (by rw [hm1 q hqp]; exact hnq)
  · intro v nv hv hva hvn hnv
    rw [release_other _ _ _ hva, hm2 v hvn]
    exact hm1v v nv hv hnv

/-- Unlinking the cell `c` of a chain leaves the chain of the other cells. -/
theorem Chain_unlink {mem m1 m2 : Nat → Option (LinkedListNode α)} (c : Nat × α)
    (post : List (Nat × α)) (n : LinkedListNode α) (hn : mem c.1 = some n)
    (h1 : setNextIf mem n.prev n.next = some m1)
    (h2 : setPrevIf m1 n.next n.prev = some m2) :
    ∀ (pre : List (Nat × α)) (pv p : Option Nat), Chain mem pv p (pre ++ c :: post) →
      ((pre ++ c :: post).map Prod.fst).Nodup →
      (∀ v, pv = some v → v ∉ (pre ++ c :: post).map Prod.fst) →
      Chain (release m2 c.1) pv (if pre.isEmpty then n.next else p) (pre ++ post) := by
  obtain ⟨F1, F2, F3⟩ := unlink_mem c.1 n h1 h2
  intro pre
  induction pre with
  | nil =>
    intro pv p h hnd hpv
    obtain ⟨_, m, hm, _, hprev, hrest⟩ := h
    rw [hn] at hm
    have hmn : n = m := Option.some.inj hm
    subst hmn
    simp only [List.nil_append, List.isEmpty_nil, if_true]
    simp only [List.nil_append, List.map_cons, List.nodup_cons] at hnd
    simp only [List.nil_append, List.map_cons, List.mem_cons, not_or] at hpv
    cases post with
    | nil => exact hrest
    | cons d post =>
      obtain ⟨hnx, nd, hnd1, hpay, _, hrest1⟩ := hrest
      have hdc : d.1 ≠ c.1 := by
        intro he; apply hnd.1; simp [he]
      have hdp : n.prev ≠ some d.1 := by
        intro he; rw [hprev] at he
        exact (hpv d.1 he).2 (by simp)
      refine ⟨hnx, _, F2 d.1 nd hnx hdc hdp hnd1, hpay, hprev, ?_⟩
      apply Chain_frame hrest1
      intro e he
      have hec : e.1 ≠ c.1 := by
        intro h3; apply hnd.1
        simp only [List.map_cons, List.mem_cons, List.mem_map]
        exact Or.inr ⟨e, he, h3⟩
      have hep : n.prev ≠ some e.1 := by
        intro h3; rw [hprev] at h3
        apply (hpv e.1 h3).2
        simp only [List.map_cons, List.mem_cons, List.mem_map]
        exact Or.inr ⟨e, he, rfl⟩
      have hen : n.next ≠ some e.1 := by
        intro h3; rw [hnx] at h3
        have h4 : d.1 = e.1 := Option.some.inj h3
        have h5 := hnd.2
        simp only [List.map_cons, List.nodup_cons, List.mem_map] at h5
        exact h5.1 ⟨e, he, h4.symm⟩
      exact F1 e.1 hec hep hen
  | cons d pre ih =>
    intro pv p h hnd hpv
    have hsplit := Chain_split c post (d :: pre) pv p h
    obtain ⟨n0, hn0, _, hprev0, hrest0⟩ := hsplit
    rw [hn] at hn0
    have hmn : n = n0 := Option.some.inj hn0
    subst hmn
    obtain ⟨hp, nd, hnd1, hpay, hprev, hrest⟩ := h
    simp only [List.cons_append, List.map_cons, List.nodup_cons] at hnd
    have hdc : d.1 ≠ c.1 := by
      intro he; apply hnd.1; simp [he]
    have hdn : n.next ≠ some d.1 := by
      intro he
      have := Chain_head_mem hrest0 d.1 he
      apply hnd.1
      simp only [List.map_append, List.map_cons, List.mem_append, List.mem_cons]
      exact Or.inr (Or.inr this)
    have hih := ih (some d.1) nd.next hrest hnd.2 (by
      intro v hv; rw [← Option.some.inj hv]; exact hnd.1)
    simp only [List.cons_append, List.isEmpty_cons, Bool.false_eq_true, if_false]
    by_cases hpre : pre = []
    · subst hpre
      simp only [lastAddr] at hprev0
      simp only [List.nil_append, List.isEmpty_nil, if_true] at hih ⊢
      exact ⟨hp, _, F3 d.1 nd hprev0 hdc hdn hnd1, hpay, hprev, hih⟩
    · have hpre2 : pre.isEmpty = false := by cases pre with
        | nil => exact absurd rfl hpre
        | cons _ _ => rfl
      simp only [hpre2, Bool.false_eq_true, if_false] at hih
      have hdp : n.prev ≠ some d.1 := by
        intro he
        rw [hprev0] at he
        simp only [lastAddr] at he
        rcases lastAddr_mem pre (some d.1) d.1 he with h3 | h3
        · cases pre with
          | nil => exact hpre rfl
          | cons e pre =>
            simp only [lastAddr] at he
            rcases lastAddr_mem pre (some e.1) d.1 he with h4 | h4
            · apply hnd.1; simp [Option.some.inj h4]
            · apply hnd.1
              simp only [List.cons_append, List.map_cons, List.map_append, List.mem_cons,
                List.mem_append]
              exact Or.inr (Or.inl h4)
        · apply hnd.1
          simp only [List.map_append, List.mem_append]
          exact Or.inl h3
      refine ⟨hp, nd, ?_, hpay, hprev, hih⟩
      rw [F1 d.1 hdc hdp hdn]; exact hnd1

theorem lastAddr_some : ∀ (pre : List (Nat × α)) (e : Nat), lastAddr (some e) pre ≠ none := by
  intro pre
  induction pre with
  | nil => intro e h; cases h
  | cons d pre ih => intro e h; exact ih d.1 h

theorem sizeDec_succ (k : Nat) : sizeDec (k + 1) = k := by simp [sizeDec]

/-- What `LinkedList_Remove` returns on a well-formed list: the list as it is when
no cell holds the payload, and otherwise the list without the first such cell. -/
theorem LinkedList_Remove_sound [DecidableEq α] (fuel : Nat) (list list1 : LinkedList α)
    (cs : List (Nat × α)) (y : α) (hwf : ListWF list cs)
    (h : LinkedList_Remove fuel list y = some list1) :
    (list1 = list ∧ ∀ x ∈ cs, x.2 ≠ y) ∨
    (∃ pre c post, cs = pre ++ c :: post ∧ (∀ x ∈ pre, x.2 ≠ y) ∧ c.2 = y ∧
      ListWF list1 (pre ++ post) ∧ list1.brk = list.brk) := by
  unfold LinkedList_Remove at h
  cases hf : chainFind (fun p => decide (p = y)) list.mem fuel list.head with
  | none => simp [hf] at h
  | some r =>
    rcases chainFind_sound _ _ cs fuel list.head r (Chain_fwd hwf.chain) hf with
      ⟨hr, hall⟩ | ⟨pre, c, post, n, hcs, hpre, hc, hn, hpay, hr⟩
    · subst hr
      simp only [hf, Option.some.injEq] at h
      left
      exact ⟨h.symm, fun x hx => by simpa using hall x hx⟩
    · subst hr
      right
      simp only [hf] at h
      refine ⟨pre, c, post, hcs, fun x hx => by simpa using hpre x hx, by simpa using hc, ?_⟩
      subst hcs
      obtain ⟨hch, hnd, hbd, hct⟩ := hwf
      cases h1 : setNextIf list.mem n.prev n.next with
      | none => simp [h1] at h
      | some m1 =>
        simp only [h1] at h
        cases h2 : setPrevIf m1 n.next n.prev with
        | none => simp [h2] at h
        | some m2 =>
          simp only [h2, Option.some.injEq] at h
          subst h
          have hsplit := Chain_split c post pre none list.head hch
          obtain ⟨n0, hn0, _, hprev0, _⟩ := hsplit
          rw [hn] at hn0
          have hmn : n = n0 := Option.some.inj hn0
          subst hmn
          have hun := Chain_unlink c post n hn h1 h2 pre none list.head hch hnd
            (by intro v hv; cases hv)
          refine ⟨⟨?_, ?_, ?_, ?_⟩, rfl⟩
          · dsimp only
            cases pre with
            | nil =>
              simp only [lastAddr] at hprev0
              simpa [hprev0] using hun
            | cons d pre =>
              have hne : n.prev ≠ none := by
                rw [hprev0]; exact lastAddr_some pre d.1
              simpa [hne] using hun
          · have := hnd
            simp only [List.map_append, List.map_cons] at this ⊢
            exact (List.nodup_cons.mp (List.nodup_middle.mp this)).2
          · intro d hd
            apply hbd
            rcases List.mem_append.mp hd with he | he
            · exact List.mem_append_left _ he
            · exact List.mem_append_right _ (List.mem_cons_of_mem _ he)
          · dsimp only
            rw [hct]
            simp only [List.length_append, List.length_cons]
            rw [← Nat.add_assoc, sizeDec_succ]

/-- The function `LinkedList_Remove` returns on a well-formed list once the fuel covers its length. -/
theorem LinkedList_Remove_total [DecidableEq α] (fuel : Nat) (list : LinkedList α)
    (cs : List (Nat × α)) (y : α) (hwf : ListWF list cs) (hf : cs.length ≤ fuel) :
    ∃ list1, LinkedList_Remove fuel list y = some list1 := by
  obtain ⟨r, hr⟩ := chainFind_total (fun p => decide (p = y)) list.mem cs fuel list.head
    (Chain_fwd hwf.chain) hf
  unfold LinkedList_Remove
  rcases chainFind_sound _ _ cs fuel list.head r (Chain_fwd hwf.chain) hr with
    ⟨hr1, _⟩ | ⟨pre, c, post, n, hcs, _, _, hn, _, hr1⟩
  · subst hr1; exact ⟨list, by simp only [hr]⟩
  · subst hr1
    subst hcs
    simp only [hr]
    obtain ⟨n0, hn0, _, hprev0, hrest0⟩ := Chain_split c post pre none list.head hwf.chain
    rw [hn] at hn0
    have hmn : n = n0 := Option.some.inj hn0
    subst hmn
    have hlive := Chain_live hwf.chain
    have h1 : ∃ m1, setNextIf list.mem n.prev n.next = some m1 ∧
        ∀ x, (list.mem x).isSome = true → (m1 x).isSome = true := by
      cases hp : n.prev with
      | none => exact ⟨list.mem, rfl, fun x hx => hx⟩
      | some v =>
        rw [hp] at hprev0
        rcases lastAddr_mem pre none v hprev0.symm with h3 | h3
        · cases h3
        · obtain ⟨d, hd, hdv⟩ := List.mem_map.mp h3
          obtain ⟨nd, hnd, _⟩ := hlive d (List.mem_append_left _ hd)
          rw [hdv] at hnd
          refine ⟨store list.mem v { nd with next := n.next },
            by simp only [setNextIf, setNext, hnd], ?_⟩
          intro x hx
          by_cases hxv : x = v
          · subst hxv; simp [store]
          · rw [store_other _ _ _ _ hxv]; exact hx
    obtain ⟨m1, hm1, hlive1⟩ := h1
    simp only [hm1]
    have h2 : ∃ m2, setPrevIf m1 n.next n.prev = some m2 := by
      cases hq : n.next with
      | none => exact ⟨m1, rfl⟩
      | some q =>
        have hqm := Chain_head_mem hrest0 q hq
        obtain ⟨d, hd, hdq⟩ := List.mem_map.mp hqm
        obtain ⟨nd, hnd, _⟩ := hlive d (List.mem_append_right _ (List.mem_cons_of_mem _ hd))
        rw [hdq] at hnd
        have h3 := hlive1 q (by rw [hnd]; rfl)
        cases h4 : m1 q with
        | none => rw [h4] at h3; cases h3
        | some nq =>
          exact ⟨store m1 q { nq with prev := n.prev }, by simp only [setPrevIf, setPrev, h4]⟩
    obtain ⟨m2, hm2⟩ := h2
    simp only [hm2]
    exact ⟨_, rfl⟩

theorem forall₂_getElem? {β γ : Type} {R : β → γ → Prop} :
    ∀ {l1 : List β} {l2 : List γ}, List.Forall₂ R l1 l2 → ∀ (i : Nat) (x : β),
      l1[i]? = some x → ∃ y, l2[i]? = some y ∧ R x y := by
  intro l1 l2 h
  induction h with
  | nil => intro i x hx; simp at hx
  | cons hab _ ih =>
    intro i x hx
    cases i with
    | zero =>
      simp only [List.getElem?_cons_zero, Option.some.injEq] at hx
      subst hx
      exact ⟨_, by simp, hab⟩
    | succ i =>
      simp only [List.getElem?_cons_succ] at hx ⊢
      exact ih i x hx

theorem forall₂_set {β γ : Type} {R : β → γ → Prop} :
    ∀ {l1 : List β} {l2 : List γ}, List.Forall₂ R l1 l2 → ∀ (i : Nat) (x : β) (y : γ),
      R x y → List.Forall₂ R (l1.set i x) (l2.set i y) := by
  intro l1 l2 h
  induction h with
  | nil => intro i x y _; simp
  | cons hab hrest ih =>
    intro i x y hxy
    cases i with
    | zero => simp only [List.set_cons_zero]; exact List.Forall₂.cons hxy hrest
    | succ i => simp only [List.set_cons_succ]; exact List.Forall₂.cons hab (ih i x y hxy)

theorem sum_length_set {γ : Type} : ∀ (bs : List (List γ)) (i : Nat) (cs ds : List γ),
    bs[i]? = some cs →
    ((bs.set i ds).map List.length).sum + cs.length = (bs.map List.length).sum + ds.length := by
  intro bs
  induction bs with
  | nil => intro i cs ds h; simp at h
  | cons b bs ih =>
    intro i cs ds h
    cases i with
    | zero =>
      simp only [List.getElem?_cons_zero, Option.some.injEq] at h
      subst h
      simp only [List.set_cons_zero, List.map_cons, List.sum_cons]
      omega
    | succ i =>
      simp only [List.getElem?_cons_succ] at h
      have := ih i cs ds h
      simp only [List.set_cons_succ, List.map_cons, List.sum_cons]
      omega

theorem getElem?_set_cases {γ : Type} (bs : List γ) (i j : Nat) (x y : γ)
    (h : (bs.set i x)[j]? = some y) : (j = i ∧ y = x) ∨ (j ≠ i ∧ bs[j]? = some y) := by
  by_cases hji : j = i
  · subst hji
    left
    refine ⟨rfl, ?_⟩
    rw [List.getElem?_set_self'] at h
    cases hb : bs[j]? with
    | none => simp [hb] at h
    | some z => simp [hb] at h; exact h.symm
  · right
    refine ⟨hji, ?_⟩
    rw [List.getElem?_set_ne (Ne.symm hji)] at h
    exact h

theorem length_le_sum {γ : Type} : ∀ (bs : List (List γ)) (i : Nat) (cs : List γ),
    bs[i]? = some cs → cs.length ≤ (bs.map List.length).sum := by
  intro bs
  induction bs with
  | nil => intro i cs h; simp at h
  | cons b bs ih =>
    intro i cs h
    cases i with
    | zero =>
      simp only [List.getElem?_cons_zero, Option.some.injEq] at h
      subst h; simp
    | succ i =>
      simp only [List.getElem?_cons_succ] at h
      have := ih i cs h
      simp only [List.map_cons, List.sum_cons]; omega

/-- The bucket a hash names, in a table that satisfies the invariant. -/
theorem TableInv_bucket {t : HashTable K V} {bs : List (List (Nat × HTKeyValue_t K V))}
    (hinv : TableInv t bs) (hash : Nat) :
    ∃ l cs, t.buckets[hash % t.num_buckets]? = some l ∧ bs[hash % t.num_buckets]? = some cs ∧
      ListWF l cs ∧ cs.length ≤ t.num_elements := by
  have hlt : hash % t.num_buckets < t.buckets.length := by
    rw [hinv.len]; exact Nat.mod_lt _ hinv.pos
  have hl : t.buckets[hash % t.num_buckets]? = some (t.buckets[hash % t.num_buckets]) :=
    List.getElem?_eq_getElem hlt
  obtain ⟨cs, hcs, hwf⟩ := forall₂_getElem? hinv.wf _ _ hl
  exact ⟨_, cs, hl, hcs, hwf, by rw [hinv.count]; exact length_le_sum bs _ cs hcs⟩

theorem HashKeyToBucketNum_pos (t : HashTable K V) (hash : Nat) (h : 0 < t.num_buckets) :
    HashKeyToBucketNum t hash = some (hash % t.num_buckets) := by
  simp [HashKeyToBucketNum, Nat.pos_iff_ne_zero.mp h]

/-- Replacing the chain of one bucket keeps the invariant when the new chain is
well formed, holds entries of that bucket only, and the count follows. -/
theorem TableInv_set {t : HashTable K V} {bs : List (List (Nat × HTKeyValue_t K V))}
    (hinv : TableInv t bs) (b : Nat) (cs ds : List (Nat × HTKeyValue_t K V))
    (l1 : LinkedList (HTKeyValue_t K V)) (k : Nat) (hcs : bs[b]? = some cs)
    (hwf : ListWF l1 ds) (hhome : ∀ c ∈ ds, c.2.hash % t.num_buckets = b)
    (hk : k + cs.length = t.num_elements + ds.length) :
    TableInv { t with buckets := t.buckets.set b l1, num_elements := k } (bs.set b ds) := by
  refine ⟨by simp [hinv.len], hinv.pos, forall₂_set hinv.wf b l1 ds hwf, ?_, ?_⟩
  · intro i es hes c hc
    rcases getElem?_set_cases bs b i ds es hes with ⟨h1, h2⟩ | ⟨_, h2⟩
    · subst h1; subst h2; exact hhome c hc
    · exact hinv.home i es h2 c hc
  · have h1 := sum_length_set bs b cs ds hcs
    have h2 := hinv.count
    dsimp only
    omega

/-- What `HashTable_Insert` returns on a table that satisfies the invariant. -/
theorem HashTable_Insert_sound (fuel : Nat) (t t1 : HashTable K V) (e : HTKeyValue_t K V)
    (r : Bool) (old : Option (HTKeyValue_t K V))
    (bs : List (List (Nat × HTKeyValue_t K V))) (hinv : TableInv t bs)
    (h : HashTable_Insert fuel t e = some (r, old, t1)) :
    t.num_elements < 3 * t.num_buckets ∧ t1.num_buckets = t.num_buckets ∧
    t1.key_cmp_fn = t.key_cmp_fn ∧
    ∃ l cs, t.buckets[e.hash % t.num_buckets]? = some l ∧
      bs[e.hash % t.num_buckets]? = some cs ∧ ListWF l cs ∧
      ((r = false ∧ old = none ∧ (∀ x ∈ cs, t.key_cmp_fn x.2.key e.key = false) ∧
          t1.num_elements = t.num_elements + 1 ∧
          TableInv t1 (bs.set (e.hash % t.num_buckets) ((l.brk, e) :: cs))) ∨
       (∃ pre c post, cs = pre ++ c :: post ∧
          (∀ x ∈ pre, t.key_cmp_fn x.2.key e.key = false) ∧
          t.key_cmp_fn c.2.key e.key = true ∧ r = true ∧ old = some c.2 ∧
          t1.num_elements = t.num_elements ∧
          TableInv t1 (bs.set (e.hash % t.num_buckets) (pre ++ (c.1, e) :: post)))) := by
  have hth : t.num_elements < 3 * t.num_buckets := by
    by_contra hc
    rw [HashTable_Insert_threshold fuel t e hinv.pos (by omega)] at h
    cases h
  refine ⟨hth, ?_⟩
  cases fuel with
  | zero => simp [HashTable_Insert] at h
  | succ fuel =>
    obtain ⟨l, cs, hl, hcs, hwf, _⟩ := TableInv_bucket hinv e.hash
    simp only [HashTable_Insert, MaybeResize_below _ fuel t hth,
      HashKeyToBucketNum_pos t e.hash hinv.pos, hl] at h
    cases hf : chainFind (fun kv => t.key_cmp_fn kv.key e.key) l.mem fuel l.head with
    | none => simp [hf] at h
    | some r0 =>
      rcases chainFind_sound _ _ cs fuel l.head r0 (Chain_fwd hwf.chain) hf with
        ⟨hr, hall⟩ | ⟨pre, c, post, n, hsplit, hpre, hc, hn, hpay, hr⟩
      · subst hr
        simp only [hf] at h
        obtain ⟨l1, hpush, hwf1, _⟩ := LinkedList_Push_wf l cs e hwf
        simp only [hpush, Option.some.injEq, Prod.mk.injEq] at h
        obtain ⟨hr, hold, ht1⟩ := h
        subst ht1
        refine ⟨rfl, rfl, l, cs, hl, hcs, hwf, Or.inl ⟨hr.symm, hold.symm, hall, rfl, ?_⟩⟩
        apply TableInv_set hinv _ cs _ l1 _ hcs hwf1
        · intro c hc
          rcases List.mem_cons.mp hc with he | he
          · subst he; rfl
          · exact hinv.home _ cs hcs c he
        · simp only [List.length_cons]; omega
      · subst hr
        simp only [hf, Option.some.injEq, Prod.mk.injEq] at h
        obtain ⟨hr, hold, ht1⟩ := h
        subst ht1
        subst hsplit
        refine ⟨rfl, rfl, l, _, hl, hcs, hwf, Or.inr ⟨pre, c, post, rfl, hpre, hc, hr.symm,
          by rw [← hold, hpay], rfl, ?_⟩⟩
        have hwf1 := ListWF_overwrite l pre post c n e hn hwf
        have := TableInv_set hinv (e.hash % t.num_buckets) _ _ _ t.num_elements hcs hwf1 (by
          intro d hd
          rcases List.mem_append.mp hd with he | he
          · exact hinv.home _ _ hcs d (List.mem_append_left _ he)
          · rcases List.mem_cons.mp he with he | he
            · subst he; rfl
            · exact hinv.home _ _ hcs d (by simp [he])) (by simp)
        exact this

/-- The function `HashTable_Insert` returns on a table below the threshold once the fuel
exceeds the element count. -/
theorem HashTable_Insert_total (fuel : Nat) (t : HashTable K V) (e : HTKeyValue_t K V)
    (bs : List (List (Nat × HTKeyValue_t K V))) (hinv : TableInv t bs)
    (hth : t.num_elements < 3 * t.num_buckets) (hf : t.num_elements < fuel) :
    ∃ res, HashTable_Insert fuel t e = some res := by
  cases fuel with
  | zero => omega
  | succ fuel =>
    obtain ⟨l, cs, hl, hcs, hwf, hlen⟩ := TableInv_bucket hinv e.hash
    simp only [HashTable_Insert, MaybeResize_below _ fuel t hth,
      HashKeyToBucketNum_pos t e.hash hinv.pos, hl]
    obtain ⟨r0, hr0⟩ := chainFind_total (fun kv => t.key_cmp_fn kv.key e.key) l.mem cs fuel
      l.head (Chain_fwd hwf.chain) (by omega)
    simp only [hr0]
    cases r0 with
    | some p => exact ⟨_, rfl⟩
    | none =>
      obtain ⟨l1, hpush, _, _⟩ := LinkedList_Push_wf l cs e hwf
      simp only [hpush]
      exact ⟨_, rfl⟩

/-- Two ways to split a list at its first cell with a given property agree. -/
theorem split_unique {γ : Type} (P Q : γ → Prop) :
    ∀ (pre pre1 : List γ) (c c1 : γ) (post post1 : List γ),
      pre ++ c :: post = pre1 ++ c1 :: post1 →
      (∀ x ∈ pre, ¬ P x) → P c → (∀ x ∈ pre1, ¬ Q x) → Q c1 → (Q c1 → P c1) → (P c → Q c) →
      pre = pre1 ∧ c = c1 ∧ post = post1 := by
  intro pre
  induction pre with
  | nil =>
    intro pre1 c c1 post post1 h _ hc hpre1 _ _ hpq
    cases pre1 with
    | nil => simp only [List.nil_append, List.cons.injEq] at h; exact ⟨rfl, h.1, h.2⟩
    | cons d pre1 =>
      simp only [List.nil_append, List.cons_append, List.cons.injEq] at h
      exact absurd (hpq hc) (by rw [h.1]; exact hpre1 d (List.mem_cons_self _ _))
  | cons d pre ih =>
    intro pre1 c c1 post post1 h hpre hc hpre1 hc1 hqp hpq
    cases pre1 with
    | nil =>
      simp only [List.nil_append, List.cons_append, List.cons.injEq] at h
      exact absurd (hqp hc1) (by rw [← h.1]; exact hpre d (List.mem_cons_self _ _))
    | cons d1 pre1 =>
      simp only [List.cons_append, List.cons.injEq] at h
      obtain ⟨h1, h2, h3⟩ := ih pre1 c c1 post post1 h.2
        (fun x hx => hpre x (List.mem_cons_of_mem _ hx)) hc
        (fun x hx => hpre1 x (List.mem_cons_of_mem _ hx)) hc1 hqp hpq
      exact ⟨by rw [h.1, h1], h2, h3⟩

/-- What `HashTable_Remove` returns on a table that satisfies the invariant. -/
theorem HashTable_Remove_sound [DecidableEq K] [DecidableEq V] (fuel : Nat)
    (t t1 : HashTable K V) (hash : Nat) (key : K)
    (r : Bool) (old : Option (HTKeyValue_t K V))
    (bs : List (List (Nat × HTKeyValue_t K V))) (hinv : TableInv t bs)
    (h : HashTable_Remove fuel t hash key = some (r, old, t1)) :
    t1.num_buckets = t.num_buckets ∧ t1.key_cmp_fn = t.key_cmp_fn ∧
    ∃ l cs, t.buckets[hash % t.num_buckets]? = some l ∧
      bs[hash % t.num_buckets]? = some cs ∧ ListWF l cs ∧
      ((r = false ∧ old = none ∧ t1 = t ∧ ∀ x ∈ cs, t.key_cmp_fn x.2.key key = false) ∨
       (∃ pre c post, cs = pre ++ c :: post ∧
          (∀ x ∈ pre, t.key_cmp_fn x.2.key key = false) ∧
          t.key_cmp_fn c.2.key key = true ∧ r = true ∧ old = some c.2 ∧
          t1.num_elements + 1 = t.num_elements ∧
          TableInv t1 (bs.set (hash % t.num_buckets) (pre ++ post)))) := by
  obtain ⟨l, cs, hl, hcs, hwf, hlen⟩ := TableInv_bucket hinv hash
  simp only [HashTable_Remove, HashKeyToBucketNum_pos t hash hinv.pos, hl] at h
  cases hf : chainFind (fun kv => t.key_cmp_fn kv.key key) l.mem fuel l.head with
  | none => simp [hf] at h
  | some r0 =>
    rcases chainFind_sound _ _ cs fuel l.head r0 (Chain_fwd hwf.chain) hf with
      ⟨hr, hall⟩ | ⟨pre, c, post, n, hsplit, hpre, hc, hn, hpay, hr⟩
    · subst hr
      simp only [hf, Option.some.injEq, Prod.mk.injEq] at h
      obtain ⟨hr, hold, ht1⟩ := h
      subst ht1
      exact ⟨rfl, rfl, l, cs, hl, hcs, hwf, Or.inl ⟨hr.symm, hold.symm, rfl, hall⟩⟩
    · subst hr
      simp only [hf] at h
      cases hrm : LinkedList_Remove fuel l n.payload with
      | none => simp [hrm] at h
      | some l1 =>
        simp only [hrm, Option.some.injEq, Prod.mk.injEq] at h
        obtain ⟨hr, hold, ht1⟩ := h
        subst ht1
        refine ⟨rfl, rfl, l, cs, hl, hcs, hwf, Or.inr ⟨pre, c, post, hsplit, hpre, hc, hr.symm,
          by rw [← hold, hpay], ?_⟩⟩
        rcases LinkedList_Remove_sound fuel l l1 cs n.payload hwf hrm with
          ⟨_, hno⟩ | ⟨pre1, c1, post1, hsplit1, hpre1, hc1, hwf1, _⟩
        · exact absurd hpay.symm (hno c (by rw [hsplit]; simp))
        · have hu := split_unique (fun x => t.key_cmp_fn x.2.key key = true)
            (fun x => x.2 = n.payload) pre pre1 c c1 post post1 (by rw [← hsplit, ← hsplit1])
            (fun x hx => by simp [hpre x hx]) hc hpre1 hc1
            (fun hq => by
              have hq1 : c1.2 = n.payload := hq
              show t.key_cmp_fn c1.2.key key = true
              rw [hq1, hpay]; exact hc) (fun _ => hpay.symm)
          obtain ⟨h1, h2, h3⟩ := hu
          subst h1; subst h2; subst h3
          have hpos : 0 < t.num_elements := by
            rw [hsplit] at hlen
            simp only [List.length_append, List.length_cons] at hlen
            omega
          have hdec : sizeDec t.num_elements + 1 = t.num_elements := by
            simp only [sizeDec]; split <;> omega
          refine ⟨hdec, ?_⟩
          apply TableInv_set hinv _ cs _ l1 _ hcs hwf1
          · intro d hd
            apply hinv.home _ cs hcs d
            rw [hsplit]
            rcases List.mem_append.mp hd with he | he
            · exact List.mem_append_left _ he
            · exact List.mem_append_right _ (List.mem_cons_of_mem _ he)
          · rw [hsplit]
            simp only [List.length_append, List.length_cons]
            omega

/-- The function `HashTable_Remove` returns once the fuel covers the element count. -/
theorem HashTable_Remove_total [DecidableEq K] [DecidableEq V] (fuel : Nat)
    (t : HashTable K V) (hash : Nat) (key : K)
    (bs : List (List (Nat × HTKeyValue_t K V))) (hinv : TableInv t bs)
    (hf : t.num_elements ≤ fuel) :
    ∃ res, HashTable_Remove fuel t hash key = some res := by
  obtain ⟨l, cs, hl, hcs, hwf, hlen⟩ := TableInv_bucket hinv hash
  simp only [HashTable_Remove, HashKeyToBucketNum_pos t hash hinv.pos, hl]
  obtain ⟨r0, hr0⟩ := chainFind_total (fun kv => t.key_cmp_fn kv.key key) l.mem cs fuel
    l.head (Chain_fwd hwf.chain) (by omega)
  simp only [hr0]
  cases r0 with
  | none => exact ⟨_, rfl⟩
  | some p =>
    obtain ⟨l1, hl1⟩ := LinkedList_Remove_total fuel l cs p.2.payload hwf (by omega)
    simp only [hl1]
    exact ⟨_, rfl⟩

/-- What `HashTable_Find` returns, if it returns, on a bucket whose chain is `cs`. -/
theorem HashTable_Find_sound (fuel : Nat) (t : HashTable K V) (hash : Nat) (key : K)
    (r : Bool) (old : Option (HTKeyValue_t K V)) (l : LinkedList (HTKeyValue_t K V))
    (cs : List (Nat × HTKeyValue_t K V)) (hpos : 0 < t.num_buckets)
    (hl : t.buckets[hash % t.num_buckets]? = some l) (hch : Fwd l.mem l.head cs)
    (h : HashTable_Find fuel t hash key = some (r, old)) :
    (r = false ∧ old = none ∧ ∀ x ∈ cs, t.key_cmp_fn x.2.key key = false) ∨
    (∃ pre c post, cs = pre ++ c :: post ∧ (∀ x ∈ pre, t.key_cmp_fn x.2.key key = false) ∧
      t.key_cmp_fn c.2.key key = true ∧ r = true ∧ old = some c.2) := by
  simp only [HashTable_Find, HashKeyToBucketNum_pos t hash hpos, hl] at h
  cases hf : chainFind (fun kv => t.key_cmp_fn kv.key key) l.mem fuel l.head with
  | none => simp [hf] at h
  | some r0 =>
    rcases chainFind_sound _ _ cs fuel l.head r0 hch hf with
      ⟨hr, hall⟩ | ⟨pre, c, post, n, hsplit, hpre, hc, hn, hpay, hr⟩
    · subst hr
      simp only [hf, Option.some.injEq, Prod.mk.injEq] at h
      exact Or.inl ⟨h.1.symm, h.2.symm, hall⟩
    · subst hr
      simp only [hf, Option.some.injEq, Prod.mk.injEq] at h
      exact Or.inr ⟨pre, c, post, hsplit, hpre, hc, h.1.symm, by rw [← h.2, hpay]⟩

/-- The function `HashTable_Find` returns once the fuel covers the length of the chain. -/
theorem HashTable_Find_total (fuel : Nat) (t : HashTable K V) (hash : Nat) (key : K)
    (l : LinkedList (HTKeyValue_t K V))
    (cs : List (Nat × HTKeyValue_t K V)) (hpos : 0 < t.num_buckets)
    (hl : t.buckets[hash % t.num_buckets]? = some l) (hch : Fwd l.mem l.head cs)
    (hf : cs.length ≤ fuel) :
    ∃ res, HashTable_Find fuel t hash key = some res := by
  simp only [HashTable_Find, HashKeyToBucketNum_pos t hash hpos, hl]
  obtain ⟨r0, hr0⟩ := chainFind_total (fun kv => t.key_cmp_fn kv.key key) l.mem cs fuel
    l.head hch hf
  simp only [hr0]
  cases r0 with
  | none => exact ⟨_, rfl⟩
  | some p => exact ⟨_, rfl⟩

theorem forall₂_replicate {β γ : Type} {R : β → γ → Prop} (x : β) (y : γ) (hxy : R x y) :
    ∀ n : Nat, List.Forall₂ R (List.replicate n x) (List.replicate n y) := by
  intro n
  induction n with
  | zero => exact List.Forall₂.nil
  | succ n ih => exact List.Forall₂.cons hxy ih

/-- A new table with at least one bucket satisfies the invariant, with empty chains. -/
theorem HashTable_New_inv (n : Nat) (key_equal : K → K → Bool) (hn : 0 < n) :
    TableInv (HashTable_New n key_equal : HashTable K V) (List.replicate n []) := by
  refine ⟨by simp [HashTable_New], hn, forall₂_replicate _ _ LinkedList_New_wf n, ?_, ?_⟩
  · intro i cs hcs c hc
    rw [List.getElem?_replicate] at hcs
    split at hcs
    · simp only [Option.some.injEq] at hcs; subst hcs; simp at hc
    · cases hcs
  · simp [HashTable_New]

/-- Every reachable table satisfies the invariant and keeps the bucket count and
the key predicate it was created with. -/
theorem Reachable_inv [DecidableEq K] [DecidableEq V] {ok : HTKeyValue_t K V → Prop}
    {n : Nat} {key_equal : K → K → Bool} {t : HashTable K V} (hn : 0 < n)
    (h : Reachable ok n key_equal t) :
    t.num_buckets = n ∧ t.key_cmp_fn = key_equal ∧ ∃ bs, TableInv t bs := by
  induction h with
  | new => exact ⟨rfl, rfl, _, HashTable_New_inv n key_equal hn⟩
  | insert fuel t t1 e r old _ _ hins ih =>
    obtain ⟨h1, h2, bs, hinv⟩ := ih
    obtain ⟨_, h3, h4, l, cs, _, _, _, hcase⟩ := HashTable_Insert_sound fuel t t1 e r old bs hinv hins
    refine ⟨by rw [h3, h1], by rw [h4, h2], ?_⟩
    rcases hcase with ⟨_, _, _, _, hinv1⟩ | ⟨_, _, _, _, _, _, _, _, _, hinv1⟩
    · exact ⟨_, hinv1⟩
    · exact ⟨_, hinv1⟩
  | remove fuel t t1 hash key r old _ hrem ih =>
    obtain ⟨h1, h2, bs, hinv⟩ := ih
    obtain ⟨h3, h4, l, cs, _, _, _, hcase⟩ := HashTable_Remove_sound fuel t t1 hash key r old bs hinv hrem
    refine ⟨by rw [h3, h1], by rw [h4, h2], ?_⟩
    rcases hcase with ⟨_, _, ht, _⟩ | ⟨_, _, _, _, _, _, _, _, _, hinv1⟩
    · exact ⟨bs, by rw [ht]; exact hinv⟩
    · exact ⟨_, hinv1⟩

theorem BucketsDistinct_set {cmp : K → K → Bool} {bs : List (List (Nat × HTKeyValue_t K V))}
    (h : BucketsDistinct cmp bs) (b : Nat) (ds : List (Nat × HTKeyValue_t K V))
    (hds : ds.Pairwise (fun c d => cmp c.2.key d.2.key = false)) :
    BucketsDistinct cmp (bs.set b ds) := by
  intro cs hcs
  rcases List.mem_or_eq_of_mem_set hcs with h1 | h1
  · exact h cs h1
  · rw [h1]; exact hds

theorem StoredOk_set {ok : HTKeyValue_t K V → Prop} {bs : List (List (Nat × HTKeyValue_t K V))}
    (h : StoredOk ok bs) (b : Nat) (ds : List (Nat × HTKeyValue_t K V))
    (hds : ∀ c ∈ ds, ok c.2) : StoredOk ok (bs.set b ds) := by
  intro cs hcs
  rcases List.mem_or_eq_of_mem_set hcs with h1 | h1
  · exact h cs h1
  · rw [h1]; exact hds

/-- Every reachable table satisfies the invariant with cells that hold only
entries that were allowed in and, for a symmetric and transitive key predicate,
no two related keys in one bucket. -/
theorem Reachable_inv_distinct [DecidableEq K] [DecidableEq V] {ok : HTKeyValue_t K V → Prop}
    {n : Nat} {key_equal : K → K → Bool} {t : HashTable K V} (hn : 0 < n)
    (hsymm : ∀ a b, key_equal a b = true → key_equal b a = true)
    (htrans : ∀ a b c, key_equal a b = true → key_equal b c = true → key_equal a c = true)
    (h : Reachable ok n key_equal t) :
    t.num_buckets = n ∧ t.key_cmp_fn = key_equal ∧
      ∃ bs, TableInv t bs ∧ BucketsDistinct key_equal bs ∧ StoredOk ok bs := by
  induction h with
  | new =>
    refine ⟨rfl, rfl, _, HashTable_New_inv n key_equal hn, ?_, ?_⟩
    · intro cs hcs
      rw [List.eq_of_mem_replicate hcs]; exact List.Pairwise.nil
    · intro cs hcs c hc
      rw [List.eq_of_mem_replicate hcs] at hc; simp at hc
  | insert fuel t t1 e r old _ hok hins ih =>
    obtain ⟨h1, h2, bs, hinv, hdist, hsok⟩ := ih
    obtain ⟨_, h3, h4, l, cs, _, hcs, _, hcase⟩ :=
      HashTable_Insert_sound fuel t t1 e r old bs hinv hins
    have hcsmem : cs ∈ bs := List.mem_iff_getElem?.mpr ⟨_, hcs⟩
    refine ⟨by rw [h3, h1], by rw [h4, h2], ?_⟩
    rw [h2] at hcase
    rcases hcase with ⟨_, _, hall, _, hinv1⟩ | ⟨pre, c, post, hsplit, hpre, hc, _, _, _, hinv1⟩
    · refine ⟨_, hinv1, BucketsDistinct_set hdist _ _ ?_, StoredOk_set hsok _ _ ?_⟩
      · refine List.Pairwise.cons ?_ (hdist cs hcsmem)
        intro x hx
        cases hv : key_equal e.key x.2.key with
        | false => rfl
        | true =>
          have h5 := hall x hx
          rw [hsymm _ _ hv] at h5
          exact absurd h5 (by simp)
      · intro c hc
        rcases List.mem_cons.mp hc with he | he
        · subst he; exact hok
        · exact hsok cs hcsmem c he
    · have hpw := hdist cs hcsmem
      rw [hsplit] at hpw
      have hpw1 := List.pairwise_append.mp hpw
      have hpw2 := List.pairwise_cons.mp hpw1.2.1
      refine ⟨_, hinv1, BucketsDistinct_set hdist _ _ ?_, StoredOk_set hsok _ _ ?_⟩
      · refine List.pairwise_append.mpr ⟨hpw1.1, List.pairwise_cons.mpr ⟨?_, hpw2.2⟩, ?_⟩
        · intro y hy
          cases hv : key_equal e.key y.2.key with
          | false => rfl
          | true =>
            have := htrans _ _ _ hc hv
            rw [hpw2.1 y hy] at this
            exact absurd this (by simp)
        · intro x hx y hy
          rcases List.mem_cons.mp hy with he | he
          · subst he; exact hpre x hx
          · exact hpw1.2.2 x hx y (List.mem_cons_of_mem _ he)
      · intro d hd
        rcases List.mem_append.mp hd with he | he
        · exact hsok cs hcsmem d (by rw [hsplit]; exact List.mem_append_left _ he)
        · rcases List.mem_cons.mp he with he | he
          · subst he; exact hok
          · exact hsok cs hcsmem d (by rw [hsplit]; simp [he])
  | remove fuel t t1 hash key r old _ hrem ih =>
    obtain ⟨h1, h2, bs, hinv, hdist, hsok⟩ := ih
    obtain ⟨h3, h4, l, cs, _, hcs, _, hcase⟩ :=
      HashTable_Remove_sound fuel t t1 hash key r old bs hinv hrem
    have hcsmem : cs ∈ bs := List.mem_iff_getElem?.mpr ⟨_, hcs⟩
    refine ⟨by rw [h3, h1], by rw [h4, h2], ?_⟩
    rcases hcase with ⟨_, _, ht, _⟩ | ⟨pre, c, post, hsplit, _, _, _, _, _, hinv1⟩
    · exact ⟨bs, by rw [ht]; exact hinv, hdist, hsok⟩
    · have hpw := hdist cs hcsmem
      rw [hsplit] at hpw
      have hsub : List.Sublist (pre ++ post) (pre ++ c :: post) :=
        List.Sublist.append (List.Sublist.refl pre) (List.sublist_cons_self c post)
      refine ⟨_, hinv1, BucketsDistinct_set hdist _ _ (hpw.sublist hsub), StoredOk_set hsok _ _ ?_⟩
      intro d hd
      exact hsok cs hcsmem d (by rw [hsplit]; exact hsub.subset hd)

/-- C5: in a table with at least one bucket, when no entry of the chain of
bucket `hash mod num_buckets` has a key that `key_cmp_fn` relates to `key`,
`HashTable_Find` and `HashTable_Remove` both return false, write no entry, and
`HashTable_Remove` leaves the table as it is. -/
theorem C5_absent_key_not_found [DecidableEq K] [DecidableEq V] (fuel : Nat)
    (t : HashTable K V) (hash : Nat) (key : K) (chain : LinkedList (HTKeyValue_t K V))
    (cs : List (Nat × HTKeyValue_t K V)) (hpos : 0 < t.num_buckets)
    (hbucket : t.buckets[hash % t.num_buckets]? = some chain)
    (hchain : Fwd chain.mem chain.head cs)
    (habsent : ∀ c ∈ cs, t.key_cmp_fn c.2.key key = false)
    (hfuel : cs.length ≤ fuel) :
    HashTable_Find fuel t hash key = some (false, none) ∧
    HashTable_Remove fuel t hash key = some (false, none, t) := by
  obtain ⟨r0, hr0⟩ := chainFind_total (fun kv => t.key_cmp_fn kv.key key) chain.mem cs fuel
    chain.head hchain hfuel
  rcases chainFind_sound _ _ cs fuel chain.head r0 hchain hr0 with
    ⟨hr, _⟩ | ⟨pre, c, post, n, hsplit, _, hc, _, _, _⟩
  · subst hr
    constructor
    · simp only [HashTable_Find, HashKeyToBucketNum_pos t hash hpos, hbucket, hr0]
    · simp only [HashTable_Remove, HashKeyToBucketNum_pos t hash hpos, hbucket, hr0]
  · rw [habsent c (by rw [hsplit]; simp)] at hc
    cases hc

/-- An instance of C5: two buckets, the entry for 3 stored in bucket 1, and a
search for hash 5 and key 5, which bucket 1 does not hold. -/
theorem C5_absent_key_not_found_witness :
    HashTable_Find 1 tableWith3 5 5 = some (false, none) ∧
    HashTable_Remove 1 tableWith3 5 5 = some (false, none, tableWith3) :=
  C5_absent_key_not_found 1 tableWith3 5 5
    { num_elements := 1, head := some 0, tail := some 0,
      mem := store (fun _ => none) 0 { payload := entryOf 3, next := none, prev := none },
      brk := 1 }
    [(0, entryOf 3)] (by decide) rfl ⟨rfl, _, rfl, rfl, rfl⟩
    (by intro c hc; simp only [List.mem_singleton] at hc; subst hc; rfl) (by decide)

/-- In a bucket without related keys, a cell related to `k` is the only one. -/
theorem related_unique (cmp : K → K → Bool)
    (hsymm : ∀ a b, cmp a b = true → cmp b a = true)
    (htrans : ∀ a b c, cmp a b = true → cmp b c = true → cmp a c = true)
    (pre post : List (Nat × HTKeyValue_t K V)) (c : Nat × HTKeyValue_t K V) (k : K)
    (hpw : (pre ++ c :: post).Pairwise (fun c d => cmp c.2.key d.2.key = false))
    (hc : cmp c.2.key k = true) :
    ∀ x ∈ pre ++ post, cmp x.2.key k = false := by
  intro x hx
  have hpw1 := List.pairwise_append.mp hpw
  have hpw2 := List.pairwise_cons.mp hpw1.2.1
  cases hv : cmp x.2.key k with
  | false => rfl
  | true =>
    rcases List.mem_append.mp hx with he | he
    · have h1 := hpw1.2.2 x he c (List.mem_cons_self _ _)
      rw [htrans _ _ _ hv (hsymm _ _ hc)] at h1
      exact absurd h1 (by simp)
    · have h1 := hpw2.1 x he
      rw [htrans _ _ _ hc (hsymm _ _ hv)] at h1
      exact absurd h1 (by simp)

/-- In a table that satisfies the representation invariant and holds no two
related keys in one bucket (the key predicate being symmetric and transitive),
when some bucket holds an entry with hash `h` whose key is related to `k`,
`HashTable_Remove(table, h, k)` returns true with that entry, the element count
goes down by exactly one, and afterwards a second `HashTable_Remove(table, h, k)`
and a `HashTable_Find(table, h, k)` return false. -/
theorem HashTable_Remove_present [DecidableEq K] [DecidableEq V] (fuel : Nat)
    (t : HashTable K V) (bs : List (List (Nat × HTKeyValue_t K V)))
    (hinv : TableInv t bs) (hdist : BucketsDistinct t.key_cmp_fn bs)
    (hsymm : ∀ a b, t.key_cmp_fn a b = true → t.key_cmp_fn b a = true)
    (htrans : ∀ a b c, t.key_cmp_fn a b = true → t.key_cmp_fn b c = true →
      t.key_cmp_fn a c = true)
    (i : Nat) (cs : List (Nat × HTKeyValue_t K V)) (c : Nat × HTKeyValue_t K V)
    (h : Nat) (k : K) (hcs : bs[i]? = some cs) (hc : c ∈ cs) (hhash : c.2.hash = h)
    (hkey : t.key_cmp_fn c.2.key k = true) (hfuel : t.num_elements ≤ fuel) :
    ∃ t1, HashTable_Remove fuel t h k = some (true, some c.2, t1) ∧
      t1.num_elements + 1 = t.num_elements ∧
      HashTable_Remove fuel t1 h k = some (false, none, t1) ∧
      HashTable_Find fuel t1 h k = some (false, none) := by
  have hi : i = h % t.num_buckets := by rw [← hhash]; exact (hinv.home i cs hcs c hc).symm
  subst hi
  obtain ⟨⟨r, old, t1⟩, hres⟩ := HashTable_Remove_total fuel t h k bs hinv hfuel
  obtain ⟨hnb, hcmp, l, cs1, hl, hcs1, hwf, hcase⟩ :=
    HashTable_Remove_sound fuel t t1 h k r old bs hinv hres
  rw [hcs] at hcs1
  have hcc : cs = cs1 := Option.some.inj hcs1
  subst hcc
  rcases hcase with ⟨_, _, _, hall⟩ | ⟨pre, d, post, hsplit, hpre, hd, hr, hold, hnum, hinv1⟩
  · rw [hall c hc] at hkey; cases hkey
  · have hpw := hdist cs (List.getElem?_mem hcs)
    rw [hsplit] at hpw
    have hrest := related_unique t.key_cmp_fn hsymm htrans pre post d k hpw hd
    have hcd : c = d := by
      rw [hsplit] at hc
      rcases List.mem_append.mp hc with he | he
      · rw [hrest c (List.mem_append_left _ he)] at hkey; cases hkey
      · rcases List.mem_cons.mp he with he | he
        · exact he
        · rw [hrest c (List.mem_append_right _ he)] at hkey; cases hkey
    subst hcd
    subst hr; subst hold
    refine ⟨t1, hres, hnum, ?_, ?_⟩
    · obtain ⟨⟨r2, old2, t2⟩, hres2⟩ :=
        HashTable_Remove_total fuel t1 h k _ hinv1 (by omega)
      obtain ⟨_, _, l2, cs2, _, hcs2, _, hcase2⟩ :=
        HashTable_Remove_sound fuel t1 t2 h k r2 old2 _ hinv1 hres2
      rw [hnb, List.getElem?_set_self (by
        rw [List.getElem?_eq_some_iff] at hcs; exact hcs.1)] at hcs2
      have hcs3 : pre ++ post = cs2 := Option.some.inj hcs2
      subst hcs3
      rcases hcase2 with ⟨hr2, hold2, ht2, _⟩ | ⟨pre2, d2, post2, hsplit2, _, hd2, _⟩
      · rw [hres2, hr2, hold2, ht2]
      · rw [hcmp, hrest d2 (by rw [hsplit2]; simp)] at hd2; cases hd2
    · obtain ⟨l2, cs2, hl2, hcs2, hwf2, hlen2⟩ := TableInv_bucket hinv1 h
      rw [hnb, List.getElem?_set_self (by
        rw [List.getElem?_eq_some_iff] at hcs; exact hcs.1)] at hcs2
      have hcs3 : pre ++ post = cs2 := Option.some.inj hcs2
      subst hcs3
      rw [hnb] at hl2
      have hpos1 : 0 < t1.num_buckets := hinv1.pos
      obtain ⟨⟨r2, old2⟩, hres2⟩ := HashTable_Find_total fuel t1 h k l2 _ hpos1
        (by rw [hnb]; exact hl2) (Chain_fwd hwf2.chain) (by omega)
      rcases HashTable_Find_sound fuel t1 h k r2 old2 l2 _ hpos1 (by rw [hnb]; exact hl2)
        (Chain_fwd hwf2.chain) hres2 with ⟨hr2, hold2, _⟩ | ⟨pre2, d2, post2, hsplit2, _, hd2, _⟩
      · rw [hres2, hr2, hold2]
      · rw [hcmp, hrest d2 (by rw [hsplit2]; simp)] at hd2; cases hd2

theorem distinctKeys_subset (cmp : K → K → Bool) :
    ∀ (ks : List K) (k : K), k ∈ distinctKeys cmp ks → k ∈ ks := by
  intro ks
  induction ks with
  | nil => intro k hk; exact hk
  | cons a ks ih =>
    intro k hk
    rcases List.mem_cons.mp hk with h | h
    · rw [h]; exact List.mem_cons_self _ _
    · exact List.mem_cons_of_mem _ (ih k (List.mem_filter.mp h).1)

/-- On keys no two of which are related, nothing is dropped. -/
theorem distinctKeys_of_pairwise (cmp : K → K → Bool) :
    ∀ (ks : List K), ks.Pairwise (fun a b => cmp a b = false) → distinctKeys cmp ks = ks := by
  intro ks
  induction ks with
  | nil => intro _; rfl
  | cons a ks ih =>
    intro h
    have h1 := List.pairwise_cons.mp h
    simp only [distinctKeys]
    rw [ih h1.2, List.filter_eq_self.mpr]
    intro k hk
    simp [h1.1 k hk]

theorem TableInv_cells {t : HashTable K V} {bs : List (List (Nat × HTKeyValue_t K V))}
    (hinv : TableInv t bs) : TableCells t bs :=
  hinv.wf.imp (fun {_ _} h => (Chain_fwd h.chain))

theorem tableWith3_insert :
    HashTable_Insert 1 (HashTable_New 2 natKeyEq) (entryOf 3) = some (false, none, tableWith3) := by
  rfl

theorem tableWith3_reachable (ok : HTKeyValue_t Nat Nat → Prop) (h : ok (entryOf 3)) :
    Reachable ok 2 natKeyEq tableWith3 :=
  Reachable.insert 1 _ _ (entryOf 3) false none Reachable.new h tableWith3_insert

/-- C10: in every table reached from `HashTable_New(n, key_equal)`, `n > 0`, by
inserts and removes that return, the bucket array has `num_buckets` chains and
every entry in the chain of bucket `i` has `hash mod num_buckets = i`. -/
theorem C10_entries_in_home_bucket [DecidableEq K] [DecidableEq V]
    (ok : HTKeyValue_t K V → Prop) (n : Nat) (key_equal : K → K → Bool) (t : HashTable K V)
    (hn : 0 < n) (h : Reachable ok n key_equal t) :
    t.buckets.length = t.num_buckets ∧
    ∀ i chain, t.buckets[i]? = some chain →
      ∃ cs, Fwd chain.mem chain.head cs ∧ ∀ c ∈ cs, c.2.hash % t.num_buckets = i := by
  obtain ⟨_, _, bs, hinv⟩ := Reachable_inv hn h
  refine ⟨hinv.len, ?_⟩
  intro i chain hi
  obtain ⟨cs, hcs, hwf⟩ := forall₂_getElem? hinv.wf i chain hi
  exact ⟨cs, (Chain_fwd hwf.chain), hinv.home i cs hcs⟩

/-- An instance of C10: two buckets, after the insert of the entry for 3. -/
theorem C10_entries_in_home_bucket_witness :
    Reachable (fun _ => True) 2 natKeyEq tableWith3 ∧
    (tableWith3.buckets.length = tableWith3.num_buckets ∧
      ∀ i chain, tableWith3.buckets[i]? = some chain →
        ∃ cs, Fwd chain.mem chain.head cs ∧ ∀ c ∈ cs, c.2.hash % tableWith3.num_buckets = i) :=
  ⟨tableWith3_reachable (fun _ => True) trivial,
    C10_entries_in_home_bucket (fun _ => True) 2 natKeyEq tableWith3 (by decide)
      (tableWith3_reachable (fun _ => True) trivial)⟩

/-- C6, amended: for a symmetric and transitive key predicate whose related keys
carry equal hashes, in every table reached from `HashTable_New(n, key_equal)`,
`n > 0`, by inserts and removes that return, no two stored keys are related and
`HashTable_NumElements` is the number of distinct stored keys. -/
theorem C6_count_is_number_of_distinct_keys [DecidableEq K] [DecidableEq V]
    (n : Nat) (key_equal : K → K → Bool) (hashOf : K → Nat) (t : HashTable K V) (hn : 0 < n)
    (hsymm : ∀ a b, key_equal a b = true → key_equal b a = true)
    (htrans : ∀ a b c, key_equal a b = true → key_equal b c = true → key_equal a c = true)
    (hhash : ∀ a b, key_equal a b = true → hashOf a = hashOf b)
    (h : Reachable (fun e => e.hash = hashOf e.key) n key_equal t) :
    ∃ bs, TableCells t bs ∧
      (storedKeys bs).Pairwise (fun a b => key_equal a b = false) ∧
      HashTable_NumElements t = (distinctKeys key_equal (storedKeys bs)).length := by
  obtain ⟨_, _, bs, hinv, hdist, hsok⟩ := Reachable_inv_distinct hn hsymm htrans h
  have hpw : (storedKeys bs).Pairwise (fun a b => key_equal a b = false) := by
    unfold storedKeys
    rw [List.pairwise_map, List.pairwise_flatten]
    refine ⟨hdist, ?_⟩
    rw [List.pairwise_iff_getElem]
    intro i j hi hj hij x hx y hy
    cases hv : key_equal x.2.key y.2.key with
    | false => rfl
    | true =>
      have hbi : bs[i]? = some bs[i] := List.getElem?_eq_getElem hi
      have hbj : bs[j]? = some bs[j] := List.getElem?_eq_getElem hj
      have h1 := hinv.home i _ hbi x hx
      have h2 := hinv.home j _ hbj y hy
      have h3 := hsok _ (List.getElem_mem hi) x hx
      have h4 := hsok _ (List.getElem_mem hj) y hy
      simp only at h3 h4
      rw [h3, hhash _ _ hv, ← h4, h2] at h1
      omega
  refine ⟨bs, TableInv_cells hinv, hpw, ?_⟩
  rw [distinctKeys_of_pairwise key_equal _ hpw]
  simp only [HashTable_NumElements, storedKeys, hinv.count, List.length_map,
    List.length_flatten]

theorem natKeyEq_symm : ∀ a b, natKeyEq a b = true → natKeyEq b a = true := by
  intro a b h; simp only [natKeyEq, beq_iff_eq] at h ⊢; exact h.symm

theorem natKeyEq_trans : ∀ a b c, natKeyEq a b = true → natKeyEq b c = true →
    natKeyEq a c = true := by
  intro a b c h1 h2; simp only [natKeyEq, beq_iff_eq] at h1 h2 ⊢; exact h1.trans h2

/-- An instance of the amended C6: two buckets, after the insert of the entry for 3. -/
theorem C6_count_is_number_of_distinct_keys_witness :
    ∃ bs, TableCells tableWith3 bs ∧
      (storedKeys bs).Pairwise (fun a b => natKeyEq a b = false) ∧
      HashTable_NumElements tableWith3 = (distinctKeys natKeyEq (storedKeys bs)).length :=
  C6_count_is_number_of_distinct_keys 2 natKeyEq (fun k => k) tableWith3 (by decide)
    natKeyEq_symm natKeyEq_trans (by intro a b h; simpa [natKeyEq] using h)
    (tableWith3_reachable _ rfl)

/-- The tables `insertAll` produces are reachable. -/
theorem insertAll_reachable {K V : Type} [DecidableEq K] [DecidableEq V]
    (ok : HTKeyValue_t K V → Prop) (n : Nat) (key_equal : K → K → Bool) (fuel : Nat) :
    ∀ (es : List (HTKeyValue_t K V)) (t t1 : HashTable K V), Reachable ok n key_equal t →
      (∀ e ∈ es, ok e) → insertAll fuel t es = some t1 → Reachable ok n key_equal t1 := by
  intro es
  induction es with
  | nil =>
    intro t t1 hr _ h
    simp only [insertAll, Option.some.injEq] at h
    rw [← h]; exact hr
  | cons e es ih =>
    intro t t1 hr hok h
    simp only [insertAll] at h
    cases h1 : HashTable_Insert fuel t e with
    | none => simp [h1] at h
    | some p =>
      obtain ⟨r, old, t2⟩ := p
      simp only [h1] at h
      exact ih t2 t1 (Reachable.insert fuel t t2 e r old hr (hok e (List.mem_cons_self _ _)) h1)
        (fun x hx => hok x (List.mem_cons_of_mem _ hx)) h

/-- C6 as stated fails: `HashTable_New(2, ==)`, then the inserts of (hash 0, key 7)
and (hash 1, key 7).  Both calls return, the two entries sit in buckets 0 and 1,
`HashTable_NumElements` is 2 and one distinct key is stored. -/
theorem C6_counterexample :
    insertAll 2 (HashTable_New 2 natKeyEq)
      [{ hash := 0, key := 7, value := 0 }, { hash := 1, key := 7, value := 1 }] =
      some tableSameKeyTwice ∧
    Reachable (fun _ => True) 2 natKeyEq tableSameKeyTwice ∧
    TableCells tableSameKeyTwice
      [[(0, { hash := 0, key := 7, value := 0 })], [(0, { hash := 1, key := 7, value := 1 })]] ∧
    HashTable_NumElements tableSameKeyTwice = 2 ∧
    (distinctKeys natKeyEq (storedKeys
      [[(0, ({ hash := 0, key := 7, value := 0 } : HTKeyValue_t Nat Nat))],
       [(0, { hash := 1, key := 7, value := 1 })]])).length = 1 := by
  refine ⟨rfl, ?_, ?_, by decide, by decide⟩
  · exact insertAll_reachable _ 2 natKeyEq 2 _ _ _ Reachable.new (fun _ _ => trivial)
      (rfl : insertAll 2 (HashTable_New 2 natKeyEq)
        [{ hash := 0, key := 7, value := 0 }, { hash := 1, key := 7, value := 1 }] =
        some tableSameKeyTwice)
  · exact List.Forall₂.cons ⟨rfl, _, rfl, rfl, rfl⟩
      (List.Forall₂.cons ⟨rfl, _, rfl, rfl, rfl⟩ List.Forall₂.nil)

theorem tableFull1_eq :
    insertAll 4 (HashTable_New 1 natKeyEq) [entryOf 0, entryOf 1, entryOf 2] =
      some tableFull1 := rfl

theorem tableFull2_eq :
    insertAll 4 (HashTable_New 2 natKeyEq)
      [entryOf 0, entryOf 1, entryOf 2, entryOf 3, entryOf 4, entryOf 5] =
      some tableFull2 := rfl

/-- C1 fails when the insert grows the table: one bucket holds the entries for
0, 1 and 2 (three successful inserts), so `num_elements = 3 * num_buckets`, and
`HashTable_Insert` of the entry for 3 has no result, whatever the fuel: no table
is left on which `HashTable_Find` could return the entry. -/
theorem C1_insert_that_grows_has_no_result :
    insertAll 4 (HashTable_New 1 natKeyEq) [entryOf 0, entryOf 1, entryOf 2] =
      some tableFull1 ∧
    tableFull1.num_buckets = 1 ∧ tableFull1.num_elements = 3 ∧
    ∀ fuel, HashTable_Insert fuel tableFull1 (entryOf 3) = none :=
  ⟨tableFull1_eq, by decide, by decide,
    fun fuel => HashTable_Insert_threshold fuel tableFull1 (entryOf 3) (by decide) (by decide)⟩

/-- C2 fails at the threshold: two buckets hold the entries for 0 to 5, bucket
`5 mod 2` holds the key 5 (`HashTable_Find` returns its entry), and the insert of
a new value under the key 5 has no result, whatever the fuel. -/
theorem C2_overwrite_at_threshold_has_no_result :
    insertAll 4 (HashTable_New 2 natKeyEq)
      [entryOf 0, entryOf 1, entryOf 2, entryOf 3, entryOf 4, entryOf 5] = some tableFull2 ∧
    HashTable_Find 3 tableFull2 5 5 = some (true, some (entryOf 5)) ∧
    ∀ fuel, HashTable_Insert fuel tableFull2 { hash := 5, key := 5, value := 99 } = none :=
  ⟨tableFull2_eq, by decide,
    fun fuel => HashTable_Insert_threshold fuel tableFull2 _ (by decide) (by decide)⟩

/-- C3 fails at the threshold: two buckets hold the entries for 0 to 5, the key 6
is not stored (`HashTable_Find` returns false), and the insert of the entry for 6
has no result, whatever the fuel. -/
theorem C3_new_key_at_threshold_has_no_result :
    insertAll 4 (HashTable_New 2 natKeyEq)
      [entryOf 0, entryOf 1, entryOf 2, entryOf 3, entryOf 4, entryOf 5] = some tableFull2 ∧
    tableFull2.num_buckets = 2 ∧ tableFull2.num_elements = 6 ∧
    HashTable_Find 3 tableFull2 6 6 = some (false, none) ∧
    ∀ fuel, HashTable_Insert fuel tableFull2 (entryOf 6) = none :=
  ⟨tableFull2_eq, by decide, by decide, by decide,
    fun fuel => HashTable_Insert_threshold fuel tableFull2 _ (by decide) (by decide)⟩

/-- C7 fails on a table with one entry: two buckets, the entry for 3 in bucket 1.
`HTIterator_New` stands on that entry and `HTIterator_Get` returns it; then
`HTIterator_Next` returns true and leaves a valid iterator whose chain iterator
is past the end, on which `HTIterator_Get` has no defined result: the traversal
never ends with the entries of the table. -/
theorem C7_traversal_has_no_result :
    insertAll 1 (HashTable_New 2 natKeyEq) [entryOf 3] = some tableWith3 ∧
    HashTable_NumElements tableWith3 = 1 ∧
    HTIterator_New tableWith3 =
      some { bucket_idx := 1, bucket_it := some { list := 1, node := some 0 } } ∧
    HTIterator_Get tableWith3
      { bucket_idx := 1, bucket_it := some { list := 1, node := some 0 } } =
      some (true, some (entryOf 3)) ∧
    HTIterator_Next tableWith3
      { bucket_idx := 1, bucket_it := some { list := 1, node := some 0 } } =
      some (true, { bucket_idx := 1, bucket_it := some { list := 1, node := none } }) ∧
    HTIterator_IsValid { bucket_idx := 1, bucket_it := some { list := 1, node := none } } = true ∧
    HTIterator_Get tableWith3
      { bucket_idx := 1, bucket_it := some { list := 1, node := none } } = none ∧
    ∀ fuel, HTIterator_traverse tableWith3 fuel
      { bucket_idx := 1, bucket_it := some { list := 1, node := some 0 } } = none :=
  ⟨rfl, by decide, by decide, by decide, by decide, by decide, by decide,
    fun fuel => HTIterator_traverse_valid tableWith3 fuel _ (by decide)⟩

/-- C8 fails where it promises the growth: in every table with at least one
bucket and `num_elements >= 3 * num_buckets`, `HashTable_Insert` has no result,
so no table with nine times the buckets comes out of it. -/
theorem C8_insert_at_threshold_has_no_result {K V : Type} (fuel : Nat) (t : HashTable K V)
    (e : HTKeyValue_t K V) (hpos : 0 < t.num_buckets)
    (hth : 3 * t.num_buckets ≤ t.num_elements) :
    HashTable_Insert fuel t e = none :=
  HashTable_Insert_threshold fuel t e hpos hth

/-- The instance of C8 of the resize test: 2 buckets, the keys 0 to 5 stored,
then the insert of the key 6, with fuel 100. -/
theorem C8_insert_at_threshold_has_no_result_witness :
    insertAll 4 (HashTable_New 2 natKeyEq)
      [entryOf 0, entryOf 1, entryOf 2, entryOf 3, entryOf 4, entryOf 5] = some tableFull2 ∧
    tableFull2.num_buckets = 2 ∧ HashTable_Insert 100 tableFull2 (entryOf 6) = none :=
  ⟨tableFull2_eq, by decide,
    C8_insert_at_threshold_has_no_result 100 tableFull2 (entryOf 6) (by decide) (by decide)⟩

/-- C9 fails: the grow never completes.  One bucket holds the entries for 2, 1
and 0 at the addresses 2, 1 and 0.  On the last of them `HTIterator_Next` returns
true and leaves the iterator valid with its chain iterator past the end, where
`HTIterator_Get` has no defined result; `MaybeResize` has no result, whatever
the insert function and the fuel. -/
theorem C9_grow_has_no_result :
    insertAll 4 (HashTable_New 1 natKeyEq) [entryOf 0, entryOf 1, entryOf 2] =
      some tableFull1 ∧
    HTIterator_New tableFull1 =
      some { bucket_idx := 0, bucket_it := some { list := 0, node := some 2 } } ∧
    HTIterator_Next tableFull1
      { bucket_idx := 0, bucket_it := some { list := 0, node := some 0 } } =
      some (true, { bucket_idx := 0, bucket_it := some { list := 0, node := none } }) ∧
    HTIterator_Get tableFull1
      { bucket_idx := 0, bucket_it := some { list := 0, node := none } } = none ∧
    ∀ (insert : HashTable Nat Nat → HTKeyValue_t Nat Nat →
        Option (Bool × Option (HTKeyValue_t Nat Nat) × HashTable Nat Nat)) (fuel : Nat),
      MaybeResize insert fuel tableFull1 = none :=
  ⟨tableFull1_eq, by decide, by decide, by decide,
    fun insert fuel => MaybeResize_threshold insert fuel tableFull1 (by decide) (by decide)⟩

/-- C4: let `key_equal` be symmetric and transitive and let `table` be reached
from `HashTable_New(n, key_equal)`, `n > 0`, by inserts and removes.  When the
chain of some bucket holds an entry with hash `h` whose key is `key_equal` to `k`,
`HashTable_Remove(table, h, k)` returns true with that entry, the element count
goes down by exactly one, and afterwards a second `HashTable_Remove(table, h, k)`
and a `HashTable_Find(table, h, k)` return false. -/
theorem C4_remove_then_absent [DecidableEq K] [DecidableEq V]
    (ok : HTKeyValue_t K V → Prop) (n : Nat) (key_equal : K → K → Bool)
    (table : HashTable K V) (hn : 0 < n) (hreach : Reachable ok n key_equal table)
    (hsymm : ∀ a b, key_equal a b = true → key_equal b a = true)
    (htrans : ∀ a b c, key_equal a b = true → key_equal b c = true → key_equal a c = true)
    (i : Nat) (chain : LinkedList (HTKeyValue_t K V)) (cs : List (Nat × HTKeyValue_t K V))
    (c : Nat × HTKeyValue_t K V) (h : Nat) (k : K)
    (hbucket : table.buckets[i]? = some chain) (hchain : Fwd chain.mem chain.head cs)
    (hc : c ∈ cs) (hhash : c.2.hash = h) (hkey : key_equal c.2.key k = true)
    (fuel : Nat) (hfuel : table.num_elements ≤ fuel) :
    ∃ t1, HashTable_Remove fuel table h k = some (true, some c.2, t1) ∧
      t1.num_elements + 1 = table.num_elements ∧
      HashTable_Remove fuel t1 h k = some (false, none, t1) ∧
      HashTable_Find fuel t1 h k = some (false, none) := by
  obtain ⟨_, hcmp, bs, hinv, hdist, _⟩ := Reachable_inv_distinct hn hsymm htrans hreach
  obtain ⟨cs1, hcs1, hwf⟩ := forall₂_getElem? hinv.wf i chain hbucket
  have hcc : cs = cs1 := Fwd_unique hchain (Chain_fwd hwf.chain)
  subst hcc
  exact HashTable_Remove_present fuel table bs hinv (by rw [hcmp]; exact hdist)
    (by rw [hcmp]; exact hsymm) (by rw [hcmp]; exact htrans) i cs c h k hcs1 hc hhash
    (by rw [hcmp]; exact hkey) hfuel

/-- An instance of C4: two buckets, the entry for 3 stored, `HashTable_Remove`
of hash 3 and key 3. -/
theorem C4_remove_then_absent_witness :
    ∃ t1, HashTable_Remove 1 tableWith3 3 3 = some (true, some (entryOf 3), t1) ∧
      t1.num_elements + 1 = tableWith3.num_elements ∧
      HashTable_Remove 1 t1 3 3 = some (false, none, t1) ∧
      HashTable_Find 1 t1 3 3 = some (false, none) :=
  C4_remove_then_absent (fun _ => True) 2 natKeyEq tableWith3 (by decide)
    (tableWith3_reachable _ trivial) natKeyEq_symm natKeyEq_trans 1
    { num_elements := 1, head := some 0, tail := some 0,
      mem := store (fun _ => none) 0 { payload := entryOf 3, next := none, prev := none },
      brk := 1 }
    [(0, entryOf 3)] (0, entryOf 3) 3 3 rfl ⟨rfl, _, rfl, rfl, rfl⟩ (by simp) rfl rfl 1
    (by decide)

/-- Below the threshold an insert returns, keeps the bucket count, reports an
overwrite exactly when the bucket held a related key, and `HashTable_Find` then
returns the inserted entry (the key being related to itself). -/
theorem HashTable_Find_after_Insert (fuel : Nat) (t : HashTable K V) (e : HTKeyValue_t K V)
    (bs : List (List (Nat × HTKeyValue_t K V))) (hinv : TableInv t bs)
    (hth : t.num_elements < 3 * t.num_buckets) (hf : t.num_elements < fuel)
    (hrefl : t.key_cmp_fn e.key e.key = true) :
    ∃ r old t1, HashTable_Insert fuel t e = some (r, old, t1) ∧
      t1.num_buckets = t.num_buckets ∧
      HashTable_Find fuel t1 e.hash e.key = some (true, some e) ∧
      ((r = false ∧ old = none ∧ t1.num_elements = t.num_elements + 1) ∨
       (r = true ∧ old ≠ none ∧ t1.num_elements = t.num_elements)) := by
  obtain ⟨⟨r, old, t1⟩, hres⟩ := HashTable_Insert_total fuel t e bs hinv hth hf
  obtain ⟨_, hnb, hcmp, l, cs, hl, hcs, hwf, hcase⟩ :=
    HashTable_Insert_sound fuel t t1 e r old bs hinv hres
  have hlt : e.hash % t.num_buckets < bs.length := by
    rw [List.getElem?_eq_some_iff] at hcs; exact hcs.1
  have key : ∀ (ds : List (Nat × HTKeyValue_t K V)) (pre post : List (Nat × HTKeyValue_t K V))
      (a : Nat), TableInv t1 (bs.set (e.hash % t.num_buckets) ds) → ds = pre ++ (a, e) :: post →
      (∀ x ∈ pre, t.key_cmp_fn x.2.key e.key = false) → t1.num_elements ≤ fuel →
      HashTable_Find fuel t1 e.hash e.key = some (true, some e) := by
    intro ds pre post a hinv1 hds hpre hf1
    obtain ⟨l2, cs2, hl2, hcs2, hwf2, hlen2⟩ := TableInv_bucket hinv1 e.hash
    rw [hnb, List.getElem?_set_self hlt] at hcs2
    have hcs3 : ds = cs2 := Option.some.inj hcs2
    subst hcs3
    obtain ⟨⟨r2, old2⟩, hres2⟩ := HashTable_Find_total fuel t1 e.hash e.key l2 _ hinv1.pos
      hl2 (Chain_fwd hwf2.chain) (by omega)
    rcases HashTable_Find_sound fuel t1 e.hash e.key r2 old2 l2 _ hinv1.pos hl2
      (Chain_fwd hwf2.chain) hres2 with ⟨_, _, hall⟩ | ⟨pre2, d2, post2, hsplit2, hpre2, hd2, hr2, hold2⟩
    · have := hall (a, e) (by rw [hds]; simp)
      rw [hcmp, hrefl] at this; cases this
    · rw [hds] at hsplit2
      obtain ⟨_, h2, _⟩ := split_unique (fun x => t.key_cmp_fn x.2.key e.key = true)
        (fun x => t.key_cmp_fn x.2.key e.key = true) pre pre2 (a, e) d2 post post2 hsplit2
        (fun x hx => by simp [hpre x hx]) hrefl
        (fun x hx => by rw [← hcmp]; simp [hpre2 x hx]) (by rw [← hcmp]; exact hd2)
        (fun hq => hq) (fun hq => hq)
      rw [hres2, hr2, hold2, ← h2]
  refine ⟨r, old, t1, hres, hnb, ?_, ?_⟩
  · rcases hcase with ⟨_, _, _, hnum, hinv1⟩ | ⟨pre, c, post, _, hpre, _, _, _, hnum, hinv1⟩
    · exact key _ [] cs l.brk hinv1 rfl (by simp) (by omega)
    · exact key _ pre post c.1 hinv1 rfl hpre (by omega)
  · rcases hcase with ⟨hr, hold, _, hnum, _⟩ | ⟨_, _, _, _, _, _, hr, hold, hnum, _⟩
    · exact Or.inl ⟨hr, hold, hnum⟩
    · exact Or.inr ⟨hr, by rw [hold]; simp, hnum⟩

/-- The example of the insert and remove test: 10 buckets, the keys 0 to 24
inserted; after the removal of the 13 even keys `HashTable_NumElements` is 12, and
after the removal of the 12 odd keys it is 0. -/
theorem count_after_removing_even_then_odd :
    ((insertAll 4 (HashTable_New 10 natKeyEq) ((List.range 25).map entryOf)).bind
      (fun t => removeAll 3 t ((List.range 13).map (fun i => (2 * i, 2 * i))))).map
        HashTable_NumElements = some 12 ∧
    (((insertAll 4 (HashTable_New 10 natKeyEq) ((List.range 25).map entryOf)).bind
      (fun t => removeAll 3 t ((List.range 13).map (fun i => (2 * i, 2 * i))))).bind
      (fun t => removeAll 3 t ((List.range 12).map (fun i => (2 * i + 1, 2 * i + 1))))).map
        HashTable_NumElements = some 0 := by
  constructor <;> decide

/-- What `HTIterator_Remove` does to the table: nothing, or what the
`HashTable_Remove` of some hash and key does. -/
theorem HTIterator_Remove_table [DecidableEq K] [DecidableEq V] (fuel : Nat)
    (t t1 : HashTable K V) (it it1 : HTIterator) (r : Bool)
    (old : Option (HTKeyValue_t K V))
    (h : HTIterator_Remove fuel t it = some (r, old, it1, t1)) :
    t1 = t ∨ ∃ hash key r1, HashTable_Remove fuel t hash key = some (r1, old, t1) := by
  unfold HTIterator_Remove at h
  cases hg : HTIterator_Get t it with
  | none => simp [hg] at h
  | some p =>
    obtain ⟨b, kv⟩ := p
    cases b with
    | false =>
      simp only [hg, Option.some.injEq, Prod.mk.injEq] at h
      exact Or.inl h.2.2.2.symm
    | true =>
      cases kv with
      | none => simp [hg] at h
      | some kv =>
        simp only [hg] at h
        cases hn : HTIterator_Next t it with
        | none => simp [hn] at h
        | some q =>
          obtain ⟨r2, it2⟩ := q
          simp only [hn] at h
          cases hr : HashTable_Remove fuel t kv.hash kv.key with
          | none => simp [hr] at h
          | some w =>
            obtain ⟨r1, out, t2⟩ := w
            simp only [hr, Option.some.injEq, Prod.mk.injEq] at h
            obtain ⟨_, h2, _, h4⟩ := h
            subst h2; subst h4
            exact Or.inr ⟨kv.hash, kv.key, r1, hr⟩

/-- Every table reached by inserts, removes and iterator removals satisfies the
invariant and keeps the bucket count and the key predicate it was created with. -/
theorem ReachableIt_inv [DecidableEq K] [DecidableEq V]
    {n : Nat} {key_equal : K → K → Bool} {t : HashTable K V} (hn : 0 < n)
    (h : ReachableIt n key_equal t) :
    t.num_buckets = n ∧ t.key_cmp_fn = key_equal ∧ ∃ bs, TableInv t bs := by
  have hrem : ∀ (fuel : Nat) (t t1 : HashTable K V) (hash : Nat) (key : K) (r : Bool)
      (old : Option (HTKeyValue_t K V)),
      (t.num_buckets = n ∧ t.key_cmp_fn = key_equal ∧ ∃ bs, TableInv t bs) →
      HashTable_Remove fuel t hash key = some (r, old, t1) →
      t1.num_buckets = n ∧ t1.key_cmp_fn = key_equal ∧ ∃ bs, TableInv t1 bs := by
    intro fuel t t1 hash key r old ih hrm
    obtain ⟨h1, h2, bs, hinv⟩ := ih
    obtain ⟨h3, h4, l, cs, _, _, _, hcase⟩ :=
      HashTable_Remove_sound fuel t t1 hash key r old bs hinv hrm
    refine ⟨by rw [h3, h1], by rw [h4, h2], ?_⟩
    rcases hcase with ⟨_, _, ht, _⟩ | ⟨_, _, _, _, _, _, _, _, _, hinv1⟩
    · exact ⟨bs, by rw [ht]; exact hinv⟩
    · exact ⟨_, hinv1⟩
  induction h with
  | new => exact ⟨rfl, rfl, _, HashTable_New_inv n key_equal hn⟩
  | insert fuel t t1 e r old _ hins ih =>
    obtain ⟨h1, h2, bs, hinv⟩ := ih
    obtain ⟨_, h3, h4, l, cs, _, _, _, hcase⟩ :=
      HashTable_Insert_sound fuel t t1 e r old bs hinv hins
    refine ⟨by rw [h3, h1], by rw [h4, h2], ?_⟩
    rcases hcase with ⟨_, _, _, _, hinv1⟩ | ⟨_, _, _, _, _, _, _, _, _, hinv1⟩
    · exact ⟨_, hinv1⟩
    · exact ⟨_, hinv1⟩
  | remove fuel t t1 hash key r old _ hrm ih => exact hrem fuel t t1 hash key r old ih hrm
  | iter_remove fuel t t1 it it1 r old _ hrm ih =>
    rcases HTIterator_Remove_table fuel t t1 it it1 r old hrm with h1 | ⟨hash, key, r1, h1⟩
    · rw [h1]; exact ih
    · exact hrem fuel t t1 hash key r1 old ih h1

/-- In a table that satisfies the invariant the element counts of the chains
are the lengths of the chains. -/
theorem map_NumElements_of_wf :
    ∀ {ls : List (LinkedList α)} {bs : List (List (Nat × α))},
      List.Forall₂ ListWF ls bs → ls.map LinkedList_NumElements = bs.map List.length := by
  intro ls bs h
  induction h with
  | nil => rfl
  | cons hab _ ih =>
    simp only [List.map_cons, ih, LinkedList_NumElements, hab.count]

/-- C11: in every table reached from `HashTable_New(n, key_equal)`, `n > 0`, by
inserts, removes and iterator removals that return, `num_elements` is the sum of
`LinkedList_NumElements` over the buckets. -/
theorem C11_count_is_sum_of_chain_counts [DecidableEq K] [DecidableEq V]
    (n : Nat) (key_equal : K → K → Bool) (t : HashTable K V) (hn : 0 < n)
    (h : ReachableIt n key_equal t) :
    t.num_elements = (t.buckets.map LinkedList_NumElements).sum := by
  obtain ⟨_, _, bs, hinv⟩ := ReachableIt_inv hn h
  rw [map_NumElements_of_wf hinv.wf, hinv.count]

/-- The function `LinkedList_Pop` on a well-formed list with a first cell returns true
with the payload of that cell and leaves the well-formed list of the other cells. -/
theorem LinkedList_Pop_wf (list : LinkedList α) (c : Nat × α) (cs : List (Nat × α))
    (h : ListWF list (c :: cs)) :
    ∃ list1, LinkedList_Pop list = some (true, some c.2, list1) ∧ ListWF list1 cs := by
  obtain ⟨hch, hnd, hbd, hct⟩ := h
  obtain ⟨hhead, n, hn, hpay, hprev, hrest⟩ := hch
  have hne : list.num_elements ≠ 0 := by rw [hct]; simp
  simp only [List.map_cons, List.nodup_cons] at hnd
  cases cs with
  | nil =>
    simp only [Chain] at hrest
    refine ⟨{ list with head := n.next, mem := release list.mem c.1,
                        num_elements := list.num_elements - 1 }, ?_, ?_⟩
    · simp only [LinkedList_Pop, hne, if_false, hhead, hn, hrest, setPrevIf, hpay]
    · exact ⟨hrest, by simp, by simp, by simp [hct]⟩
  | cons d cs =>
    obtain ⟨hnx, nd, hnd1, hpayd, hprevd, hrest1⟩ := hrest
    have hdc : d.1 ≠ c.1 := by
      intro he; apply hnd.1; simp [he]
    refine ⟨{ list with head := n.next,
                        mem := release (store list.mem d.1 { nd with prev := none }) c.1,
                        num_elements := list.num_elements - 1 }, ?_, ?_⟩
    · simp only [LinkedList_Pop, hne, if_false, hhead, hn, hnx, setPrevIf, setPrev, hnd1, hpay]
    · refine ⟨?_, hnd.2, ?_, ?_⟩
      · refine ⟨hnx, { nd with prev := none }, ?_, hpayd, rfl, ?_⟩
        · dsimp only
          rw [release_other _ _ _ hdc, store_same]
        · apply Chain_frame hrest1
          intro e he
          have hec : e.1 ≠ c.1 := by
            intro h3; apply hnd.1
            simp only [List.map_cons, List.mem_cons, List.mem_map]
            exact Or.inr ⟨e, he, h3⟩
          have hed : e.1 ≠ d.1 := by
            intro h3
            have h5 := hnd.2
            simp only [List.map_cons, List.nodup_cons, List.mem_map] at h5
            exact h5.1 ⟨e, he, h3⟩
          dsimp only
          rw [release_other _ _ _ hec, store_other _ _ _ _ hed]
      · intro e he
        exact hbd e (List.mem_cons_of_mem _ he)
      · dsimp only
        rw [hct]; simp

/-- The pop loop of `HashTable_Delete` hands over the entries of a well-formed
chain, head first, and leaves an empty chain. -/
theorem HashTable_Delete_chain_wf :
    ∀ (cs : List (Nat × α)) (fuel : Nat) (list : LinkedList α), ListWF list cs →
      cs.length ≤ fuel →
      ∃ list1, HashTable_Delete_chain fuel list = some (cs.map Prod.snd, list1) ∧
        ListWF list1 [] := by
  intro cs
  induction cs with
  | nil =>
    intro fuel list h _
    have h0 : ¬ LinkedList_NumElements list > 0 := by
      simp [LinkedList_NumElements, h.count]
    refine ⟨list, ?_, h⟩
    cases fuel <;> simp only [HashTable_Delete_chain, h0, if_false, List.map_nil]
  | cons c cs ih =>
    intro fuel list h hf
    have h0 : LinkedList_NumElements list > 0 := by
      simp [LinkedList_NumElements, h.count]
    cases fuel with
    | zero => simp at hf
    | succ fuel =>
      obtain ⟨list1, hpop, hwf1⟩ := LinkedList_Pop_wf list c cs h
      obtain ⟨list2, hrec, hwf2⟩ := ih fuel list1 hwf1 (by simpa using hf)
      exact ⟨list2, by simp only [HashTable_Delete_chain, h0, if_true, hpop, hrec,
        List.map_cons], hwf2⟩

/-- The function `LinkedList_Delete` on an empty well-formed list calls no disposer. -/
theorem LinkedList_Delete_empty (fuel : Nat) (list : LinkedList α) (h : ListWF list []) :
    LinkedList_Delete fuel list = some [] := by
  have hh : list.head = none := h.chain
  cases fuel <;> simp only [LinkedList_Delete, hh, LinkedList_Delete_loop]

/-- The bucket loop of `HashTable_Delete` hands over the entries of the buckets
from `i` on, bucket by bucket. -/
theorem HashTable_Delete_buckets_wf (fuel : Nat) (ls : List (LinkedList α))
    (bs : List (List (Nat × α))) (hwf : List.Forall₂ ListWF ls bs)
    (hf : ∀ cs ∈ bs, cs.length ≤ fuel) :
    ∀ (k i : Nat), i + k = ls.length →
      HashTable_Delete_buckets fuel ls k i = some ((bs.drop i).flatten.map Prod.snd) := by
  have hlen : ls.length = bs.length := hwf.length_eq
  intro k
  induction k with
  | zero =>
    intro i hi
    rw [List.drop_eq_nil_of_le (by omega)]
    rfl
  | succ k ih =>
    intro i hi
    have hil : i < ls.length := by omega
    have hl : ls[i]? = some ls[i] := List.getElem?_eq_getElem hil
    obtain ⟨cs, hcs, hwfi⟩ := forall₂_getElem? hwf i _ hl
    obtain ⟨list1, hchain, hwf1⟩ := HashTable_Delete_chain_wf cs fuel _ hwfi
      (hf cs (List.getElem?_mem hcs))
    have hib : i < bs.length := by omega
    have hcs2 : bs[i] = cs := by
      rw [List.getElem?_eq_getElem hib] at hcs; exact Option.some.inj hcs
    rw [List.drop_eq_getElem_cons hib, hcs2]
    simp only [HashTable_Delete_buckets, hl, hchain, LinkedList_Delete_empty fuel list1 hwf1,
      ih (i + 1) (by omega), List.flatten_cons, List.map_append]

/-- The function `HashTable_Delete` on a table that satisfies the invariant calls the
disposer on the stored entries, bucket by bucket and head first. -/
theorem HashTable_Delete_inv (fuel : Nat) (t : HashTable K V)
    (bs : List (List (Nat × HTKeyValue_t K V))) (hinv : TableInv t bs)
    (hf : t.num_elements ≤ fuel) :
    HashTable_Delete fuel t = some (bs.flatten.map Prod.snd) ∧
    (bs.flatten.map Prod.snd).length = t.num_elements := by
  constructor
  · have := HashTable_Delete_buckets_wf fuel t.buckets bs hinv.wf (by
      intro cs hcs
      obtain ⟨i, hi⟩ := List.mem_iff_getElem?.mp hcs
      have := length_le_sum bs i cs hi
      rw [← hinv.count] at this
      omega) t.num_buckets 0 (by rw [hinv.len]; simp)
    simpa [HashTable_Delete] using this
  · simp only [List.length_map, List.length_flatten, hinv.count]

/-- The tables `insertAll` produces are reachable, also when iterator removals count. -/
theorem insertAll_reachableIt [DecidableEq K] [DecidableEq V]
    (n : Nat) (key_equal : K → K → Bool) (fuel : Nat) :
    ∀ (es : List (HTKeyValue_t K V)) (t t1 : HashTable K V), ReachableIt n key_equal t →
      insertAll fuel t es = some t1 → ReachableIt n key_equal t1 := by
  intro es
  induction es with
  | nil =>
    intro t t1 hr h
    simp only [insertAll, Option.some.injEq] at h
    rw [← h]; exact hr
  | cons e es ih =>
    intro t t1 hr h
    simp only [insertAll] at h
    cases h1 : HashTable_Insert fuel t e with
    | none => simp [h1] at h
    | some p =>
      obtain ⟨r, old, t2⟩ := p
      simp only [h1] at h
      exact ih t2 t1 (ReachableIt.insert fuel t t2 e r old hr h1) h

theorem tableFull2_reachableIt : ReachableIt 2 natKeyEq tableFull2 :=
  insertAll_reachableIt 2 natKeyEq 4 _ _ _ ReachableIt.new tableFull2_eq

theorem tableAfterIteratorRemove_eq :
    HTIterator_Remove 3 tableFull2
      { bucket_idx := 0, bucket_it := some { list := 0, node := some 2 } } =
      some (true, some (entryOf 4),
        { bucket_idx := 0, bucket_it := some { list := 0, node := some 1 } },
        tableAfterIteratorRemove) := rfl

theorem tableAfterIteratorRemove_reachableIt :
    ReachableIt 2 natKeyEq tableAfterIteratorRemove :=
  ReachableIt.iter_remove 3 tableFull2 _ _ _ true (some (entryOf 4)) tableFull2_reachableIt
    tableAfterIteratorRemove_eq

/-- An instance of C11: two buckets, the entries for 0 to 5 inserted, one of them
removed through a table iterator; the counts are 5 and 2 + 3. -/
theorem C11_count_is_sum_of_chain_counts_witness :
    ReachableIt 2 natKeyEq tableAfterIteratorRemove ∧
    tableAfterIteratorRemove.num_elements = 5 ∧
    tableAfterIteratorRemove.buckets.map LinkedList_NumElements = [2, 3] ∧
    tableAfterIteratorRemove.num_elements =
      (tableAfterIteratorRemove.buckets.map LinkedList_NumElements).sum :=
  ⟨tableAfterIteratorRemove_reachableIt, by decide, by decide,
    C11_count_is_sum_of_chain_counts 2 natKeyEq tableAfterIteratorRemove (by decide)
      tableAfterIteratorRemove_reachableIt⟩

/-- C12: for every `n` (in particular `n > 0`) and every predicate `key_equal`,
`HashTable_New(n, key_equal)` is a table with `num_buckets = n`,
`num_elements = 0`, the given predicate and `n` chains, each with zero elements
and with head and tail `nullptr`. -/
theorem C12_new_table_is_empty (n : Nat) (key_equal : K → K → Bool) :
    (HashTable_New n key_equal : HashTable K V).num_buckets = n ∧
    (HashTable_New n key_equal : HashTable K V).num_elements = 0 ∧
    (HashTable_New n key_equal : HashTable K V).key_cmp_fn = key_equal ∧
    (HashTable_New n key_equal : HashTable K V).buckets.length = n ∧
    ∀ chain ∈ (HashTable_New n key_equal : HashTable K V).buckets,
      LinkedList_NumElements chain = 0 ∧ chain.head = none ∧ chain.tail = none := by
  refine ⟨rfl, rfl, rfl, by simp [HashTable_New], ?_⟩
  intro chain hc
  simp only [HashTable_New] at hc
  rw [List.eq_of_mem_replicate hc]
  exact ⟨rfl, rfl, rfl⟩

/-- C13 as stated fails: `HashTable_New(0, ==)` is not rejected, it is a table
with no bucket, and `HashKeyToBucketNum`, `HashTable_Find` and `HashTable_Remove`
on it take the hash modulo zero, which has no defined result. -/
theorem C13_counterexample :
    (HashTable_New 0 natKeyEq : HashTable Nat Nat).num_buckets = 0 ∧
    (HashTable_New 0 natKeyEq : HashTable Nat Nat).buckets.length = 0 ∧
    HashKeyToBucketNum (HashTable_New 0 natKeyEq : HashTable Nat Nat) 5 = none ∧
    HashTable_Find 1 (HashTable_New 0 natKeyEq : HashTable Nat Nat) 5 5 = none ∧
    (HashTable_Remove 1 (HashTable_New 0 natKeyEq : HashTable Nat Nat) 5 5).isSome = false ∧
    (HashTable_Insert 1 (HashTable_New 0 natKeyEq : HashTable Nat Nat) (entryOf 5)).isSome =
      false := by
  refine ⟨rfl, rfl, rfl, rfl, rfl, rfl⟩

/-- C13, amended: `HashTable_New(0, key_equal)` is not rejected: it returns a
table with zero buckets and zero elements, on which `HTIterator_New` yields an
invalid iterator, and `HashTable_Find`, `HashTable_Remove` and
`HashTable_Insert` have no defined result (they take the hash modulo zero). -/
theorem C13_zero_buckets_not_rejected [DecidableEq K] [DecidableEq V]
    (key_equal : K → K → Bool) (fuel hash : Nat) (key : K) (e : HTKeyValue_t K V) :
    (HashTable_New 0 key_equal : HashTable K V).num_buckets = 0 ∧
    (HashTable_New 0 key_equal : HashTable K V).num_elements = 0 ∧
    (HashTable_New 0 key_equal : HashTable K V).buckets = [] ∧
    HTIterator_New (HashTable_New 0 key_equal : HashTable K V) =
      some { bucket_idx := k_invalid_index, bucket_it := none } ∧
    HashTable_Find fuel (HashTable_New 0 key_equal : HashTable K V) hash key = none ∧
    HashTable_Remove fuel (HashTable_New 0 key_equal : HashTable K V) hash key = none ∧
    HashTable_Insert fuel (HashTable_New 0 key_equal : HashTable K V) e = none := by
  refine ⟨rfl, rfl, rfl, rfl, rfl, rfl, ?_⟩
  cases fuel with
  | zero => rfl
  | succ fuel =>
    have h1 : MaybeResize (HashTable_Insert fuel) fuel (HashTable_New 0 key_equal : HashTable K V)
        = some (HashTable_New 0 key_equal) := by
      cases fuel <;> rfl
    simp only [HashTable_Insert, h1]
    rfl

/-- C14 fails on the last entry: two buckets hold the entries for 0 to 5; six
calls of `HTIterator_Next` after `HTIterator_New` put the iterator on the entry
for 1, the last node of the last bucket.  There `HTIterator_Next` returns true
and the iterator stays valid; one call later it returns false and the iterator
is valid still. -/
theorem C14_next_on_last_entry_returns_true :
    (HTIterator_New tableFull2).bind (HTIterator_advance tableFull2 6) =
      some { bucket_idx := 1, bucket_it := some { list := 1, node := some 0 } } ∧
    HTIterator_Get tableFull2
      { bucket_idx := 1, bucket_it := some { list := 1, node := some 0 } } =
      some (true, some (entryOf 1)) ∧
    HTIterator_Next tableFull2
      { bucket_idx := 1, bucket_it := some { list := 1, node := some 0 } } =
      some (true, { bucket_idx := 1, bucket_it := some { list := 1, node := none } }) ∧
    HTIterator_IsValid { bucket_idx := 1, bucket_it := some { list := 1, node := none } } = true ∧
    HTIterator_Next tableFull2
      { bucket_idx := 1, bucket_it := some { list := 1, node := none } } =
      some (false, { bucket_idx := 2, bucket_it := some { list := 1, node := none } }) ∧
    HTIterator_IsValid { bucket_idx := 2, bucket_it := some { list := 1, node := none } } = true := by
  refine ⟨by decide, by decide, by decide, by decide, by decide, by decide⟩

/-- C15 fails: two buckets, the entry for 2 in bucket 0, bucket 1 empty.  After
one `HTIterator_Next` the iterator is valid with its chain iterator past the end
of bucket 0, after two it is valid in the empty bucket 1 (which is not skipped);
in both states `HTIterator_Get` has no defined result. -/
theorem C15_valid_iterator_off_the_chain :
    insertAll 1 (HashTable_New 2 natKeyEq) [entryOf 2] = some tableWith2 ∧
    tableWith2.buckets.map LinkedList_NumElements = [1, 0] ∧
    (HTIterator_New tableWith2).bind (HTIterator_advance tableWith2 1) =
      some { bucket_idx := 0, bucket_it := some { list := 0, node := none } } ∧
    HTIterator_IsValid { bucket_idx := 0, bucket_it := some { list := 0, node := none } } = true ∧
    HTIterator_Get tableWith2
      { bucket_idx := 0, bucket_it := some { list := 0, node := none } } = none ∧
    (HTIterator_New tableWith2).bind (HTIterator_advance tableWith2 2) =
      some { bucket_idx := 1, bucket_it := some { list := 1, node := none } } ∧
    HTIterator_IsValid { bucket_idx := 1, bucket_it := some { list := 1, node := none } } = true ∧
    HTIterator_Get tableWith2
      { bucket_idx := 1, bucket_it := some { list := 1, node := none } } = none := by
  refine ⟨rfl, by decide, by decide, by decide, by decide, by decide, by decide, by decide⟩

/-- C16 fails after the removal of the last entry: two buckets, the entry for 3
stored.  `HTIterator_Remove` on the iterator of `HTIterator_New` returns true
with that entry and leaves an empty table, but the iterator it leaves is valid
with its chain iterator past the end: `HTIterator_Get` and a further
`HTIterator_Remove` on it have no defined result, so the traversal cannot be
continued to its end. -/
theorem C16_iterator_after_remove_is_off_the_chain :
    (HTIterator_Remove 1 tableWith3
      { bucket_idx := 1, bucket_it := some { list := 1, node := some 0 } }).map
      (fun r => (r.1, r.2.1, r.2.2.1, r.2.2.2.num_elements)) =
      some (true, some (entryOf 3),
        { bucket_idx := 1, bucket_it := some { list := 1, node := none } }, 0) ∧
    HTIterator_IsValid { bucket_idx := 1, bucket_it := some { list := 1, node := none } } = true ∧
    ∀ (t : HashTable Nat Nat) (fuel : Nat),
      HTIterator_Get t { bucket_idx := 1, bucket_it := some { list := 1, node := none } } = none ∧
      HTIterator_Remove fuel t
        { bucket_idx := 1, bucket_it := some { list := 1, node := none } } = none := by
  refine ⟨by decide, by decide, ?_⟩
  intro t fuel
  have hg : HTIterator_Get t
      { bucket_idx := 1, bucket_it := some { list := 1, node := none } } = none := by
    simp only [HTIterator_Get]
    cases t.buckets[1]? <;> rfl
  exact ⟨hg, by simp only [HTIterator_Remove, hg]⟩

/-- C17: `HTIterator_New` on a table with `num_elements = 0` yields an iterator
that is not valid; on an iterator that is not valid `HTIterator_Get`,
`HTIterator_Next` and `HTIterator_Remove` return false, write no entry, and
leave the iterator and the table as they are. -/
theorem C17_invalid_iterator_stays_invalid [DecidableEq K] [DecidableEq V]
    (empty table : HashTable K V) (iter : HTIterator) (fuel : Nat)
    (hzero : empty.num_elements = 0) (hinvalid : HTIterator_IsValid iter = false) :
    (∃ it, HTIterator_New empty = some it ∧ HTIterator_IsValid it = false) ∧
    HTIterator_Get table iter = some (false, none) ∧
    HTIterator_Next table iter = some (false, iter) ∧
    HTIterator_Remove fuel table iter = some (false, none, iter, table) := by
  have hb : iter.bucket_it = none := by
    cases h : iter.bucket_it with
    | none => rfl
    | some l => simp [HTIterator_IsValid, h] at hinvalid
  have hg : HTIterator_Get table iter = some (false, none) := by
    simp only [HTIterator_Get, hb]
  refine ⟨⟨{ bucket_idx := k_invalid_index, bucket_it := none }, ?_, rfl⟩, hg, ?_, ?_⟩
  · simp only [HTIterator_New, hzero, true_or, if_true]
  · simp only [HTIterator_Next, hb]
  · simp only [HTIterator_Remove, hg]

/-- An instance of C17: the new table with 300 buckets of the iterator test, and
the invalid iterator on the table that holds the entry for 3. -/
theorem C17_invalid_iterator_stays_invalid_witness :
    (∃ it, HTIterator_New (HashTable_New 300 natKeyEq : HashTable Nat Nat) = some it ∧
      HTIterator_IsValid it = false) ∧
    HTIterator_Get tableWith3 { bucket_idx := k_invalid_index, bucket_it := none } =
      some (false, none) ∧
    HTIterator_Next tableWith3 { bucket_idx := k_invalid_index, bucket_it := none } =
      some (false, { bucket_idx := k_invalid_index, bucket_it := none }) ∧
    HTIterator_Remove 1 tableWith3 { bucket_idx := k_invalid_index, bucket_it := none } =
      some (false, none, { bucket_idx := k_invalid_index, bucket_it := none }, tableWith3) :=
  C17_invalid_iterator_stays_invalid (HashTable_New 300 natKeyEq) tableWith3
    { bucket_idx := k_invalid_index, bucket_it := none } 1 rfl rfl

/-- C18: for every table reached from `HashTable_New(n, key_equal)`, `n > 0`, by
inserts, removes and iterator removals that return, `HashTable_Delete` calls the
disposer on exactly the entries of the cells of the buckets, each cell once
(bucket by bucket, head first), so the number of calls is `num_elements`. -/
theorem C18_delete_disposes_every_entry_once [DecidableEq K] [DecidableEq V]
    (n : Nat) (key_equal : K → K → Bool) (t : HashTable K V) (hn : 0 < n)
    (h : ReachableIt n key_equal t) (fuel : Nat) (hfuel : t.num_elements ≤ fuel) :
    ∃ bs, TableCells t bs ∧
      HashTable_Delete fuel t = some (bs.flatten.map Prod.snd) ∧
      (bs.flatten.map Prod.snd).length = HashTable_NumElements t := by
  obtain ⟨_, _, bs, hinv⟩ := ReachableIt_inv hn h
  obtain ⟨h1, h2⟩ := HashTable_Delete_inv fuel t bs hinv hfuel
  exact ⟨bs, TableInv_cells hinv, h1, h2⟩

/-- An instance of C18: two buckets that hold the entries for 0 to 5. -/
theorem C18_delete_disposes_every_entry_once_witness :
    ∃ bs, TableCells tableFull2 bs ∧
      HashTable_Delete 6 tableFull2 = some (bs.flatten.map Prod.snd) ∧
      (bs.flatten.map Prod.snd).length = HashTable_NumElements tableFull2 :=
  C18_delete_disposes_every_entry_once 2 natKeyEq tableFull2 (by decide)
    tableFull2_reachableIt 6 (by decide)

/-- The disposer calls of the tests: 10 buckets, the keys 0 to 24 inserted and
the keys 0 to 19 removed leave 5 entries and `HashTable_Delete` makes 5 calls;
two buckets with the entries for 0 to 5 give the calls 4, 2, 0, 5, 3, 1. -/
theorem delete_calls_of_the_tests :
    ((insertAll 4 (HashTable_New 10 natKeyEq) ((List.range 25).map entryOf)).bind
      (fun t => removeAll 3 t ((List.range 20).map (fun i => (i, i))))).map
        HashTable_NumElements = some 5 ∧
    (((insertAll 4 (HashTable_New 10 natKeyEq) ((List.range 25).map entryOf)).bind
      (fun t => removeAll 3 t ((List.range 20).map (fun i => (i, i))))).bind
      (HashTable_Delete 5)).map List.length = some 5 ∧
    HashTable_Delete 6 tableFull2 =
      some [entryOf 4, entryOf 2, entryOf 0, entryOf 5, entryOf 3, entryOf 1] := by
  refine ⟨by decide, by decide, by decide⟩

/-- C19 fails: the migration loop of `MaybeResize` never reaches an invalid
iterator.  From a valid iterator every number of `HTIterator_Next` calls that
has a result leaves a valid iterator, and the loop has no result, whatever the
fuel. -/
theorem C19_migration_loop_never_ends
    (insert : HashTable K V → HTKeyValue_t K V →
      Option (Bool × Option (HTKeyValue_t K V) × HashTable K V))
    (ht newht : HashTable K V) (it : HTIterator) (hvalid : HTIterator_IsValid it = true) :
    (∀ k it1, HTIterator_advance ht k it = some it1 → HTIterator_IsValid it1 = true) ∧
    ∀ fuel, MaybeResize_loop insert ht fuel it newht = none := by
  constructor
  · intro k
    induction k generalizing it with
    | zero =>
      intro it1 h
      simp only [HTIterator_advance, Option.some.injEq] at h
      rw [← h]; exact hvalid
    | succ k ih =>
      intro it1 h
      simp only [HTIterator_advance] at h
      cases hn : HTIterator_Next ht it with
      | none => simp [hn] at h
      | some p =>
        obtain ⟨r, it2⟩ := p
        simp only [hn] at h
        exact ih it2 (HTIterator_Next_valid ht it it2 r hvalid hn) it1 h
  · intro fuel
    exact MaybeResize_loop_valid insert ht fuel it newht hvalid

/-- The instance of C19 of the resize test: two buckets hold the entries for 0
to 5, the loop starts from the iterator of `HTIterator_New`. -/
theorem C19_migration_loop_never_ends_witness :
    HTIterator_New tableFull2 =
      some { bucket_idx := 0, bucket_it := some { list := 0, node := some 2 } } ∧
    ((∀ k it1, HTIterator_advance tableFull2 k
        { bucket_idx := 0, bucket_it := some { list := 0, node := some 2 } } = some it1 →
        HTIterator_IsValid it1 = true) ∧
      ∀ fuel, MaybeResize_loop (HashTable_Insert fuel) tableFull2 fuel
        { bucket_idx := 0, bucket_it := some { list := 0, node := some 2 } }
        (HashTable_New 18 natKeyEq) = none) :=
  ⟨by decide,
    (C19_migration_loop_never_ends (HashTable_Insert 0) tableFull2 (HashTable_New 18 natKeyEq)
      { bucket_idx := 0, bucket_it := some { list := 0, node := some 2 } } (by decide)).1,
    fun fuel => (C19_migration_loop_never_ends (HashTable_Insert fuel) tableFull2
      (HashTable_New 18 natKeyEq)
      { bucket_idx := 0, bucket_it := some { list := 0, node := some 2 } } (by decide)).2 fuel⟩

/-- C20 fails on an empty chain: `LinkedList_Push` of a payload on a new chain and
then `LinkedList_Pop` returns true with the payload and leaves `num_elements = 0`
and `head = nullptr`, but `tail` still holds the address of the freed node. -/
theorem C20_push_pop_leaves_tail_dangling :
    ((LinkedList_Push (LinkedList_New : LinkedList Nat) 7).bind LinkedList_Pop).map
      (fun r => (r.1, r.2.1, r.2.2.num_elements, r.2.2.head, r.2.2.tail,
        (r.2.2.mem 0).isSome)) =
      some (true, some 7, 0, none, some 0, false) := by
  rfl

/-- The function `LinkedList_Pop` keeps `tail` and, on a list with elements, takes the
head node away. -/
theorem LinkedList_Pop_tail (list list1 : LinkedList α) (r : Bool) (out : Option α)
    (h : LinkedList_Pop list = some (r, out, list1)) : list1.tail = list.tail := by
  unfold LinkedList_Pop at h
  split at h
  · simp only [Option.some.injEq, Prod.mk.injEq] at h
    rw [← h.2.2]
  · split at h
    · simp at h
    · split at h
      · simp at h
      · split at h
        · simp at h
        · simp only [Option.some.injEq, Prod.mk.injEq] at h
          rw [← h.2.2]

/-- The function `LinkedList_Push` sets `tail` only when it was `nullptr`. -/
theorem LinkedList_Push_tail (list list1 : LinkedList α) (x : α)
    (h : LinkedList_Push list x = some list1) :
    list1.tail = if list.tail = none then some list.brk else list.tail := by
  unfold LinkedList_Push at h
  simp only at h
  split at h
  · simp at h
  · simp only [Option.some.injEq] at h
    rw [← h]

/-- On a well-formed chain with at least one cell and a tail, `LinkedList_Push`
followed by `LinkedList_Pop` returns the pushed payload and restores head, tail,
count and cells. -/
theorem LinkedList_Push_Pop_nonempty (list : LinkedList α) (c : Nat × α)
    (cs : List (Nat × α)) (p : α) (h : ListWF list (c :: cs)) (ht : list.tail ≠ none) :
    ∃ list1 list2, LinkedList_Push list p = some list1 ∧
      LinkedList_Pop list1 = some (true, some p, list2) ∧
      list2.head = list.head ∧ list2.tail = list.tail ∧
      list2.num_elements = list.num_elements ∧ ListWF list2 (c :: cs) := by
  obtain ⟨list1, hpush, hwf1, _⟩ := LinkedList_Push_wf list (c :: cs) p h
  obtain ⟨list2, hpop, hwf2⟩ := LinkedList_Pop_wf list1 (list.brk, p) (c :: cs) hwf1
  refine ⟨list1, list2, hpush, hpop, ?_, ?_, ?_, hwf2⟩
  · rw [hwf2.chain.1, h.chain.1]
  · rw [LinkedList_Pop_tail list1 list2 true (some p) hpop,
      LinkedList_Push_tail list list1 p hpush, if_neg ht]
  · rw [hwf2.count, h.count]

/-- On a table that satisfies the invariant, without related keys in one bucket
and with a reflexive, symmetric and transitive key predicate, `HTIterator_Remove`
on an iterator that stands on the cell `c` of bucket `i` returns true with the
entry of `c` and takes one element off the table. -/
theorem HTIterator_Remove_on_cell [DecidableEq K] [DecidableEq V] (fuel : Nat)
    (t : HashTable K V) (bs : List (List (Nat × HTKeyValue_t K V)))
    (hinv : TableInv t bs) (hdist : BucketsDistinct t.key_cmp_fn bs)
    (hrefl : ∀ a, t.key_cmp_fn a a = true)
    (hsymm : ∀ a b, t.key_cmp_fn a b = true → t.key_cmp_fn b a = true)
    (htrans : ∀ a b c, t.key_cmp_fn a b = true → t.key_cmp_fn b c = true →
      t.key_cmp_fn a c = true)
    (i : Nat) (cs : List (Nat × HTKeyValue_t K V)) (c : Nat × HTKeyValue_t K V)
    (hcs : bs[i]? = some cs) (hc : c ∈ cs) (hfuel : t.num_elements ≤ fuel) :
    ∃ it1 t1, HTIterator_Remove fuel t
        { bucket_idx := i, bucket_it := some { list := i, node := some c.1 } } =
        some (true, some c.2, it1, t1) ∧
      HTIterator_IsValid it1 = true ∧ t1.num_elements + 1 = t.num_elements ∧
      HashTable_Find fuel t1 c.2.hash c.2.key = some (false, none) := by
  have hib : i < bs.length := by
    rw [List.getElem?_eq_some_iff] at hcs; exact hcs.1
  have hil : i < t.buckets.length := by rw [hinv.wf.length_eq]; exact hib
  have hl : t.buckets[i]? = some t.buckets[i] := List.getElem?_eq_getElem hil
  obtain ⟨cs1, hcs1, hwf⟩ := forall₂_getElem? hinv.wf i _ hl
  rw [hcs] at hcs1
  have hcc : cs = cs1 := Option.some.inj hcs1
  subst hcc
  obtain ⟨n, hn, hpay⟩ := Chain_live hwf.chain c hc
  have hg : HTIterator_Get t
      { bucket_idx := i, bucket_it := some { list := i, node := some c.1 } } =
      some (true, some c.2) := by
    simp only [HTIterator_Get, hl, LLIterator_Get, hn, hpay]
  have hnx : HTIterator_Next t
      { bucket_idx := i, bucket_it := some { list := i, node := some c.1 } } =
      some (true, { bucket_idx := i, bucket_it := some { list := i, node := n.next } }) := by
    simp only [HTIterator_Next, hl, LLIterator_Next, hn]
  obtain ⟨t1, hrm, hnum, _, hfind⟩ := HashTable_Remove_present fuel t bs hinv hdist hsymm
    htrans i cs c c.2.hash c.2.key hcs hc rfl (hrefl _) hfuel
  exact ⟨{ bucket_idx := i, bucket_it := some { list := i, node := n.next } }, t1,
    by simp only [HTIterator_Remove, hg, hnx, hrm], rfl, hnum, hfind⟩

theorem lastAddr_snoc : ∀ (cs : List (Nat × α)) (pv : Option Nat) (c : Nat × α),
    lastAddr pv (cs ++ [c]) = some c.1 := by
  intro cs
  induction cs with
  | nil => intro pv c; rfl
  | cons d cs ih => intro pv c; exact ih (some d.1) c

/-- Linking a fresh node behind the last cell of a chain. -/
theorem Chain_snoc {mem : Nat → Option (LinkedListNode α)} (b : Nat) (x : α) (t : Nat)
    (nt : LinkedListNode α) (hnt : mem t = some nt) (hbt : b ≠ t) :
    ∀ (cs : List (Nat × α)) (pv p : Option Nat), Chain mem pv p cs → cs ≠ [] →
      lastAddr pv cs = some t → b ∉ cs.map Prod.fst → (cs.map Prod.fst).Nodup →
      Chain (store (store mem b { payload := x, next := none, prev := some t }) t
        { nt with next := some b }) pv p (cs ++ [(b, x)]) := by
  intro cs
  induction cs with
  | nil => intro pv p _ h; exact absurd rfl h
  | cons c cs ih =>
    intro pv p h _ hl hb hnd
    obtain ⟨hp, n, hn, hpay, hprev, hrest⟩ := h
    cases cs with
    | nil =>
      have hct : c.1 = t := Option.some.inj hl
      simp only [Chain] at hrest
      rw [hct, hnt] at hn
      have hnn : nt = n := Option.some.inj hn
      subst hnn
      refine ⟨hp, { nt with next := some b }, ?_, hpay, hprev, ?_⟩
      · rw [hct]; exact store_same _ _ _
      · refine ⟨rfl, { payload := x, next := none, prev := some t }, ?_, rfl, ?_, rfl⟩
        · dsimp only
          rw [store_other _ _ _ _ hbt, store_same]
        · dsimp only
          rw [hct]
    | cons d cs =>
      have hl1 : lastAddr (some c.1) (d :: cs) = some t := hl
      have htm : t ∈ (d :: cs).map Prod.fst := by
        rcases lastAddr_mem cs (some d.1) t hl1 with h1 | h1
        · simp [Option.some.inj h1]
        · simp only [List.map_cons, List.mem_cons]; exact Or.inr h1
      simp only [List.map_cons, List.nodup_cons] at hnd
      have hct : c.1 ≠ t := by
        intro he; apply hnd.1; rw [he]; simpa using htm
      have hcb : c.1 ≠ b := by
        intro he; apply hb; simp [he]
      refine ⟨hp, n, ?_, hpay, hprev, ?_⟩
      · rw [store_other _ _ _ _ hct, store_other _ _ _ _ hcb]; exact hn
      · refine ih (some c.1) n.next hrest (by simp) hl1 ?_ (by simpa using hnd.2)
        intro hm; apply hb
        simp only [List.map_cons, List.mem_cons] at hm ⊢
        exact Or.inr hm

/-- The function `LinkedList_Push` keeps the chain invariant and puts a fresh cell in front. -/
theorem LinkedList_Push_inv (list : LinkedList α) (cs : List (Nat × α)) (x : α)
    (h : ListInv list cs) :
    ∃ list1, LinkedList_Push list x = some list1 ∧ ListInv list1 ((list.brk, x) :: cs) ∧
      list1.brk = list.brk + 1 := by
  obtain ⟨list1, hpush, hwf1, hbrk⟩ := LinkedList_Push_wf list cs x h.1
  refine ⟨list1, hpush, ⟨hwf1, ?_⟩, hbrk⟩
  rw [LinkedList_Push_tail list list1 x hpush, h.2]
  cases cs with
  | nil => simp [lastAddr]
  | cons c cs =>
    have : lastAddr none (c :: cs) ≠ none := lastAddr_some cs c.1
    rw [if_neg this]
    rfl

/-- The function `LinkedList_Append` keeps the chain invariant and puts a fresh cell at the end. -/
theorem LinkedList_Append_inv (list : LinkedList α) (cs : List (Nat × α)) (x : α)
    (h : ListInv list cs) :
    ∃ list1, LinkedList_Append list x = some list1 ∧
      ListInv list1 (cs ++ [(list.brk, x)]) ∧ list1.brk = list.brk + 1 := by
  obtain ⟨⟨hch, hnd, hbd, hct⟩, htl⟩ := h
  cases cs with
  | nil =>
    simp only [Chain] at hch
    simp only [lastAddr] at htl
    refine ⟨{ num_elements := list.num_elements + 1, head := some list.brk,
              tail := some list.brk,
              mem := store list.mem list.brk { payload := x, next := none, prev := none },
              brk := list.brk + 1 }, ?_, ⟨⟨?_, by simp, ?_, ?_⟩, rfl⟩, rfl⟩
    · simp only [LinkedList_Append, htl, setNextIf, hch, if_true]
    · exact ⟨rfl, _, store_same _ _ _, rfl, rfl, rfl⟩
    · intro c hc; simp at hc; subst hc; simp
    · simp [hct]
  | cons c cs =>
    obtain ⟨t, ht⟩ : ∃ t, lastAddr none (c :: cs) = some t :=
      Option.ne_none_iff_exists'.mp (lastAddr_some cs c.1)
    have htm : t ∈ (c :: cs).map Prod.fst := by
      rcases lastAddr_mem cs (some c.1) t ht with h1 | h1
      · simp [Option.some.inj h1]
      · simp only [List.map_cons, List.mem_cons]; exact Or.inr h1
    obtain ⟨ct, hct1, hct2⟩ := List.mem_map.mp htm
    obtain ⟨nt, hnt, _⟩ := Chain_live hch ct hct1
    rw [hct2] at hnt
    have htb : t < list.brk := by rw [← hct2]; exact hbd ct hct1
    have hbt : list.brk ≠ t := by omega
    have hhead : list.head = some c.1 := hch.1
    have hbn : list.brk ∉ (c :: cs).map Prod.fst := by
      intro hm
      obtain ⟨d, hd, he⟩ := List.mem_map.mp hm
      have := hbd d hd
      omega
    rw [ht] at htl
    have hm1 : store list.mem list.brk { payload := x, next := none, prev := some t } t
        = some nt := by rw [store_other _ _ _ _ (Ne.symm hbt)]; exact hnt
    refine ⟨{ num_elements := list.num_elements + 1, head := list.head,
              tail := some list.brk,
              mem := store (store list.mem list.brk
                { payload := x, next := none, prev := some t }) t
                { nt with next := some list.brk },
              brk := list.brk + 1 }, ?_, ⟨⟨?_, ?_, ?_, ?_⟩, ?_⟩, rfl⟩
    · simp only [LinkedList_Append, htl, setNextIf, setNext, hm1, hhead]
      simp
    · exact Chain_snoc list.brk x t nt hnt hbt (c :: cs) none list.head hch (by simp) ht hbn hnd
    · rw [List.map_append, List.nodup_append]
      refine ⟨hnd, by simp, ?_⟩
      intro a ha hb
      simp only [List.map_cons, List.map_nil, List.mem_singleton] at hb
      rw [hb] at ha
      exact hbn ha
    · intro d hd
      rcases List.mem_append.mp hd with he | he
      · have := hbd d he
        show d.1 < list.brk + 1
        omega
      · simp only [List.mem_singleton] at he
        subst he
        show list.brk < list.brk + 1
        omega
    · show list.num_elements + 1 = (c :: cs ++ [(list.brk, x)]).length
      rw [hct]; simp
    · show some list.brk = lastAddr none (c :: cs ++ [(list.brk, x)])
      rw [lastAddr_snoc]

/-- The function `LinkedList_Pop` on a chain that satisfies the invariant and has a first
cell returns true with the payload of that cell and takes one element off; the
invariant holds afterwards when a cell is left. -/
theorem LinkedList_Pop_inv (list : LinkedList α) (c : Nat × α) (cs : List (Nat × α))
    (h : ListInv list (c :: cs)) :
    ∃ list1, LinkedList_Pop list = some (true, some c.2, list1) ∧
      list1.num_elements + 1 = list.num_elements ∧ list1.tail = list.tail ∧
      ListWF list1 cs ∧ (cs ≠ [] → ListInv list1 cs) := by
  obtain ⟨list1, hpop, hwf1⟩ := LinkedList_Pop_wf list c cs h.1
  have htail := LinkedList_Pop_tail list list1 true (some c.2) hpop
  refine ⟨list1, hpop, ?_, htail, hwf1, ?_⟩
  · rw [hwf1.count, h.1.count]; simp
  · intro hne
    refine ⟨hwf1, ?_⟩
    rw [htail, h.2]
    cases cs with
    | nil => exact absurd rfl hne
    | cons d cs => rfl

/-- The function `LinkedList_Slice` on a chain that satisfies the invariant and has a last
cell returns true with the payload of that cell and takes one element off; the
invariant holds afterwards when a cell is left. -/
theorem LinkedList_Slice_inv (list : LinkedList α) (cs : List (Nat × α)) (c : Nat × α)
    (h : ListInv list (cs ++ [c])) :
    ∃ list1, LinkedList_Slice list = some (true, some c.2, list1) ∧
      list1.num_elements + 1 = list.num_elements ∧ list1.head = list.head ∧
      list1.tail = lastAddr none cs ∧ list1.brk = list.brk ∧
      (cs ≠ [] → ListInv list1 cs) := by
  obtain ⟨⟨hch, hnd, hbd, hct⟩, htl⟩ := h
  rw [lastAddr_snoc] at htl
  obtain ⟨n, hn, hpay, hprev, hrest⟩ := Chain_split c [] cs none list.head hch
  have hnext : n.next = none := hrest
  have hne : list.num_elements ≠ 0 := by rw [hct]; simp
  have hset : ∃ m, setNextIf list.mem n.prev none = some m := by
    cases hp : n.prev with
    | none => exact ⟨_, rfl⟩
    | some t =>
      rw [hp] at hprev
      have htm : t ∈ cs.map Prod.fst := by
        rcases lastAddr_mem cs none t hprev.symm with h1 | h1
        · cases h1
        · exact h1
      obtain ⟨ct, hct1, hct2⟩ := List.mem_map.mp htm
      obtain ⟨nt, hnt, _⟩ := Chain_live hch ct (List.mem_append_left _ hct1)
      rw [hct2] at hnt
      exact ⟨store list.mem t { nt with next := none },
        by simp only [setNextIf, setNext, hnt]⟩
  obtain ⟨m, hm⟩ := hset
  refine ⟨{ list with tail := n.prev, mem := release m c.1,
                      num_elements := list.num_elements - 1 }, ?_, ?_, rfl, hprev, rfl, ?_⟩
  · simp only [LinkedList_Slice, hne, if_false, htl, hn, hm, hpay]
  · show list.num_elements - 1 + 1 = list.num_elements
    omega
  · intro hcs
    have h1 : setNextIf list.mem n.prev n.next = some m := by rw [hnext]; exact hm
    have h2 : setPrevIf m n.next n.prev = some m := by rw [hnext]; rfl
    have hch1 := Chain_unlink c [] n hn h1 h2 cs none list.head hch hnd (by simp)
    have hie : cs.isEmpty = false := by
      cases cs with
      | nil => exact absurd rfl hcs
      | cons d cs => rfl
    rw [hie] at hch1
    simp only [List.append_nil, Bool.false_eq_true, if_false] at hch1
    refine ⟨⟨hch1, ?_, ?_, ?_⟩, hprev⟩
    · rw [List.map_append, List.nodup_append] at hnd
      exact hnd.1
    · intro d hd
      exact hbd d (List.mem_append_left _ hd)
    · show list.num_elements - 1 = cs.length
      rw [hct]; simp

/-- The functions `LinkedList_Pop` and `LinkedList_Slice` return false only on a count of
zero, and then leave the chain and the return parameter as they are. -/
theorem LinkedList_Pop_Slice_false (list list1 : LinkedList α) (out : Option α) :
    (list.num_elements = 0 →
      LinkedList_Pop list = some (false, none, list) ∧
      LinkedList_Slice list = some (false, none, list)) ∧
    (LinkedList_Pop list = some (false, out, list1) →
      list.num_elements = 0 ∧ out = none ∧ list1 = list) ∧
    (LinkedList_Slice list = some (false, out, list1) →
      list.num_elements = 0 ∧ out = none ∧ list1 = list) := by
  refine ⟨?_, ?_, ?_⟩
  · intro h0
    simp [LinkedList_Pop, LinkedList_Slice, h0]
  · intro h
    unfold LinkedList_Pop at h
    split at h
    · rename_i h0
      simp only [Option.some.injEq, Prod.mk.injEq, true_and] at h
      exact ⟨h0, h.1.symm, h.2.symm⟩
    · split at h
      · simp at h
      · split at h
        · simp at h
        · split at h
          · simp at h
          · simp at h
  · intro h
    unfold LinkedList_Slice at h
    split at h
    · rename_i h0
      simp only [Option.some.injEq, Prod.mk.injEq, true_and] at h
      exact ⟨h0, h.1.symm, h.2.symm⟩
    · split at h
      · simp at h
      · split at h
        · simp at h
        · split at h
          · simp at h
          · simp at h

/-- Cells outside a forward chain do not matter to it. -/
theorem Fwd_frame {mem mem1 : Nat → Option (LinkedListNode α)} :
    ∀ {cs : List (Nat × α)} {p : Option Nat}, Fwd mem p cs →
      (∀ c ∈ cs, mem1 c.1 = mem c.1) → Fwd mem1 p cs := by
  intro cs
  induction cs with
  | nil => intro p h _; exact h
  | cons c cs ih =>
    intro p h hm
    obtain ⟨hp, n, hn, hpay, hrest⟩ := h
    refine ⟨hp, n, ?_, hpay, ih hrest ?_⟩
    · rw [hm c (List.mem_cons_self _ _)]; exact hn
    · intro d hd; exact hm d (List.mem_cons_of_mem _ hd)

/-- The loop of `LinkedList_Delete` on a chain of distinct cells that ends in `nullptr`
hands each payload to the disposer once, head first. -/
theorem LinkedList_Delete_loop_fwd :
    ∀ (cs : List (Nat × α)) (fuel : Nat) (mem : Nat → Option (LinkedListNode α))
      (p : Option Nat), Fwd mem p cs → (cs.map Prod.fst).Nodup → cs.length ≤ fuel →
      LinkedList_Delete_loop fuel mem p = some (cs.map Prod.snd) := by
  intro cs
  induction cs with
  | nil =>
    intro fuel mem p h _ _
    have hp : p = none := h
    subst hp
    cases fuel <;> rfl
  | cons c cs ih =>
    intro fuel mem p h hnd hf
    obtain ⟨hp, n, hn, hpay, hrest⟩ := h
    cases fuel with
    | zero => simp at hf
    | succ fuel =>
      simp only [List.map_cons, List.nodup_cons] at hnd
      have hrest1 : Fwd (release mem c.1) n.next cs := by
        apply Fwd_frame hrest
        intro d hd
        apply release_other
        intro he
        apply hnd.1
        exact List.mem_map.mpr ⟨d, hd, he⟩
      have := ih fuel (release mem c.1) n.next hrest1 hnd.2 (by simpa using hf)
      subst hp
      simp only [LinkedList_Delete_loop, hn, this, hpay, List.map_cons]

/-- The function `LinkedList_Delete` on a well-formed chain hands each payload to the
disposer once, head first: as many calls as `num_elements`. -/
theorem LinkedList_Delete_wf (fuel : Nat) (list : LinkedList α) (cs : List (Nat × α))
    (h : ListWF list cs) (hf : list.num_elements ≤ fuel) :
    LinkedList_Delete fuel list = some (cs.map Prod.snd) ∧
    (cs.map Prod.snd).length = LinkedList_NumElements list := by
  refine ⟨LinkedList_Delete_loop_fwd cs fuel list.mem list.head (Chain_fwd h.chain) h.nodup
    (by rw [← h.count]; exact hf), ?_⟩
  simp [LinkedList_NumElements, h.count]

/-- Appending payloads to a chain that satisfies the invariant puts one fresh cell
per payload at the end, in order. -/
theorem appendAll_inv : ∀ (as : List α) (list : LinkedList α) (cs : List (Nat × α)),
    ListInv list cs →
    ∃ list1 ds, appendAll list as = some list1 ∧ ListInv list1 (cs ++ ds) ∧
      ds.map Prod.snd = as := by
  intro as
  induction as with
  | nil =>
    intro list cs h
    exact ⟨list, [], rfl, by simpa using h, rfl⟩
  | cons a as ih =>
    intro list cs h
    obtain ⟨l1, happ, hinv1, _⟩ := LinkedList_Append_inv list cs a h
    obtain ⟨l2, ds, hall, hinv2, hds⟩ := ih l1 (cs ++ [(list.brk, a)]) hinv1
    refine ⟨l2, (list.brk, a) :: ds, ?_, ?_, ?_⟩
    · simp only [appendAll, happ, hall]
    · simpa using hinv2
    · simp [hds]

/-- Walking a forward chain with `LLIterator_Get` and `LLIterator_Next` yields the
payloads of its cells in order and ends past the end. -/
theorem LLIterator_walk_fwd (list : LinkedList α) (h : Nat) :
    ∀ (cs : List (Nat × α)) (p : Option Nat), Fwd list.mem p cs →
      LLIterator_walk list cs.length { list := h, node := p } =
        some (cs.map Prod.snd, { list := h, node := none }) := by
  intro cs
  induction cs with
  | nil =>
    intro p hf
    have hp : p = none := hf
    subst hp
    rfl
  | cons c cs ih =>
    intro p hf
    obtain ⟨hp, n, hn, hpay, hrest⟩ := hf
    subst hp
    have := ih n.next hrest
    simp only [List.length_cons, LLIterator_walk, LLIterator_Get, LLIterator_Next, hn, this,
      hpay, List.map_cons]

/-- The search loop of `HTIterator_New` finds the first bucket with elements. -/
theorem HTIterator_New_scan_first (buckets : List (LinkedList α)) :
    ∀ (k i : Nat), i + k = buckets.length →
      (∃ j l, i ≤ j ∧ buckets[j]? = some l ∧ 0 < LinkedList_NumElements l) →
      ∃ j l, HTIterator_New_scan buckets k i = some (some j) ∧ buckets[j]? = some l ∧
        0 < LinkedList_NumElements l ∧
        ∀ j1 l1, i ≤ j1 → j1 < j → buckets[j1]? = some l1 →
          LinkedList_NumElements l1 = 0 := by
  intro k
  induction k with
  | zero =>
    intro i hi ⟨j, l, hij, hl, _⟩
    have : j < buckets.length := by
      rw [List.getElem?_eq_some_iff] at hl; exact hl.1
    omega
  | succ k ih =>
    intro i hi ⟨j, l, hij, hl, hpos⟩
    have hib : i < buckets.length := by omega
    have hbi : buckets[i]? = some buckets[i] := List.getElem?_eq_getElem hib
    by_cases h0 : LinkedList_NumElements buckets[i] > 0
    · refine ⟨i, buckets[i], ?_, hbi, h0, ?_⟩
      · simp only [HTIterator_New_scan, hbi, h0, if_true]
      · intro j1 l1 h1 h2; omega
    · have hne : j ≠ i := by
        intro he; subst he
        rw [hbi] at hl
        have := Option.some.inj hl
        subst this
        exact h0 hpos
      obtain ⟨j2, l2, hscan, hl2, hpos2, hmin⟩ :=
        ih (i + 1) (by omega) ⟨j, l, by omega, hl, hpos⟩
      refine ⟨j2, l2, ?_, hl2, hpos2, ?_⟩
      · simp only [HTIterator_New_scan, hbi, h0, if_false, hscan]
      · intro j1 l1 h1 h2 hl1
        by_cases he : j1 = i
        · subst he
          rw [hbi] at hl1
          have := Option.some.inj hl1
          subst this
          omega
        · exact hmin j1 l1 (by omega) h2 hl1

/-- A list of numbers with a positive sum has a positive entry. -/
theorem exists_pos_of_sum_pos : ∀ (ns : List Nat), 0 < ns.sum →
    ∃ (j : Nat) (n : Nat), ns[j]? = some n ∧ 0 < n := by
  intro ns
  induction ns with
  | nil => intro h; simp at h
  | cons n ns ih =>
    intro h
    by_cases hn : 0 < n
    · exact ⟨0, n, by simp, hn⟩
    · have : 0 < ns.sum := by simp only [List.sum_cons] at h; omega
      obtain ⟨j, m, hj, hm⟩ := ih this
      exact ⟨j + 1, m, by simpa using hj, hm⟩

/-- On a table that satisfies the invariant and has elements, `HTIterator_New`
returns the iterator on the head of the first bucket with elements. -/
theorem HTIterator_New_first (t : HashTable K V) (bs : List (List (Nat × HTKeyValue_t K V)))
    (hinv : TableInv t bs) (hne : 0 < t.num_elements) :
    ∃ i l, HTIterator_New t =
        some { bucket_idx := i, bucket_it := some { list := i, node := l.head } } ∧
      t.buckets[i]? = some l ∧ 0 < LinkedList_NumElements l ∧
      ∀ j l1, j < i → t.buckets[j]? = some l1 → LinkedList_NumElements l1 = 0 := by
  have hsum : 0 < (t.buckets.map LinkedList_NumElements).sum := by
    rw [map_NumElements_of_wf hinv.wf, ← hinv.count]; exact hne
  obtain ⟨j, n, hj, hn⟩ := exists_pos_of_sum_pos _ hsum
  rw [List.getElem?_map] at hj
  obtain ⟨l, hl, hln⟩ := Option.map_eq_some'.mp hj
  obtain ⟨i, li, hscan, hli, hpos, hmin⟩ :=
    HTIterator_New_scan_first t.buckets t.num_buckets 0 (by rw [hinv.len]; simp)
      ⟨j, l, by omega, hl, by rw [hln]; exact hn⟩
  refine ⟨i, li, ?_, hli, hpos, fun j1 l1 h1 h2 => hmin j1 l1 (by omega) h1 h2⟩
  have h1 : ¬ (t.num_elements = 0 ∨ t.num_buckets = 0) := by
    have := hinv.pos
    omega
  simp only [HTIterator_New, h1, if_false, hscan, Option.getD_some, hli, LLIterator_New]

theorem chainPush_eq : LinkedList_Push (LinkedList_New : LinkedList Nat) 1 = some chainPush := rfl

theorem chainPushPop_eq : LinkedList_Pop chainPush = some (true, some 1, chainPushPop) := rfl

theorem chainPushPopPush_eq : LinkedList_Push chainPushPop 2 = some chainPushPopPush := rfl

theorem chainAppend_eq :
    LinkedList_Append (LinkedList_New : LinkedList Nat) 1 = some chainAppend := rfl

theorem chainAppendSlice_eq :
    LinkedList_Slice chainAppend = some (true, some 1, chainAppendSlice) := rfl

theorem chainAppendSliceAppend_eq :
    LinkedList_Append chainAppendSlice 2 = some chainAppendSliceAppend := rfl

theorem chainOf3_eq : appendAll (LinkedList_New : LinkedList Nat) [1, 2, 3] = some chainOf3 := rfl

theorem chainPushPop_reachable : ReachableList chainPushPop :=
  ReachableList.pop _ _ _ _ (ReachableList.push _ _ _ ReachableList.new chainPush_eq)
    chainPushPop_eq

theorem chainAppendSlice_reachable : ReachableList chainAppendSlice :=
  ReachableList.slice _ _ _ _ (ReachableList.append _ _ _ ReachableList.new chainAppend_eq)
    chainAppendSlice_eq

theorem LinkedList_New_inv : ListInv (LinkedList_New : LinkedList α) [] :=
  ⟨LinkedList_New_wf, rfl⟩

/-- On a chain that satisfies the invariant and has a cell, `LinkedList_Append`
followed by `LinkedList_Slice` returns the appended payload and restores head,
tail, count and cells. -/
theorem LinkedList_Append_Slice_nonempty (list : LinkedList α) (c : Nat × α)
    (cs : List (Nat × α)) (p : α) (h : ListInv list (c :: cs)) :
    ∃ list1 list2, LinkedList_Append list p = some list1 ∧
      LinkedList_Slice list1 = some (true, some p, list2) ∧
      list2.head = list.head ∧ list2.tail = list.tail ∧
      list2.num_elements = list.num_elements ∧ ListInv list2 (c :: cs) := by
  obtain ⟨list1, happ, hinv1, _⟩ := LinkedList_Append_inv list (c :: cs) p h
  obtain ⟨list2, hsl, hnum, hhead, htail, _, hinv2⟩ :=
    LinkedList_Slice_inv list1 (c :: cs) (list.brk, p) hinv1
  have hinv2 := hinv2 (by simp)
  refine ⟨list1, list2, happ, hsl, ?_, ?_, ?_, hinv2⟩
  · rw [hinv2.1.chain.1, h.1.chain.1]
  · rw [htail, h.2]
  · rw [hinv2.1.count, h.1.count]

/-- C21 fails on an empty chain: `LinkedList_Append` of a payload `p` on a chain with
zero elements and null head and tail, followed by `LinkedList_Slice`, returns true
with `p` and leaves `num_elements = 0` and `tail = nullptr`, but `head` still holds
the address of the node that was deleted, so emptiness is not restored. -/
theorem C21_append_slice_on_empty_leaves_head_dangling (list : LinkedList α) (p : α)
    (hcount : list.num_elements = 0) (hhead : list.head = none)
    (htail : list.tail = none) :
    ∃ list1 list2, LinkedList_Append list p = some list1 ∧
      LinkedList_Slice list1 = some (true, some p, list2) ∧
      list2.num_elements = 0 ∧ list2.tail = none ∧
      list2.head = some list.brk ∧ list2.mem list.brk = none := by
  refine ⟨{ num_elements := list.num_elements + 1, head := some list.brk,
            tail := some list.brk,
            mem := store list.mem list.brk { payload := p, next := none, prev := none },
            brk := list.brk + 1 },
          { num_elements := 0, head := some list.brk, tail := none,
            mem := release
              (store list.mem list.brk { payload := p, next := none, prev := none }) list.brk,
            brk := list.brk + 1 }, ?_, ?_, rfl, rfl, rfl, ?_⟩
  · simp only [LinkedList_Append, htail, setNextIf, hhead, if_true]
  · simp only [LinkedList_Slice, hcount, store_same, setNextIf]
    simp
  · simp [release]

/-- An instance of C21: the new chain and the payload 7. -/
theorem C21_append_slice_on_empty_leaves_head_dangling_witness :
    (LinkedList_New : LinkedList Nat).num_elements = 0 ∧
    (LinkedList_New : LinkedList Nat).head = none ∧
    (LinkedList_New : LinkedList Nat).tail = none ∧
    ∃ list1 list2, LinkedList_Append (LinkedList_New : LinkedList Nat) 7 = some list1 ∧
      LinkedList_Slice list1 = some (true, some 7, list2) ∧
      list2.num_elements = 0 ∧ list2.tail = none ∧
      list2.head = some (LinkedList_New : LinkedList Nat).brk ∧
      list2.mem (LinkedList_New : LinkedList Nat).brk = none :=
  ⟨rfl, rfl, rfl,
    C21_append_slice_on_empty_leaves_head_dangling (LinkedList_New : LinkedList Nat) 7
      rfl rfl rfl⟩

/-- C22 fails on chains that an emptying `LinkedList_Pop` or `LinkedList_Slice` has left:
after Push(1), Pop, Push(2) the chain has one element and `tail` still points to
the deleted first node, and `LinkedList_Slice` reads that node; after Append(1),
Slice, Append(2) the chain has one element and `head` still points to the deleted
first node, and `LinkedList_Pop` reads that node.  Neither call has a result. -/
theorem C22_pop_and_slice_read_a_deleted_node :
    LinkedList_Push (LinkedList_New : LinkedList Nat) 1 = some chainPush ∧
    LinkedList_Pop chainPush = some (true, some 1, chainPushPop) ∧
    LinkedList_Push chainPushPop 2 = some chainPushPopPush ∧
    LinkedList_NumElements chainPushPopPush = 1 ∧
    chainPushPopPush.tail = some 0 ∧ chainPushPopPush.mem 0 = none ∧
    LinkedList_Slice chainPushPopPush = none ∧
    LinkedList_Append (LinkedList_New : LinkedList Nat) 1 = some chainAppend ∧
    LinkedList_Slice chainAppend = some (true, some 1, chainAppendSlice) ∧
    LinkedList_Append chainAppendSlice 2 = some chainAppendSliceAppend ∧
    LinkedList_NumElements chainAppendSliceAppend = 1 ∧
    chainAppendSliceAppend.head = some 0 ∧ chainAppendSliceAppend.mem 0 = none ∧
    LinkedList_Pop chainAppendSliceAppend = none :=
  ⟨rfl, rfl, rfl, rfl, rfl, rfl, rfl, rfl, rfl, rfl, rfl, rfl, rfl, rfl⟩

/-- C23 fails: a chain reached by Push and Pop has `num_elements = 0` with a `tail` that
is not `nullptr`, and a chain reached by Append and Slice has `num_elements = 0`
with a `head` that is not `nullptr`. -/
theorem C23_count_zero_with_tail_or_head_set :
    (∃ list : LinkedList Nat, ReachableList list ∧ list.num_elements = 0 ∧
      list.head = none ∧ list.tail = some 0) ∧
    (∃ list : LinkedList Nat, ReachableList list ∧ list.num_elements = 0 ∧
      list.head = some 0 ∧ list.tail = none) :=
  ⟨⟨chainPushPop, chainPushPop_reachable, rfl, rfl, rfl⟩,
   ⟨chainAppendSlice, chainAppendSlice_reachable, rfl, rfl, rfl⟩⟩

/-- C24 fails on its own example: Push, Pop, Push on a new chain leaves one element
with `head` on the new node and `tail` on the node that was deleted, so `head` and
`tail` differ and `tail` points to no node at all. -/
theorem C24_push_pop_push_head_is_not_tail :
    ReachableList chainPushPopPush ∧
    chainPushPopPush.num_elements = 1 ∧
    chainPushPopPush.head = some 1 ∧ chainPushPopPush.tail = some 0 ∧
    chainPushPopPush.head ≠ chainPushPopPush.tail ∧
    chainPushPopPush.mem 0 = none ∧
    chainPushPopPush.mem 1 = some { payload := 2, next := none, prev := none } :=
  ⟨ReachableList.push _ _ _ chainPushPop_reachable chainPushPopPush_eq,
    rfl, rfl, rfl, by decide, rfl, rfl⟩

/-- C25: for every list of payloads appended in order to a new chain, the appends
return, `LLIterator_New` gives an iterator on the head (the node of the first
payload, without predecessor) that is valid exactly when the list is not empty,
alternating `LLIterator_Get` with `LLIterator_Next` yields the payloads in order,
and `LLIterator_Rewind` then puts the iterator back on the head. -/
theorem C25_iterator_yields_appended_payloads (as : List α) (h : Nat) :
    ∃ list, appendAll LinkedList_New as = some list ∧
      LinkedList_NumElements list = as.length ∧
      (LLIterator_New h list).node = list.head ∧
      (∀ a rest, as = a :: rest → ∃ addr n, list.head = some addr ∧
        list.mem addr = some n ∧ n.payload = a ∧ n.prev = none) ∧
      (LLIterator_IsValid (LLIterator_New h list) = true ↔ 0 < as.length) ∧
      ∃ it, LLIterator_walk list as.length (LLIterator_New h list) = some (as, it) ∧
        LLIterator_IsValid it = false ∧
        LLIterator_Rewind list it = LLIterator_New h list := by
  obtain ⟨list, ds, hall, hinv, hds⟩ := appendAll_inv as LinkedList_New [] LinkedList_New_inv
  rw [List.nil_append] at hinv
  have hlen : ds.length = as.length := by rw [← hds]; simp
  have hwalk := LLIterator_walk_fwd list h ds list.head (Chain_fwd hinv.1.chain)
  rw [hds, hlen] at hwalk
  refine ⟨list, hall, ?_, rfl, ?_, ?_, { list := h, node := none }, hwalk, rfl, rfl⟩
  · rw [← hlen]; exact hinv.1.count
  · intro a rest hare
    cases ds with
    | nil => rw [hare] at hds; simp at hds
    | cons d ds =>
      obtain ⟨hhead, n, hn, hpay, hprev, _⟩ := hinv.1.chain
      rw [hare] at hds
      simp only [List.map_cons, List.cons.injEq] at hds
      exact ⟨d.1, n, hhead, hn, by rw [hpay]; exact hds.1, hprev⟩
  · cases ds with
    | nil =>
      have hh : list.head = none := hinv.1.chain
      simp only [List.map_nil] at hds
      subst hds
      simp [LLIterator_IsValid, LLIterator_New, hh]
    | cons d ds =>
      have hh : list.head = some d.1 := hinv.1.chain.1
      rw [← hlen]
      simp [LLIterator_IsValid, LLIterator_New, hh]

/-- C26 fails on the last node: for every iterator on a live node without successor,
`LLIterator_Next` returns true although the iterator is past the end afterwards,
so its result differs from `LLIterator_IsValid` after the call. -/
theorem C26_next_on_last_node_returns_true (list : LinkedList α) (iter : LLIterator)
    (a : Nat) (node : LinkedListNode α) (hiter : iter.node = some a)
    (hnode : list.mem a = some node) (hlast : node.next = none) :
    LLIterator_IsValid iter = true ∧
    ∃ iter1, LLIterator_Next list iter = some (true, iter1) ∧
      LLIterator_IsValid iter1 = false := by
  refine ⟨by simp [LLIterator_IsValid, hiter], { iter with node := node.next }, ?_, ?_⟩
  · simp only [LLIterator_Next, hiter, hnode]
  · simp [LLIterator_IsValid, hlast]

/-- An instance of C26: the iterator on the only node of the chain after
`LinkedList_Append(1)` on a new chain. -/
theorem C26_next_on_last_node_returns_true_witness :
    (LLIterator_New 0 chainAppend).node = some 0 ∧
    chainAppend.mem 0 = some { payload := 1, next := none, prev := none } ∧
    (LLIterator_IsValid (LLIterator_New 0 chainAppend) = true ∧
      ∃ iter1, LLIterator_Next chainAppend (LLIterator_New 0 chainAppend) = some (true, iter1) ∧
        LLIterator_IsValid iter1 = false) :=
  ⟨rfl, rfl,
    C26_next_on_last_node_returns_true chainAppend (LLIterator_New 0 chainAppend) 0
      { payload := 1, next := none, prev := none } rfl rfl rfl⟩

/-- C27 fails on the iterator: on a chain with one element and an iterator on a live
node, `LLIterator_Remove` returns false, hands the payload of the node to the
disposer once and leaves the chain with zero elements and null head and tail, but
it deletes the iterator object itself instead of leaving it with a null node. -/
theorem C27_remove_of_only_element_deletes_iterator (list : LinkedList α)
    (iter : LLIterator) (a : Nat) (node : LinkedListNode α)
    (hcount : list.num_elements = 1) (hiter : iter.node = some a)
    (hnode : list.mem a = some node) :
    ∃ list1, LLIterator_Remove list iter = some (false, [node.payload], none, list1) ∧
      list1.num_elements = 0 ∧ list1.head = none ∧ list1.tail = none ∧
      list1.mem a = none := by
  refine ⟨{ list with head := none, tail := none, num_elements := 0,
                      mem := release list.mem a }, ?_, rfl, rfl, rfl, ?_⟩
  · simp only [LLIterator_Remove, hcount, le_refl, if_true, hiter, hnode]
  · simp [release]

/-- An instance of C27: the iterator on the only node of the chain after
`LinkedList_Append(1)` on a new chain. -/
theorem C27_remove_of_only_element_deletes_iterator_witness :
    chainAppend.num_elements = 1 ∧ (LLIterator_New 0 chainAppend).node = some 0 ∧
    chainAppend.mem 0 = some { payload := 1, next := none, prev := none } ∧
    ∃ list1, LLIterator_Remove chainAppend (LLIterator_New 0 chainAppend) =
        some (false, [1], none, list1) ∧
      list1.num_elements = 0 ∧ list1.head = none ∧ list1.tail = none ∧
      list1.mem 0 = none :=
  ⟨rfl, rfl, rfl,
    C27_remove_of_only_element_deletes_iterator chainAppend (LLIterator_New 0 chainAppend) 0
      { payload := 1, next := none, prev := none } rfl rfl rfl⟩

/-- On a chain that satisfies the invariant and has at least two cells,
`LLIterator_Remove` on the head returns true, hands the head payload to the
disposer, and leaves the iterator on the new head of the chain of the other cells. -/
theorem LLIterator_Remove_at_head (list : LinkedList α) (c d : Nat × α)
    (cs : List (Nat × α)) (h : Nat) (hinv : ListInv list (c :: d :: cs)) :
    ∃ list1, LLIterator_Remove list { list := h, node := some c.1 } =
        some (true, [c.2], some { list := h, node := some d.1 }, list1) ∧
      list1.num_elements + 1 = list.num_elements ∧ list1.head = some d.1 ∧
      ListInv list1 (d :: cs) := by
  obtain ⟨list1, hpop, hnum, _, hwf1, hinv1⟩ := LinkedList_Pop_inv list c (d :: cs) hinv
  refine ⟨list1, ?_, hnum, hwf1.chain.1, hinv1 (by simp)⟩
  obtain ⟨hch, _, _, hct⟩ := hinv.1
  obtain ⟨hhead, n, hn, hpay, hprev, hrest⟩ := hch
  obtain ⟨hnx, nd, hnd1, _, _, _⟩ := hrest
  have hgt : ¬ list.num_elements ≤ 1 := by rw [hct]; simp
  have hne : list.num_elements ≠ 0 := by rw [hct]; simp
  simp only [LinkedList_Pop, hne, if_false, hhead, hn, hnx, setPrevIf, setPrev, hnd1, hpay,
    Option.some.injEq, Prod.mk.injEq, true_and] at hpop
  simp only [LLIterator_Remove, hgt, if_false, hn, hprev, hnx, setPrev, hnd1, hpay, ← hpop]

/-- On a chain that satisfies the invariant and has at least two cells,
`LLIterator_Remove` on the last cell returns true, hands its payload to the
disposer, and leaves the iterator on the cell before it, which is the new tail. -/
theorem LLIterator_Remove_at_tail (list : LinkedList α) (cs : List (Nat × α))
    (d c : Nat × α) (h : Nat) (hinv : ListInv list (cs ++ [d, c])) :
    ∃ list1, LLIterator_Remove list { list := h, node := some c.1 } =
        some (true, [c.2], some { list := h, node := some d.1 }, list1) ∧
      list1.num_elements + 1 = list.num_elements ∧ list1.tail = some d.1 ∧
      ListInv list1 (cs ++ [d]) := by
  have hinv0 : ListInv list ((cs ++ [d]) ++ [c]) := by simpa using hinv
  obtain ⟨list1, hsl, hnum, _, htail, _, hinv1⟩ := LinkedList_Slice_inv list (cs ++ [d]) c hinv0
  rw [lastAddr_snoc] at htail
  refine ⟨list1, ?_, hnum, htail, hinv1 (by simp)⟩
  obtain ⟨⟨hch, _, _, hct⟩, htl⟩ := hinv0
  rw [lastAddr_snoc] at htl
  obtain ⟨n, hn, hpay, hprev, hrest⟩ := Chain_split c [] (cs ++ [d]) none list.head hch
  rw [lastAddr_snoc] at hprev
  have hnext : n.next = none := hrest
  obtain ⟨nd, hnd1, _⟩ := Chain_live hch d (by simp)
  have hgt : ¬ list.num_elements ≤ 1 := by rw [hct]; simp
  have hne : list.num_elements ≠ 0 := by rw [hct]; simp
  simp only [LinkedList_Slice, hne, if_false, htl, hn, hprev, setNextIf, setNext, hnd1, hpay,
    Option.some.injEq, Prod.mk.injEq, true_and] at hsl
  simp only [LLIterator_Remove, hgt, if_false, hn, hprev, hnext, setNext, hnd1, hpay, ← hsl]

/-- C28 fails in the middle of a chain: with at least two elements and an iterator on
a live node that has a predecessor and a successor, `LLIterator_Remove` has no
result, because it reads `iter->node->next` after it has deleted `iter->node`. -/
theorem C28_remove_from_middle_reads_deleted_node (list : LinkedList α) (iter : LLIterator)
    (a p nx : Nat) (node : LinkedListNode α) (hcount : 2 ≤ list.num_elements)
    (hiter : iter.node = some a) (hnode : list.mem a = some node)
    (hprev : node.prev = some p) (hnext : node.next = some nx) :
    LLIterator_Remove list iter = none := by
  have hgt : ¬ list.num_elements ≤ 1 := by omega
  simp only [LLIterator_Remove, hgt, if_false, hiter, hnode, hprev, hnext]
  cases h1 : setNext list.mem p (some nx) with
  | none => rfl
  | some m1 =>
    dsimp only
    cases h2 : setPrev m1 nx (some p) with
    | none => rfl
    | some m2 =>
      have h3 : release m2 a a = none := by simp [release]
      simp only [h3]

/-- An instance of C28: the chain 1, 2, 3 with the iterator on the node of 2, where
one `LLIterator_Next` after `LLIterator_New` puts it. -/
theorem C28_remove_from_middle_reads_deleted_node_witness :
    appendAll (LinkedList_New : LinkedList Nat) [1, 2, 3] = some chainOf3 ∧
    2 ≤ chainOf3.num_elements ∧
    chainOf3.mem 1 = some { payload := 2, next := some 2, prev := some 0 } ∧
    LLIterator_Next chainOf3 (LLIterator_New 0 chainOf3) =
      some (true, { list := 0, node := some 1 }) ∧
    LLIterator_Remove chainOf3 { list := 0, node := some 1 } = none :=
  ⟨rfl, by decide, rfl, rfl,
    C28_remove_from_middle_reads_deleted_node chainOf3 { list := 0, node := some 1 } 1 0 2
      { payload := 2, next := some 2, prev := some 0 } (by decide) rfl rfl rfl rfl⟩

/-- The removals of the claim at the two ends of the chain 1, 2, 3: on the head the
iterator moves to the node of 2, the new head; on the tail it moves to the node
of 2, the new tail; each call returns true with one disposer call and leaves two
elements. -/
theorem LLIterator_Remove_at_the_ends_of_three :
    (LLIterator_Remove chainOf3 { list := 0, node := some 0 }).map
      (fun r => (r.1, r.2.1, r.2.2.1, r.2.2.2.num_elements, r.2.2.2.head, r.2.2.2.tail)) =
      some (true, [1], some { list := 0, node := some 1 }, 2, some 1, some 2) ∧
    (LLIterator_Remove chainOf3 { list := 0, node := some 2 }).map
      (fun r => (r.1, r.2.1, r.2.2.1, r.2.2.2.num_elements, r.2.2.2.head, r.2.2.2.tail)) =
      some (true, [3], some { list := 0, node := some 1 }, 2, some 0, some 1) :=
  ⟨rfl, rfl⟩

/-- C29 fails on the empty chain that Append and Slice leave: its `head` still points
to the deleted node, so the loop of `LinkedList_Delete` reads that node and hands
its payload to the disposer instead of making zero calls; no fuel gives a result. -/
theorem C29_delete_after_append_slice_reads_deleted_node :
    LinkedList_Append (LinkedList_New : LinkedList Nat) 1 = some chainAppend ∧
    LinkedList_Slice chainAppend = some (true, some 1, chainAppendSlice) ∧
    LinkedList_NumElements chainAppendSlice = 0 ∧
    chainAppendSlice.head = some 0 ∧ chainAppendSlice.mem 0 = none ∧
    ∀ fuel, LinkedList_Delete fuel chainAppendSlice = none := by
  refine ⟨rfl, rfl, rfl, rfl, rfl, ?_⟩
  intro fuel
  cases fuel <;> rfl

/-- C30 fails on every table with elements: on a table that satisfies the invariant,
`HTIterator_New` does start on the head of the first bucket that has elements, but
the traversal from there never produces a sequence of entries, whatever the fuel. -/
theorem C30_traversal_from_first_bucket_has_no_result (t : HashTable K V)
    (bs : List (List (Nat × HTKeyValue_t K V))) (hinv : TableInv t bs)
    (hne : 0 < t.num_elements) :
    ∃ i l, HTIterator_New t =
        some { bucket_idx := i, bucket_it := some { list := i, node := l.head } } ∧
      t.buckets[i]? = some l ∧ 0 < LinkedList_NumElements l ∧
      (∀ j l1, j < i → t.buckets[j]? = some l1 → LinkedList_NumElements l1 = 0) ∧
      ∀ fuel, HTIterator_traverse t fuel
        { bucket_idx := i, bucket_it := some { list := i, node := l.head } } = none := by
  obtain ⟨i, l, hnew, hl, hpos, hmin⟩ := HTIterator_New_first t bs hinv hne
  exact ⟨i, l, hnew, hl, hpos, hmin, fun fuel => HTIterator_traverse_valid t fuel _ rfl⟩

/-- An instance of C30: two buckets that hold the entries for 0 to 5. -/
theorem C30_traversal_from_first_bucket_has_no_result_witness :
    0 < tableFull2.num_elements ∧
    ∃ i l, HTIterator_New tableFull2 =
        some { bucket_idx := i, bucket_it := some { list := i, node := l.head } } ∧
      tableFull2.buckets[i]? = some l ∧ 0 < LinkedList_NumElements l ∧
      (∀ j l1, j < i → tableFull2.buckets[j]? = some l1 → LinkedList_NumElements l1 = 0) ∧
      ∀ fuel, HTIterator_traverse tableFull2 fuel
        { bucket_idx := i, bucket_it := some { list := i, node := l.head } } = none :=
  ⟨by decide,
    (ReachableIt_inv (by decide) tableFull2_reachableIt).2.2.elim
      (fun bs hinv => C30_traversal_from_first_bucket_has_no_result tableFull2 bs hinv
        (by decide))⟩

/-- The function `LinkedList_Pop` on a chain of one cell that satisfies the invariant
returns the payload and leaves zero elements and a null head, but `tail` keeps
the address of the deleted node. -/
theorem LinkedList_Pop_last_keeps_tail (list : LinkedList α) (c : Nat × α)
    (h : ListInv list [c]) :
    ∃ list1, LinkedList_Pop list = some (true, some c.2, list1) ∧
      list1.num_elements = 0 ∧ list1.head = none ∧ list1.tail = some c.1 ∧
      list1.mem c.1 = none := by
  obtain ⟨⟨hch, _, _, hct⟩, htl⟩ := h
  obtain ⟨hhead, n, hn, hpay, _, hrest⟩ := hch
  have hnext : n.next = none := hrest
  have hne : list.num_elements ≠ 0 := by rw [hct]; simp
  refine ⟨{ list with head := n.next, mem := release list.mem c.1,
                      num_elements := list.num_elements - 1 }, ?_, ?_, hnext, htl, ?_⟩
  · simp only [LinkedList_Pop, hne, if_false, hhead, hn, hnext, setPrevIf, hpay]
  · show list.num_elements - 1 = 0
    rw [hct]; rfl
  · simp [release]

/-- The function `LinkedList_Slice` on a chain of one cell that satisfies the invariant
returns the payload and leaves zero elements and a null tail, but `head` keeps
the address of the deleted node, and `LinkedList_Delete` on the chain that is left
has no result. -/
theorem LinkedList_Slice_last_keeps_head (list : LinkedList α) (c : Nat × α)
    (h : ListInv list [c]) :
    ∃ list1, LinkedList_Slice list = some (true, some c.2, list1) ∧
      list1.num_elements = 0 ∧ list1.tail = none ∧ list1.head = some c.1 ∧
      list1.mem c.1 = none ∧ ∀ fuel, LinkedList_Delete fuel list1 = none := by
  obtain ⟨⟨hch, _, _, hct⟩, htl⟩ := h
  obtain ⟨hhead, n, hn, hpay, hprev, _⟩ := hch
  have htl1 : list.tail = some c.1 := htl
  have hne : list.num_elements ≠ 0 := by rw [hct]; simp
  have hrel : release list.mem c.1 c.1 = none := by simp [release]
  refine ⟨{ list with tail := n.prev, mem := release list.mem c.1,
                      num_elements := list.num_elements - 1 }, ?_, ?_, hprev, hhead, hrel, ?_⟩
  · simp only [LinkedList_Slice, hne, if_false, htl1, hn, hprev, setNextIf, hpay]
  · show list.num_elements - 1 = 0
    rw [hct]; rfl
  · intro fuel
    cases fuel with
    | zero => simp only [LinkedList_Delete, hhead, LinkedList_Delete_loop]
    | succ fuel => simp only [LinkedList_Delete, hhead, LinkedList_Delete_loop, hrel]

/-- The navigation of the iterator test (test_linkedlist.cpp 186-208): four rounds of
`LLIterator_Get` and `LLIterator_Next` yield 5, 4, 3, 2 and leave the iterator on the
last node, whose payload is 1; the fifth `LLIterator_Next`, which the test requires
to return false, returns true and leaves the iterator past the end. -/
theorem next_calls_of_the_iterator_test :
    appendAll (LinkedList_New : LinkedList Nat) [5, 4, 3, 2, 1] = some chainOf5 ∧
    LLIterator_walk chainOf5 4 (LLIterator_New 0 chainOf5) =
      some ([5, 4, 3, 2], { list := 0, node := some 4 }) ∧
    LLIterator_Get chainOf5 { list := 0, node := some 4 } none = some (some 1) ∧
    LLIterator_Next chainOf5 { list := 0, node := some 4 } =
      some (true, { list := 0, node := none }) ∧
    LLIterator_IsValid { list := 0, node := none } = false :=
  ⟨rfl, rfl, rfl, rfl, rfl⟩

/-- The loop of `FNVHash64` folds the octets from index `bp` on into `hval`. -/
theorem FNVHash64_loop_fold (buffer : List (Fin 256)) :
    ∀ (k bp hval : Nat), bp + k = buffer.length →
      FNVHash64_loop buffer k bp hval =
        some ((buffer.drop bp).foldl
          (fun hval byte => ((hval ^^^ byte.val) * 0x100000001b3) % 2 ^ 64) hval) := by
  intro k
  induction k with
  | zero =>
    intro bp hval h
    have : buffer.drop bp = [] := List.drop_eq_nil_of_le (by omega)
    simp [FNVHash64_loop, this]
  | succ k ih =>
    intro bp hval h
    have hlt : bp < buffer.length := by omega
    have hd : buffer.drop bp = buffer[bp] :: buffer.drop (bp + 1) :=
      List.drop_eq_getElem_cons hlt
    simp only [FNVHash64_loop, List.getElem?_eq_getElem hlt, ih (bp + 1) _ (by omega), hd,
      List.foldl_cons, FNV_64_PRIME]

/-- C33: for every byte buffer, `FNVHash64` called with the length of the buffer
returns the 64-bit FNV-1a fold of its bytes, which is below 2^64; on the empty
buffer that is 0xcbf29ce484222325. -/
theorem C33_FNVHash64_is_fnv1a_fold (buffer : List (Fin 256)) :
    FNVHash64 buffer buffer.length = some (fnv1a_fold buffer) ∧
    fnv1a_fold buffer < 2 ^ 64 ∧
    FNVHash64 [] 0 = some 0xcbf29ce484222325 := by
  refine ⟨?_, ?_, rfl⟩
  · have h0 : ¬ ((buffer.length : Int) < 0) := by omega
    simp only [FNVHash64, h0, if_false, Int.toNat_ofNat, FNV1_64_INIT]
    rw [FNVHash64_loop_fold buffer buffer.length 0 _ (by omega)]
    rfl
  · unfold fnv1a_fold
    have key : ∀ (bs : List (Fin 256)) (h : Nat), h < 2 ^ 64 →
        bs.foldl (fun hval byte => ((hval ^^^ byte.val) * 0x100000001b3) % 2 ^ 64) h
          < 2 ^ 64 := by
      intro bs
      induction bs with
      | nil => intro h hh; exact hh
      | cons b bs ih =>
        intro h _
        exact ih _ (Nat.mod_lt _ (by norm_num))
    exact key buffer _ (by norm_num)

/-- Two known values of 64-bit FNV-1a: the hashes of the texts "a" and "foobar". -/
theorem FNVHash64_of_known_texts :
    FNVHash64 [0x61] 1 = some 0xaf63dc4c8601ec8c ∧
    FNVHash64 [0x66, 0x6f, 0x6f, 0x62, 0x61, 0x72] 6 = some 0x85944171f73967e8 ∧
    FNVHash64 [0x61] 2 = none ∧ FNVHash64 [0x61] (-1) = none := by
  refine ⟨by decide, by decide, by decide, by decide⟩

/-- Writing back the element that is at an index leaves a list as it is. -/
theorem set_of_getElem? {γ : Type} : ∀ (l : List γ) (i : Nat) (x : γ),
    l[i]? = some x → l.set i x = l := by
  intro l
  induction l with
  | nil => intro i x h; rfl
  | cons a l ih =>
    intro i x h
    cases i with
    | zero =>
      simp only [List.getElem?_cons_zero, Option.some.injEq] at h
      rw [h]; rfl
    | succ i =>
      simp only [List.getElem?_cons_succ] at h
      simp only [List.set_cons_succ, ih i x h]

/-- The loop of `HashTable_Find` returns what the chain scan finds and the node
memory it was given. -/
theorem HashTable_Find_scan_eq (cmp : K → K → Bool) (key : K) :
    ∀ (fuel : Nat) (mem : Nat → Option (LinkedListNode (HTKeyValue_t K V))) (p : Option Nat),
      HashTable_Find_scan cmp key fuel mem p =
        match chainFind (fun kv => cmp kv.key key) mem fuel p with
        | none => none
        | some (some (_, node)) => some (true, some node.payload, mem)
        | some none => some (false, none, mem) := by
  intro fuel
  induction fuel with
  | zero =>
    intro mem p
    cases p <;> rfl
  | succ fuel ih =>
    intro mem p
    cases p with
    | none => rfl
    | some a =>
      simp only [HashTable_Find_scan, chainFind]
      cases hm : mem a with
      | none => rfl
      | some node =>
        dsimp only
        by_cases ht : cmp node.payload.key key = true
        · simp only [ht, if_true]
        · simp only [ht, if_false]
          exact ih mem node.next

/-- The function `HashTable_Find` as a state transformer returns the result of
`HashTable_Find` and the table it was given. -/
theorem HashTable_Find_state_eq (fuel : Nat) (t : HashTable K V) (hash : Nat) (key : K) :
    HashTable_Find_state fuel t hash key =
      (HashTable_Find fuel t hash key).map (fun r => (r.1, r.2, t)) := by
  unfold HashTable_Find_state HashTable_Find
  cases hb : HashKeyToBucketNum t hash with
  | none => rfl
  | some bucket =>
    dsimp only
    cases hc : t.buckets[bucket]? with
    | none => rfl
    | some chain =>
      dsimp only
      rw [HashTable_Find_scan_eq]
      have hset : t.buckets.set bucket chain = t.buckets := set_of_getElem? _ _ _ hc
      cases hf : chainFind (fun kv => t.key_cmp_fn kv.key key) chain.mem fuel chain.head with
      | none => rfl
      | some r =>
        cases r with
        | none =>
          simp only [Option.map_some', hset]
        | some an =>
          simp only [Option.map_some', hset]

/-- C32: `HashTable_Find` never mutates.  On a table that satisfies the representation
invariant (so `bucket_count > 0`), for every hash and key, every call that returns
leaves the table as it was, with the result of `HashTable_Find`, and with fuel
covering the element count the call returns. -/
theorem C32_find_never_mutates (t : HashTable K V)
    (bs : List (List (Nat × HTKeyValue_t K V))) (hinv : TableInv t bs)
    (fuel hash : Nat) (key : K) (hfuel : t.num_elements ≤ fuel) :
    (∀ fuel1 r out t1, HashTable_Find_state fuel1 t hash key = some (r, out, t1) →
      t1 = t ∧ HashTable_Find fuel1 t hash key = some (r, out)) ∧
    ∃ r out, HashTable_Find_state fuel t hash key = some (r, out, t) ∧
      HashTable_Find fuel t hash key = some (r, out) := by
  constructor
  · intro fuel1 r out t1 h
    rw [HashTable_Find_state_eq] at h
    cases hf : HashTable_Find fuel1 t hash key with
    | none => rw [hf] at h; simp at h
    | some res =>
      rw [hf] at h
      simp only [Option.map_some', Option.some.injEq, Prod.mk.injEq] at h
      obtain ⟨h1, h2, h3⟩ := h
      refine ⟨h3.symm, ?_⟩
      rw [← h1, ← h2]
  · obtain ⟨l, cs, hl, _, hwf, hlen⟩ := TableInv_bucket hinv hash
    obtain ⟨⟨r, out⟩, hres⟩ := HashTable_Find_total fuel t hash key l cs hinv.pos hl
      (Chain_fwd hwf.chain) (by omega)
    exact ⟨r, out, by rw [HashTable_Find_state_eq, hres]; rfl, hres⟩

/-- An instance of C32: two buckets that hold the entries for 0 to 5, a key that is
stored and one that is not. -/
theorem C32_find_never_mutates_witness :
    HashTable_Find_state 6 tableFull2 3 3 = some (true, some (entryOf 3), tableFull2) ∧
    HashTable_Find_state 6 tableFull2 7 7 = some (false, none, tableFull2) ∧
    ((∀ fuel1 r out t1, HashTable_Find_state fuel1 tableFull2 3 3 = some (r, out, t1) →
      t1 = tableFull2 ∧ HashTable_Find fuel1 tableFull2 3 3 = some (r, out)) ∧
    ∃ r out, HashTable_Find_state 6 tableFull2 3 3 = some (r, out, tableFull2) ∧
      HashTable_Find 6 tableFull2 3 3 = some (r, out)) := by
  refine ⟨?_, ?_, ?_⟩
  · rw [HashTable_Find_state_eq]; rfl
  · rw [HashTable_Find_state_eq]; rfl
  · exact (ReachableIt_inv (by decide) tableFull2_reachableIt).2.2.elim
      (fun bs hinv => C32_find_never_mutates tableFull2 bs hinv 6 3 3 (by decide))

/-- C31 fails at the threshold: the grow check does depend on `num_elements` alone,
but on every table with at least one bucket and `num_elements >= 3 * num_buckets`
the grow has no result, whatever the insert function and the fuel, and so no
`HashTable_Insert` returns, also not the overwrite of a key that is present. -/
theorem C31_overwrite_at_threshold_never_returns (t : HashTable K V)
    (e : HTKeyValue_t K V)
    (insert : HashTable K V → HTKeyValue_t K V →
      Option (Bool × Option (HTKeyValue_t K V) × HashTable K V))
    (hpos : 0 < t.num_buckets) (hth : 3 * t.num_buckets ≤ t.num_elements) :
    (∀ fuel, MaybeResize insert fuel t = none) ∧
    ∀ fuel, HashTable_Insert fuel t e = none :=
  ⟨fun fuel => MaybeResize_threshold insert fuel t hpos hth,
   fun fuel => HashTable_Insert_threshold fuel t e hpos hth⟩

/-- An instance of C31, the example of the claim: two buckets that hold the entries
for 0 to 5, where the key 5 is found, and the repeated insert of the entry for 5. -/
theorem C31_overwrite_at_threshold_never_returns_witness :
    0 < tableFull2.num_buckets ∧ 3 * tableFull2.num_buckets ≤ tableFull2.num_elements ∧
    HashTable_Find 3 tableFull2 5 5 = some (true, some (entryOf 5)) ∧
    ((∀ fuel, MaybeResize (HashTable_Insert 6) fuel tableFull2 = none) ∧
     ∀ fuel, HashTable_Insert fuel tableFull2 (entryOf 5) = none) :=
  ⟨by decide, by decide, rfl,
    C31_overwrite_at_threshold_never_returns tableFull2 (entryOf 5) (HashTable_Insert 6)
      (by decide) (by decide)⟩

/-- On a chain that ends in `nullptr`, the scan finds the first cell whose payload
passes the test. -/
theorem chainFind_find (test : α → Bool) (mem : Nat → Option (LinkedListNode α)) :
    ∀ (cs : List (Nat × α)) (fuel : Nat) (p : Option Nat), Fwd mem p cs → cs.length ≤ fuel →
      ∃ r, chainFind test mem fuel p = some r ∧
        r.map (fun x => x.2.payload) = (cs.map Prod.snd).find? test := by
  intro cs
  induction cs with
  | nil =>
    intro fuel p h _
    have hp : p = none := h
    subst hp
    exact ⟨none, by cases fuel <;> rfl, rfl⟩
  | cons c cs ih =>
    intro fuel p h hf
    obtain ⟨hp, n, hn, hpay, hrest⟩ := h
    subst hp
    cases fuel with
    | zero => simp at hf
    | succ fuel =>
      by_cases ht : test n.payload = true
      · refine ⟨some (c.1, n), by simp only [chainFind, hn, ht, if_true], ?_⟩
        simp only [Option.map_some', List.map_cons, List.find?_cons, ← hpay, ht]
      · obtain ⟨r, hr, hmap⟩ := ih fuel n.next hrest (by simpa using hf)
        refine ⟨r, by simp only [chainFind, hn, ht, if_false]; exact hr, ?_⟩
        have ht1 : test c.2 = false := by rw [← hpay]; simpa using ht
        simp only [List.map_cons, List.find?_cons, ht1, hmap]

/-- On a table that satisfies the invariant, `HashTable_Find` returns the first entry
of the bucket of the hash, head first, whose key the predicate relates to the key. -/
theorem HashTable_Find_cells (fuel : Nat) (t : HashTable K V)
    (bs : List (List (Nat × HTKeyValue_t K V))) (hinv : TableInv t bs) (hash : Nat) (key : K)
    (cs : List (Nat × HTKeyValue_t K V)) (hcs : bs[hash % t.num_buckets]? = some cs)
    (hf : t.num_elements ≤ fuel) :
    HashTable_Find fuel t hash key =
      some (match (cs.map Prod.snd).find? (fun kv => t.key_cmp_fn kv.key key) with
            | some kv => (true, some kv)
            | none => (false, none)) := by
  obtain ⟨l, cs1, hl, hcs1, hwf, hlen⟩ := TableInv_bucket hinv hash
  rw [hcs] at hcs1
  have hcc : cs = cs1 := Option.some.inj hcs1
  subst hcc
  obtain ⟨r, hr, hmap⟩ := chainFind_find (fun kv => t.key_cmp_fn kv.key key) l.mem cs fuel
    l.head (Chain_fwd hwf.chain) (by omega)
  simp only [HashTable_Find, HashKeyToBucketNum_pos t hash hinv.pos, hl, hr]
  rw [← hmap]
  cases r with
  | none => rfl
  | some an => rfl

/-- Cells that fail a test do not matter to the first cell that passes it. -/
theorem find?_skip {γ : Type} (test : γ → Bool) (pre post : List γ) (c d : γ)
    (hc : test c = false) (hd : test d = false) :
    (pre ++ d :: post).find? test = (pre ++ c :: post).find? test ∧
    (pre ++ post).find? test = (pre ++ c :: post).find? test := by
  induction pre with
  | nil => simp [List.find?_cons, hc, hd]
  | cons a pre ih =>
    simp only [List.cons_append, List.find?_cons]
    cases test a with
    | true => exact ⟨rfl, rfl⟩
    | false => exact ih

/-- An insert below the threshold does not disturb the lookup of a key that the
predicate (symmetric and transitive) does not relate to the inserted key. -/
theorem HashTable_Find_frame_Insert (fuel : Nat) (t t1 : HashTable K V)
    (e : HTKeyValue_t K V) (r : Bool) (old : Option (HTKeyValue_t K V))
    (bs : List (List (Nat × HTKeyValue_t K V))) (hinv : TableInv t bs)
    (hsymm : ∀ a b, t.key_cmp_fn a b = true → t.key_cmp_fn b a = true)
    (htrans : ∀ a b c, t.key_cmp_fn a b = true → t.key_cmp_fn b c = true →
      t.key_cmp_fn a c = true)
    (h : HashTable_Insert fuel t e = some (r, old, t1))
    (hash1 : Nat) (key1 : K) (hne : t.key_cmp_fn e.key key1 = false)
    (hf : t.num_elements < fuel) :
    HashTable_Find fuel t1 hash1 key1 = HashTable_Find fuel t hash1 key1 := by
  obtain ⟨_, hnb, hcmp, l, cs, _, hcs, _, hcase⟩ :=
    HashTable_Insert_sound fuel t t1 e r old bs hinv h
  obtain ⟨_, cs0, _, hcs0, _, _⟩ := TableInv_bucket hinv hash1
  have hib : e.hash % t.num_buckets < bs.length := by
    rw [List.getElem?_eq_some_iff] at hcs; exact hcs.1
  rw [HashTable_Find_cells fuel t bs hinv hash1 key1 cs0 hcs0 (by omega)]
  have hrel : ∀ c : HTKeyValue_t K V, t.key_cmp_fn c.key e.key = true →
      t.key_cmp_fn c.key key1 = false := by
    intro c hc
    cases hv : t.key_cmp_fn c.key key1 with
    | false => rfl
    | true =>
      have := htrans _ _ _ (hsymm _ _ hc) hv
      rw [hne] at this; cases this
  rcases hcase with ⟨_, _, _, hnum, hinv1⟩ | ⟨pre, c, post, hsplit, _, hc, _, _, hnum, hinv1⟩
  · by_cases hb : hash1 % t.num_buckets = e.hash % t.num_buckets
    · have hcs1 : (bs.set (e.hash % t.num_buckets) ((l.brk, e) :: cs))[hash1 % t1.num_buckets]?
          = some ((l.brk, e) :: cs) := by
        rw [hnb, hb]; exact List.getElem?_set_self hib
      rw [HashTable_Find_cells fuel t1 _ hinv1 hash1 key1 _ hcs1 (by omega), hcmp]
      rw [hb, hcs] at hcs0
      have : cs = cs0 := Option.some.inj hcs0
      subst this
      simp only [List.map_cons, List.find?_cons, hne]
    · have hcs1 : (bs.set (e.hash % t.num_buckets) ((l.brk, e) :: cs))[hash1 % t1.num_buckets]?
          = some cs0 := by
        rw [hnb, List.getElem?_set_ne (Ne.symm hb)]; exact hcs0
      rw [HashTable_Find_cells fuel t1 _ hinv1 hash1 key1 _ hcs1 (by omega), hcmp]
  · by_cases hb : hash1 % t.num_buckets = e.hash % t.num_buckets
    · have hcs1 : (bs.set (e.hash % t.num_buckets) (pre ++ (c.1, e) :: post))[
          hash1 % t1.num_buckets]? = some (pre ++ (c.1, e) :: post) := by
        rw [hnb, hb]; exact List.getElem?_set_self hib
      rw [HashTable_Find_cells fuel t1 _ hinv1 hash1 key1 _ hcs1 (by omega), hcmp]
      rw [hb, hcs] at hcs0
      have : cs = cs0 := Option.some.inj hcs0
      subst this
      subst hsplit
      have := (find?_skip (fun kv => t.key_cmp_fn kv.key key1) (pre.map Prod.snd)
        (post.map Prod.snd) c.2 e (hrel c.2 hc) hne).1
      simp only [List.map_append, List.map_cons]
      rw [this]
    · have hcs1 : (bs.set (e.hash % t.num_buckets) (pre ++ (c.1, e) :: post))[
          hash1 % t1.num_buckets]? = some cs0 := by
        rw [hnb, List.getElem?_set_ne (Ne.symm hb)]; exact hcs0
      rw [HashTable_Find_cells fuel t1 _ hinv1 hash1 key1 _ hcs1 (by omega), hcmp]

/-- A removal does not disturb the lookup of a key that the predicate (symmetric and
transitive) does not relate to the removed key. -/
theorem HashTable_Find_frame_Remove [DecidableEq K] [DecidableEq V] (fuel : Nat)
    (t t1 : HashTable K V) (hash : Nat) (key : K) (r : Bool)
    (old : Option (HTKeyValue_t K V))
    (bs : List (List (Nat × HTKeyValue_t K V))) (hinv : TableInv t bs)
    (hsymm : ∀ a b, t.key_cmp_fn a b = true → t.key_cmp_fn b a = true)
    (htrans : ∀ a b c, t.key_cmp_fn a b = true → t.key_cmp_fn b c = true →
      t.key_cmp_fn a c = true)
    (h : HashTable_Remove fuel t hash key = some (r, old, t1))
    (hash1 : Nat) (key1 : K) (hne : t.key_cmp_fn key key1 = false)
    (hf : t.num_elements ≤ fuel) :
    HashTable_Find fuel t1 hash1 key1 = HashTable_Find fuel t hash1 key1 := by
  obtain ⟨hnb, hcmp, l, cs, _, hcs, _, hcase⟩ :=
    HashTable_Remove_sound fuel t t1 hash key r old bs hinv h
  rcases hcase with ⟨_, _, ht1, _⟩ | ⟨pre, c, post, hsplit, _, hc, _, _, hnum, hinv1⟩
  · rw [ht1]
  · obtain ⟨_, cs0, _, hcs0, _, _⟩ := TableInv_bucket hinv hash1
    have hib : hash % t.num_buckets < bs.length := by
      rw [List.getElem?_eq_some_iff] at hcs; exact hcs.1
    rw [HashTable_Find_cells fuel t bs hinv hash1 key1 cs0 hcs0 hf]
    have hrel : t.key_cmp_fn c.2.key key1 = false := by
      cases hv : t.key_cmp_fn c.2.key key1 with
      | false => rfl
      | true =>
        have := htrans _ _ _ (hsymm _ _ hc) hv
        rw [hne] at this; cases this
    by_cases hb : hash1 % t.num_buckets = hash % t.num_buckets
    · have hcs1 : (bs.set (hash % t.num_buckets) (pre ++ post))[hash1 % t1.num_buckets]?
          = some (pre ++ post) := by
        rw [hnb, hb]; exact List.getElem?_set_self hib
      rw [HashTable_Find_cells fuel t1 _ hinv1 hash1 key1 _ hcs1 (by omega), hcmp]
      rw [hb, hcs] at hcs0
      have : cs = cs0 := Option.some.inj hcs0
      subst this
      subst hsplit
      have := (find?_skip (fun kv => t.key_cmp_fn kv.key key1) (pre.map Prod.snd)
        (post.map Prod.snd) c.2 c.2 hrel hrel).2
      simp only [List.map_append, List.map_cons]
      rw [this]
    · have hcs1 : (bs.set (hash % t.num_buckets) (pre ++ post))[hash1 % t1.num_buckets]?
          = some cs0 := by
        rw [hnb, List.getElem?_set_ne (Ne.symm hb)]; exact hcs0
      rw [HashTable_Find_cells fuel t1 _ hinv1 hash1 key1 _ hcs1 (by omega), hcmp]

/-- C34 fails when the insert grows the table: with two buckets that hold the entries
for 0 to 5 the key 0 is found, 6 is not related to 0, and the insert of the entry
for 6 never returns, so there is no lookup of 0 after it, whatever the fuel. -/
theorem C34_no_lookup_after_an_insert_that_grows :
    HashTable_Find 3 tableFull2 0 0 = some (true, some (entryOf 0)) ∧
    natKeyEq (entryOf 6).key 0 = false ∧
    3 * tableFull2.num_buckets ≤ tableFull2.num_elements ∧
    ∀ fuel, (HashTable_Insert fuel tableFull2 (entryOf 6)).bind
      (fun res => HashTable_Find fuel res.2.2 0 0) = none := by
  refine ⟨rfl, rfl, by decide, ?_⟩
  intro fuel
  rw [HashTable_Insert_threshold fuel tableFull2 (entryOf 6) (by decide) (by decide)]
  rfl

/-- On a table that satisfies the invariant, whose buckets hold no two related keys
and whose entries carry the hash of their key, no two stored keys are related
when related keys carry equal hashes. -/
theorem TableInv_pairwise_keys {t : HashTable K V}
    {bs : List (List (Nat × HTKeyValue_t K V))} (key_equal : K → K → Bool)
    (hashOf : K → Nat) (hinv : TableInv t bs) (hdist : BucketsDistinct key_equal bs)
    (hsok : StoredOk (fun e => e.hash = hashOf e.key) bs)
    (hhash : ∀ a b, key_equal a b = true → hashOf a = hashOf b) :
    bs.flatten.Pairwise (fun c d => key_equal c.2.key d.2.key = false) := by
  rw [List.pairwise_flatten]
  refine ⟨hdist, ?_⟩
  rw [List.pairwise_iff_getElem]
  intro i j hi hj hij x hx y hy
  cases hv : key_equal x.2.key y.2.key with
  | false => rfl
  | true =>
    have hbi : bs[i]? = some bs[i] := List.getElem?_eq_getElem hi
    have hbj : bs[j]? = some bs[j] := List.getElem?_eq_getElem hj
    have h1 := hinv.home i _ hbi x hx
    have h2 := hinv.home j _ hbj y hy
    have h3 := hsok _ (List.getElem_mem hi) x hx
    have h4 := hsok _ (List.getElem_mem hj) y hy
    simp only at h3 h4
    rw [h3, hhash _ _ hv, ← h4, h2] at h1
    omega

/-- C35: for a symmetric and transitive key predicate whose related keys carry equal
hashes, in every table reached from `HashTable_New(n, key_equal)`, `n > 0`, by
inserts and removes that return, no two stored entries have related keys. -/
theorem C35_no_two_stored_entries_have_equal_keys [DecidableEq K] [DecidableEq V]
    (n : Nat) (key_equal : K → K → Bool) (hashOf : K → Nat) (t : HashTable K V) (hn : 0 < n)
    (hsymm : ∀ a b, key_equal a b = true → key_equal b a = true)
    (htrans : ∀ a b c, key_equal a b = true → key_equal b c = true → key_equal a c = true)
    (hhash : ∀ a b, key_equal a b = true → hashOf a = hashOf b)
    (h : Reachable (fun e => e.hash = hashOf e.key) n key_equal t) :
    ∃ bs, TableCells t bs ∧
      bs.flatten.Pairwise (fun c d => key_equal c.2.key d.2.key = false) := by
  obtain ⟨_, _, bs, hinv, hdist, hsok⟩ := Reachable_inv_distinct hn hsymm htrans h
  exact ⟨bs, TableInv_cells hinv, TableInv_pairwise_keys key_equal hashOf hinv hdist hsok hhash⟩

/-- An instance of C35: two buckets that hold the entries for 0 to 5. -/
theorem C35_no_two_stored_entries_have_equal_keys_witness :
    Reachable (fun e => e.hash = e.key) 2 natKeyEq tableFull2 ∧
    ∃ bs, TableCells tableFull2 bs ∧
      bs.flatten.Pairwise (fun c d => natKeyEq c.2.key d.2.key = false) :=
  have hreach : Reachable (fun e => e.hash = e.key) 2 natKeyEq tableFull2 :=
    insertAll_reachable _ 2 natKeyEq 4 _ _ _ Reachable.new
      (by intro e he; simp only [List.mem_cons, List.mem_singleton, List.not_mem_nil,
            or_false] at he
          rcases he with rfl | rfl | rfl | rfl | rfl | rfl <;> rfl)
      tableFull2_eq
  ⟨hreach,
    C35_no_two_stored_entries_have_equal_keys 2 natKeyEq (fun k => k) tableFull2 (by decide)
      natKeyEq_symm natKeyEq_trans (by intro a b h; simpa [natKeyEq] using h) hreach⟩

/-- Following `next` along a chain that ends in `nullptr` reaches as many nodes as
the chain has cells. -/
theorem countNext_fwd {mem : Nat → Option (LinkedListNode α)} :
    ∀ (cs : List (Nat × α)) (fuel : Nat) (p : Option Nat), Fwd mem p cs → cs.length ≤ fuel →
      countNext mem fuel p = some cs.length := by
  intro cs
  induction cs with
  | nil =>
    intro fuel p h _
    have hp : p = none := h
    subst hp
    cases fuel <;> rfl
  | cons c cs ih =>
    intro fuel p h hf
    obtain ⟨hp, n, hn, _, hrest⟩ := h
    subst hp
    cases fuel with
    | zero => simp at hf
    | succ fuel =>
      simp only [countNext, hn, ih fuel n.next hrest (by simpa using hf), Option.map_some',
        List.length_cons]

/-- Following `prev` from a cell of a well-linked chain reaches that cell and the
cells before it. -/
theorem countPrev_chain {mem : Nat → Option (LinkedListNode α)} :
    ∀ (k : Nat) (pre : List (Nat × α)) (c : Nat × α) (post : List (Nat × α))
      (p : Option Nat) (fuel : Nat), pre.length = k →
      Chain mem none p (pre ++ c :: post) → k + 1 ≤ fuel →
      countPrev mem fuel (some c.1) = some (k + 1) := by
  intro k
  induction k with
  | zero =>
    intro pre c post p fuel hlen hch hf
    have hpre : pre = [] := List.length_eq_zero.mp hlen
    subst hpre
    obtain ⟨n, hn, _, hprev, _⟩ := Chain_split c post [] none p hch
    have hprev1 : n.prev = none := hprev
    cases fuel with
    | zero => omega
    | succ fuel =>
      simp only [countPrev, hn, hprev1]
      cases fuel <;> rfl
  | succ k ih =>
    intro pre c post p fuel hlen hch hf
    rcases List.eq_nil_or_concat pre with hnil | ⟨pre1, d, hpre⟩
    · rw [hnil] at hlen; simp at hlen
    · rw [List.concat_eq_append] at hpre
      subst hpre
      obtain ⟨n, hn, _, hprev, _⟩ := Chain_split c post (pre1 ++ [d]) none p hch
      rw [lastAddr_snoc] at hprev
      have hlen1 : pre1.length = k := by simpa using hlen
      have hch1 : Chain mem none p (pre1 ++ d :: (c :: post)) := by
        simpa using hch
      cases fuel with
      | zero => omega
      | succ fuel =>
        have := ih pre1 d (c :: post) p fuel hlen1 hch1 (by omega)
        simp only [countPrev, hn, hprev, this, Option.map_some']

/-- On a chain that satisfies the invariant, the count is the number of nodes reached
by following `next` from `head` and the number reached by following `prev` from
`tail`. -/
theorem count_of_ListInv (list : LinkedList α) (cs : List (Nat × α)) (h : ListInv list cs)
    (fuel : Nat) (hf : list.num_elements ≤ fuel) :
    countNext list.mem fuel list.head = some (LinkedList_NumElements list) ∧
    countPrev list.mem fuel list.tail = some (LinkedList_NumElements list) := by
  have hcount : LinkedList_NumElements list = cs.length := h.1.count
  rw [hcount]
  refine ⟨countNext_fwd cs fuel list.head (Chain_fwd h.1.chain) (by rw [← h.1.count]; exact hf),
    ?_⟩
  rcases List.eq_nil_or_concat cs with hnil | ⟨pre, c, hcs⟩
  · subst hnil
    have ht : list.tail = none := h.2
    rw [ht]
    cases fuel <;> rfl
  · rw [List.concat_eq_append] at hcs
    subst hcs
    have ht : list.tail = some c.1 := by rw [h.2, lastAddr_snoc]
    rw [ht]
    have hch : Chain list.mem none list.head (pre ++ c :: []) := h.1.chain
    have hlen : (pre ++ [c]).length = pre.length + 1 := by simp
    rw [hlen]
    exact countPrev_chain pre.length pre c [] list.head fuel rfl hch
      (by rw [← hlen, ← h.1.count]; exact hf)

/-- C36 fails on chains that an emptying `LinkedList_Pop` or `LinkedList_Slice` has left:
after Push, Pop, Push the count is 1 and following `next` from `head` reaches one
node, but `tail` points to the deleted node and following `prev` from it reaches
no node; after Push, Pop the count is 0 and `tail` points to the deleted node;
after Append, Slice the count is 0 and `head` points to the deleted node. -/
theorem C36_count_is_not_the_number_of_nodes_from_tail :
    ReachableList chainPushPopPush ∧
    LinkedList_NumElements chainPushPopPush = 1 ∧
    countNext chainPushPopPush.mem 1 chainPushPopPush.head = some 1 ∧
    chainPushPopPush.tail = some 0 ∧ chainPushPopPush.mem 0 = none ∧
    (∀ fuel, countPrev chainPushPopPush.mem fuel chainPushPopPush.tail = none) ∧
    ReachableList chainPushPop ∧ LinkedList_NumElements chainPushPop = 0 ∧
    (∀ fuel, countPrev chainPushPop.mem fuel chainPushPop.tail = none) ∧
    ReachableList chainAppendSlice ∧ LinkedList_NumElements chainAppendSlice = 0 ∧
    (∀ fuel, countNext chainAppendSlice.mem fuel chainAppendSlice.head = none) := by
  refine ⟨ReachableList.push _ _ _ chainPushPop_reachable chainPushPopPush_eq, rfl, rfl, rfl,
    rfl, ?_, chainPushPop_reachable, rfl, ?_, chainAppendSlice_reachable, rfl, ?_⟩
  · intro fuel; cases fuel <;> rfl
  · intro fuel; cases fuel <;> rfl
  · intro fuel; cases fuel <;> rfl

end Llht
